import Mathlib

/-!
# Concurrency toolkit of `go-concurrency`: embedding and properties

Shallow embedding of the Go sources under `src/go-concurrency`.

* Go `error` values are an arbitrary type `ε`; `Option ε` is a Go `error`
  variable, `none` being `nil`.
* `time.Duration` is an `Int` number of nanoseconds; signed 64-bit
  arithmetic wraps through `wrap64`.
* A `select` between several ready cases, and the scheduling of goroutines,
  is resolved by explicit scheduler input (an oracle function or a list of
  actions), so that every interleaving is covered by quantifying over it.
-/

namespace GoConcurrency

/-! ## rate_limiting.go : `retryWithBackoff` -/

/-- Two's-complement wrap of an integer into the signed 64-bit range. -/
def wrap64 (x : Int) : Int := (x + 2 ^ 63) % 2 ^ 64 - 2 ^ 63

/-- The constant `5 * time.Second` in nanoseconds. -/
def fiveSeconds : Int := 5000000000

/-- Which case of the `select` in the backoff was taken: `<-time.After(sleep)`,
or `<-ctx.Done()`, after which `ctx.Err()` returned `err`. -/
inductive BackoffSelect (ε : Type) where
  | timer : BackoffSelect ε
  | cancelled (err : ε) : BackoffSelect ε
  deriving DecidableEq, Repr

/-- Observable record of one call of `retryWithBackoff`: the returned error,
the attempt numbers passed to `fn` in call order, and the value of `delay`
at each backoff that was started. -/
structure RetryRun (ε : Type) where
  result : Option ε
  calls : List Int
  delays : List Int
  deriving DecidableEq, Repr

/-- The statements `delay *= 2; if delay > 5*time.Second { delay = 5*time.Second }`. -/
def nextDelay (delay : Int) : Int :=
  let doubled := wrap64 (delay * 2)
  if doubled > fiveSeconds then fiveSeconds else doubled

/-- The `for attempt := ...; attempt <= maxAttempts; attempt++` loop of
`retryWithBackoff`. `fn attempt` is the error returned by the call
`fn(attempt)` (each attempt number is passed at most once, so a stateful
closure is covered) and `sel attempt` is the case taken by the `select`
that follows the failed attempt. `none` means the fuel ran out. -/
def retryLoop {ε : Type} (maxAttempts : Int) (fn : Int → Option ε)
    (sel : Int → BackoffSelect ε) :
    Nat → Int → Int → List Int → List Int → Option (RetryRun ε)
  | 0, _, _, _, _ => none
  | fuel + 1, attempt, delay, calls, delays =>
    if attempt ≤ maxAttempts then
      match fn attempt with
      | none => some ⟨none, calls ++ [attempt], delays⟩
      | some err =>
        if attempt = maxAttempts then
          some ⟨some err, calls ++ [attempt], delays⟩
        else
          match sel attempt with
          | .timer =>
            retryLoop maxAttempts fn sel fuel (attempt + 1) (nextDelay delay)
              (calls ++ [attempt]) (delays ++ [delay])
          | .cancelled ctxErr =>
            some ⟨some ctxErr, calls ++ [attempt], delays ++ [delay]⟩
    else some ⟨none, calls, delays⟩

/-- Embedding of `retryWithBackoff(ctx, maxAttempts, baseDelay, fn)`. -/
def retryWithBackoff {ε : Type} (maxAttempts : Int) (baseDelay : Int)
    (fn : Int → Option ε) (sel : Int → BackoffSelect ε) : Option (RetryRun ε) :=
  retryLoop maxAttempts fn sel (maxAttempts.toNat + 1) 1 baseDelay [] []

/-- The attempt numbers `a, a+1, ..., a+n-1`. -/
def attemptsFrom (a : Int) (n : Nat) : List Int :=
  List.map (fun i : Nat => a + (i : Int)) (List.range n)

/-- The values of `delay` at `n` consecutive backoffs starting from `d`. -/
def delaysFrom (d : Int) (n : Nat) : List Int :=
  List.map (fun i : Nat => nextDelay^[i] d) (List.range n)

/-! ## shutdown.go : `guardedGo` -/

/-- Value carried by a panic: a value raised by user code with `panic(v)`, or
the runtime error raised by calling a nil func value. A value recovered from a
panicking goroutine is never nil. -/
inductive Fault (π : Type) where
  | user (v : π) : Fault π
  | nilFuncCall : Fault π
  deriving DecidableEq, Repr

/-- What the call `fn()` does: returns an error value, or panics. -/
inductive FnOutcome (ε π : Type) where
  | returns (err : Option ε) : FnOutcome ε π
  | panics (v : Fault π) : FnOutcome ε π
  deriving DecidableEq, Repr

/-- A func-typed parameter: `none` is a nil func; `some cb` is a func whose call
on `x` returns normally when `cb x = none` and panics with `w` when
`cb x = some w`. -/
abbrev Callback (α π : Type) := Option (α → Option (Fault π))

/-- Observable steps of one `guardedGo` call and of the goroutine it starts. -/
inductive GuardEvent (ε π : Type) where
  | wgAdd (delta : Int) : GuardEvent ε π
  | callFn : GuardEvent ε π
  | callOnError (err : ε) : GuardEvent ε π
  | callOnPanic (r : Fault π) : GuardEvent ε π
  | wgDone : GuardEvent ε π
  deriving DecidableEq, Repr

/-- Record of one `guardedGo` call: the steps in order, and the panic with
which the goroutine terminates the program, if it does. -/
structure GuardRun (ε π : Type) where
  events : List (GuardEvent ε π)
  crash : Option (Fault π)
  deriving DecidableEq, Repr

/-- The goroutine body `if err := fn(); err != nil && onError != nil { onError(err) }`:
the steps taken and the panic in flight when the body is left, if any. -/
def guardedBody {ε π : Type} (fn : FnOutcome ε π) (onError : Callback ε π) :
    List (GuardEvent ε π) × Option (Fault π) :=
  match fn with
  | .panics v => ([.callFn], some v)
  | .returns none => ([.callFn], none)
  | .returns (some err) =>
    match onError with
    | none => ([.callFn], none)
    | some cb => ([.callFn, .callOnError err], cb err)

/-- The deferred `func() { if r := recover(); r != nil { onPanic(r) } }()`,
given the panic in flight: the steps taken and the panic in flight afterwards.
`onPanic` is called without a nil check. -/
def guardedRecover {ε π : Type} (inFlight : Option (Fault π))
    (onPanic : Callback (Fault π) π) : List (GuardEvent ε π) × Option (Fault π) :=
  match inFlight with
  | none => ([], none)
  | some r =>
    match onPanic with
    | none => ([], some .nilFuncCall)
    | some cb => ([.callOnPanic r], cb r)

/-- Embedding of `guardedGo(wg, fn, onPanic, onError)` together with the
goroutine it starts: `wg.Add(1)`, the body, the deferred recover, the deferred
`wg.Done()` (deferred calls run in reverse order, also while panicking). -/
def guardedGo {ε π : Type} (fn : FnOutcome ε π) (onPanic : Callback (Fault π) π)
    (onError : Callback ε π) : GuardRun ε π :=
  let body := guardedBody fn onError
  let recovered := guardedRecover body.2 onPanic
  ⟨[.wgAdd 1] ++ body.1 ++ recovered.1 ++ [.wgDone], recovered.2⟩

/-! ## shutdown.go : `workerPool` -/

/-- Where a worker goroutine of `newWorkerPool` stands: blocked in
`for task := range pool.tasks`, inside `task()`, or past the loop with its
deferred `pool.wg.Done()` executed. Tasks are identified by numbers. -/
inductive WorkerPhase where
  | idle : WorkerPhase
  | running (task : Nat) : WorkerPhase
  | exited : WorkerPhase
  deriving DecidableEq, Repr

/-- State of `stopOnce`: not used yet, executing its function, or done. -/
inductive OncePhase where
  | fresh : OncePhase
  | running : OncePhase
  | done : OncePhase
  deriving DecidableEq, Repr

/-- Where a call of `Shutdown` stands: executing the function given to
`stopOnce.Do` (at `p.wg.Wait()`), blocked in `stopOnce.Do` while another call
executes it, or returned. -/
inductive ShutdownCall where
  | draining : ShutdownCall
  | blocked : ShutdownCall
  | returned : ShutdownCall
  deriving DecidableEq, Repr

/-- State of a `workerPool` and of the goroutines using it. `senders` are the
`Submit` calls that passed the check of `p.stopped` and stand at
`p.tasks <- task`. `accepted`, `dropped` and `finished` record the tasks handed
to a worker, the tasks whose `Submit` returned at the `p.stopped` check, and the
tasks whose call `task()` returned; `closeTasks` and `closeStopped` count the
executions of `close(p.tasks)` and `close(p.stopped)`. `crashed` is set by a
panic, which terminates the program. -/
structure PoolState where
  tasksClosed : Bool
  stoppedClosed : Bool
  wg : Int
  workers : List WorkerPhase
  stopOnce : OncePhase
  senders : List Nat
  callers : List ShutdownCall
  accepted : List Nat
  dropped : List Nat
  finished : List Nat
  closeTasks : Nat
  closeStopped : Nat
  crashed : Bool
  deriving DecidableEq, Repr

/-- Scheduler choices for a `workerPool`. -/
inductive PoolAction where
  /-- A call `Submit(task)` executes its `select` on `p.stopped`. -/
  | submitCheck (task : Nat) : PoolAction
  /-- The send `p.tasks <- task` of a `Submit` call completes with `worker`
  receiving, or panics because the channel is closed. -/
  | submitSend (task : Nat) (worker : Nat) : PoolAction
  /-- The call `task()` of `worker` returns. -/
  | taskReturn (worker : Nat) : PoolAction
  /-- The call `task()` of `worker` panics. -/
  | taskPanic (worker : Nat) : PoolAction
  /-- The `range` of `worker` sees the closed channel; the worker runs `wg.Done()`. -/
  | workerExit (worker : Nat) : PoolAction
  /-- A new call of `Shutdown` reaches `stopOnce.Do`. -/
  | shutdownEnter : PoolAction
  /-- The `p.wg.Wait()` of `caller` returns; it closes `p.stopped` and returns. -/
  | shutdownDrained (caller : Nat) : PoolAction
  /-- A call blocked in `stopOnce.Do` returns after the function has completed. -/
  | shutdownUnblock (caller : Nat) : PoolAction
  deriving DecidableEq, Repr

/-- Embedding of `newWorkerPool(workers)`: unbuffered open `tasks`, open
`stopped`, `wg.Add(workers)` (which panics on a negative counter) and
`workers` goroutines at their `range`. -/
def newWorkerPool (workers : Int) : PoolState :=
  { tasksClosed := false, stoppedClosed := false,
    wg := if workers < 0 then 0 else workers,
    workers := List.replicate workers.toNat WorkerPhase.idle,
    stopOnce := OncePhase.fresh, senders := [], callers := [],
    accepted := [], dropped := [], finished := [],
    closeTasks := 0, closeStopped := 0,
    crashed := decide (workers < 0) }

/-- One scheduling step of the pool; `none` when the action is not enabled. -/
def poolStep (s : PoolState) (a : PoolAction) : Option PoolState :=
  if s.crashed then none else
  match a with
  | .submitCheck t =>
    if s.stoppedClosed then some { s with dropped := s.dropped ++ [t] }
    else some { s with senders := s.senders ++ [t] }
  | .submitSend t w =>
    if t ∈ s.senders then
      if s.tasksClosed then some { s with crashed := true }
      else
        match s.workers[w]? with
        | some .idle =>
          some { s with senders := s.senders.erase t,
                        workers := s.workers.set w (.running t),
                        accepted := s.accepted ++ [t] }
        | _ => none
    else none
  | .taskReturn w =>
    match s.workers[w]? with
    | some (.running t) =>
      some { s with workers := s.workers.set w .idle, finished := s.finished ++ [t] }
    | _ => none
  | .taskPanic w =>
    match s.workers[w]? with
    | some (.running _) => some { s with crashed := true }
    | _ => none
  | .workerExit w =>
    match s.workers[w]? with
    | some .idle =>
      if s.tasksClosed then
        if s.wg ≤ 0 then some { s with crashed := true }
        else some { s with workers := s.workers.set w .exited, wg := s.wg - 1 }
      else none
    | _ => none
  | .shutdownEnter =>
    match s.stopOnce with
    | .fresh =>
      if s.tasksClosed then some { s with crashed := true }
      else some { s with stopOnce := .running, tasksClosed := true,
                         closeTasks := s.closeTasks + 1,
                         callers := s.callers ++ [.draining] }
    | .running => some { s with callers := s.callers ++ [.blocked] }
    | .done => some { s with callers := s.callers ++ [.returned] }
  | .shutdownDrained c =>
    match s.callers[c]? with
    | some .draining =>
      if s.wg = 0 then
        if s.stoppedClosed then some { s with crashed := true }
        else some { s with stoppedClosed := true, stopOnce := .done,
                           closeStopped := s.closeStopped + 1,
                           callers := s.callers.set c .returned }
      else none
    | _ => none
  | .shutdownUnblock c =>
    match s.callers[c]? with
    | some .blocked =>
      if s.stopOnce = .done then some { s with callers := s.callers.set c .returned }
      else none
    | _ => none

/-- Run a schedule from a state; `none` when some action is not enabled. -/
def poolRun (s : PoolState) : List PoolAction → Option PoolState
  | [] => some s
  | a :: rest => (poolStep s a).bind (fun s' => poolRun s' rest)

/-- Number of workers inside `task()` for task `t`. -/
def runningCount (t : Nat) (workers : List WorkerPhase) : Nat :=
  workers.countP (fun w => decide (w = WorkerPhase.running t))

/-- Number of workers that have not executed `wg.Done()`. -/
def liveWorkers (workers : List WorkerPhase) : Nat :=
  workers.countP (fun w => decide (w ≠ WorkerPhase.exited))

/-- Number of `Shutdown` calls executing the function of `stopOnce`. -/
def drainingCalls (callers : List ShutdownCall) : Nat :=
  callers.countP (fun c => decide (c = ShutdownCall.draining))

/-- Invariant of the reachable pool states. -/
structure PoolInv (s : PoolState) : Prop where
  counts : ∀ t, s.finished.count t + runningCount t s.workers = s.accepted.count t
  wgLive : s.wg = (liveWorkers s.workers : Int)
  doneDrained : s.stopOnce = OncePhase.done → s.wg = 0
  returnedDone : ∀ c : Nat, s.callers[c]? = some ShutdownCall.returned →
    s.stopOnce = OncePhase.done
  draining : drainingCalls s.callers = if s.stopOnce = OncePhase.running then 1 else 0
  tasksFlag : s.tasksClosed = true ↔ s.stopOnce ≠ OncePhase.fresh
  stoppedFlag : s.stoppedClosed = true ↔ s.stopOnce = OncePhase.done
  closeTasksOnce : s.closeTasks = if s.stopOnce = OncePhase.fresh then 0 else 1
  closeStoppedOnce : s.closeStopped = if s.stopOnce = OncePhase.done then 1 else 0

/-! ## sync_primitives.go : `limitedParallel` -/

/-- A task `func(context.Context) error`: the error it returns, as a function
of the value of `ctx.Err()` at the moment it returns. -/
abbrev Task (ε : Type) := Option ε → Option ε

/-- Where the goroutine started for one task stands: at the `select`; inside
`fn(ctx)` with a permit; back from `fn(ctx)` with its result, before the
`if err != nil`; past the `if`, before the deferred `<-sem`; before the deferred
`wg.Done()` (after releasing the permit, or after the `ctx.Done()` case);
finished. -/
inductive GoPhase (ε : Type) where
  | waiting : GoPhase ε
  | running : GoPhase ε
  | returned (err : Option ε) : GoPhase ε
  | holding : GoPhase ε
  | leaving : GoPhase ε
  | done : GoPhase ε
  deriving DecidableEq, Repr

/-- Where the caller of `limitedParallel` stands: inside the function (in the
`for` loop or at `wg.Wait()`), or returned with a value. -/
inductive MainPhase (ε : Type) where
  | running : MainPhase ε
  | returned (result : Option ε) : MainPhase ε
  deriving DecidableEq, Repr

/-- State of one call of `limitedParallel`. `ctxErr` is the current value of
`ctx.Err()`; `cap` and `sem` are the capacity of the channel `sem` and the
number of elements in it; `gs` holds the goroutines in the order of the tasks
(its length is the loop index). `invoked`, `completed`, `recorded` and
`abandoned` record, in order, the tasks whose body was entered, the results
returned by the bodies, the `once.Do` calls made with an error, and the
goroutines that took the `ctx.Done()` case; `writes` counts the assignments to
`first`. -/
structure LPState (ε : Type) where
  ctxErr : Option ε
  cap : Nat
  sem : Nat
  wg : Int
  onceDone : Bool
  first : Option ε
  main : MainPhase ε
  gs : List (GoPhase ε)
  invoked : List Nat
  completed : List (Nat × Option ε)
  recorded : List (Nat × ε)
  abandoned : List Nat
  writes : Nat
  deriving DecidableEq, Repr

/-- Scheduler choices for a call of `limitedParallel`. -/
inductive LPAction (ε : Type) where
  /-- The context is cancelled; `ctx.Err()` returns `err` from now on. -/
  | cancel (err : ε) : LPAction ε
  /-- One iteration of the `for` loop: the `ctx.Err()` check, then `wg.Add(1)`
  and the `go` statement. -/
  | spawn : LPAction ε
  /-- The `select` of goroutine `i` takes `sem <- struct{}{}`. -/
  | acquire (i : Nat) : LPAction ε
  /-- The `select` of goroutine `i` takes `<-ctx.Done()`. -/
  | abandon (i : Nat) : LPAction ε
  /-- The call `fn(ctx)` of goroutine `i` returns. -/
  | finish (i : Nat) : LPAction ε
  /-- Goroutine `i` executes `if err != nil { once.Do(...) }`. -/
  | record (i : Nat) : LPAction ε
  /-- Goroutine `i` executes the deferred `<-sem`. -/
  | release (i : Nat) : LPAction ε
  /-- Goroutine `i` executes the deferred `wg.Done()`. -/
  | done (i : Nat) : LPAction ε
  /-- The call `wg.Wait()` returns and `limitedParallel` returns `first`. -/
  | wait : LPAction ε
  deriving DecidableEq, Repr

/-- State at the entry of `limitedParallel(ctx, tasks, limit)`, after
`if limit <= 0 { limit = 1 }` and `make(chan struct{}, limit)`. -/
def limitedParallelInit {ε : Type} (ctxErr : Option ε) (limit : Int) : LPState ε :=
  { ctxErr := ctxErr, cap := if limit ≤ 0 then 1 else limit.toNat, sem := 0, wg := 0,
    onceDone := false, first := none, main := MainPhase.running, gs := [],
    invoked := [], completed := [], recorded := [], abandoned := [], writes := 0 }

/-- One scheduling step of `limitedParallel`; `none` when the action is not
enabled (a send on the full `sem`, a `wg.Wait()` with a positive counter, ...). -/
def limitedParallelStep {ε : Type} (tasks : List (Task ε)) (s : LPState ε) :
    LPAction ε → Option (LPState ε)
  | .cancel err =>
    match s.ctxErr with
    | none => some { s with ctxErr := some err }
    | some _ => none
  | .spawn =>
    match s.main with
    | .running =>
      if s.gs.length < tasks.length then
        match s.ctxErr with
        | some err => some { s with main := .returned (some err) }
        | none => some { s with wg := s.wg + 1, gs := s.gs ++ [.waiting] }
      else none
    | .returned _ => none
  | .acquire i =>
    match s.gs[i]? with
    | some .waiting =>
      if s.sem < s.cap then
        some { s with sem := s.sem + 1, gs := s.gs.set i .running,
                      invoked := s.invoked ++ [i] }
      else none
    | _ => none
  | .abandon i =>
    match s.gs[i]? with
    | some .waiting =>
      match s.ctxErr with
      | some _ => some { s with gs := s.gs.set i .leaving, abandoned := s.abandoned ++ [i] }
      | none => none
    | _ => none
  | .finish i =>
    match s.gs[i]?, tasks[i]? with
    | some .running, some fn =>
      some { s with gs := s.gs.set i (.returned (fn s.ctxErr)),
                    completed := s.completed ++ [(i, fn s.ctxErr)] }
    | _, _ => none
  | .record i =>
    match s.gs[i]? with
    | some (.returned none) => some { s with gs := s.gs.set i .holding }
    | some (.returned (some err)) =>
      if s.onceDone then
        some { s with gs := s.gs.set i .holding, recorded := s.recorded ++ [(i, err)] }
      else
        some { s with gs := s.gs.set i .holding, recorded := s.recorded ++ [(i, err)],
                      onceDone := true, first := some err, writes := s.writes + 1 }
    | _ => none
  | .release i =>
    match s.gs[i]? with
    | some .holding =>
      if 0 < s.sem then some { s with sem := s.sem - 1, gs := s.gs.set i .leaving }
      else none
    | _ => none
  | .done i =>
    match s.gs[i]? with
    | some .leaving =>
      if 0 < s.wg then some { s with wg := s.wg - 1, gs := s.gs.set i .done }
      else none
    | _ => none
  | .wait =>
    match s.main with
    | .running =>
      if s.gs.length = tasks.length ∧ s.wg = 0 then
        some { s with main := .returned s.first }
      else none
    | .returned _ => none

/-- Run a schedule of `limitedParallel`; `none` when some action is not enabled. -/
def limitedParallelRun {ε : Type} (tasks : List (Task ε)) (s : LPState ε) :
    List (LPAction ε) → Option (LPState ε)
  | [] => some s
  | a :: rest => (limitedParallelStep tasks s a).bind (fun s' => limitedParallelRun tasks s' rest)

/-- Whether a goroutine holds a permit: it has sent to `sem` and not yet
received from it. -/
def GoPhase.holdsPermit {ε : Type} : GoPhase ε → Bool
  | .running => true
  | .returned _ => true
  | .holding => true
  | _ => false

/-- Number of goroutines holding a permit. -/
def permitHolders {ε : Type} (gs : List (GoPhase ε)) : Nat :=
  gs.countP GoPhase.holdsPermit

/-- Whether a goroutine has not yet executed `wg.Done()`. -/
def GoPhase.live {ε : Type} : GoPhase ε → Bool
  | .done => false
  | _ => true

/-- Number of goroutines that have not yet executed `wg.Done()`. -/
def liveGoroutines {ε : Type} (gs : List (GoPhase ε)) : Nat :=
  gs.countP GoPhase.live

/-- The error of the first failed entry of a completion record, `none` when no
entry failed. -/
def firstFailure {ε : Type} : List (Nat × Option ε) → Option ε
  | [] => none
  | (_, some err) :: _ => some err
  | (_, none) :: rest => firstFailure rest

/-- Invariant of `limitedParallel` on the permits: the channel `sem` holds one
element per goroutine between its send and its receive, within the capacity. -/
structure LPPermitInv {ε : Type} (cap : Nat) (s : LPState ε) : Prop where
  capEq : s.cap = cap
  semHeld : s.sem = permitHolders s.gs
  semCap : s.sem ≤ s.cap

/-! ## errgroup_patterns.go : `errgroupWithSemaphore`

The library types are embedded by their documented behaviour:
`semaphore.Weighted` is a counter `cur` bounded by `size`, where
`Acquire(ctx, 1)` returns nil after `cur` was raised by one (possible only when
`cur + 1 <= size`) or returns `ctx.Err()` once the context is done, and
`Release(1)` lowers `cur` by one; an `errgroup.Group` made by `WithContext`
keeps the first non-nil error returned by a function passed to `Go`, cancels
the derived context at that moment, and `Wait` returns that error after all
the functions have returned. -/

/-- Where the goroutine of one job stands: inside the `select` of the function
passed to `g.Go`; returned from it with a result, before the deferred
`sem.Release(1)`; past the release, before the bookkeeping of the group;
finished. -/
inductive JobPhase (ε : Type) where
  | working : JobPhase ε
  | finished (err : Option ε) : JobPhase ε
  | released (err : Option ε) : JobPhase ε
  | done : JobPhase ε
  deriving DecidableEq, Repr

/-- State of one call of `errgroupWithSemaphore`: the error of the derived
context, the semaphore (`size`, `cur`), the counter and the error of the group,
the caller and the goroutines in job order. -/
structure SemGroupState (ε : Type) where
  ctxErr : Option ε
  size : Int
  cur : Int
  wg : Int
  groupErr : Option ε
  main : MainPhase ε
  gs : List (JobPhase ε)
  deriving DecidableEq, Repr

/-- Scheduler choices for a call of `errgroupWithSemaphore`. -/
inductive SemGroupAction (ε : Type) where
  /-- The parent context is cancelled: the derived `ctx.Err()` becomes `err`. -/
  | cancel (err : ε) : SemGroupAction ε
  /-- The call `sem.Acquire(ctx, 1)` of the loop returns nil and `g.Go` starts
  the goroutine of the next job. -/
  | acquireGo : SemGroupAction ε
  /-- The call `sem.Acquire(ctx, 1)` of the loop returns `ctx.Err()`. -/
  | acquireFail : SemGroupAction ε
  /-- The `select` of job `i` takes `<-time.After(...)`; the function returns nil. -/
  | jobTimer (i : Nat) : SemGroupAction ε
  /-- The `select` of job `i` takes `<-ctx.Done()`; the function returns `ctx.Err()`. -/
  | jobCancelled (i : Nat) : SemGroupAction ε
  /-- Job `i` executes the deferred `sem.Release(1)`. -/
  | jobRelease (i : Nat) : SemGroupAction ε
  /-- The group records the result of job `i` and marks the goroutine done. -/
  | jobDone (i : Nat) : SemGroupAction ε
  /-- The call `g.Wait()` returns and `errgroupWithSemaphore` returns its error. -/
  | wait : SemGroupAction ε
  deriving DecidableEq, Repr

/-- State at the entry of `errgroupWithSemaphore(ctx, jobs, limit)`, after
`errgroup.WithContext(ctx)` and `semaphore.NewWeighted(limit)`. -/
def errgroupWithSemaphoreInit {ε : Type} (ctxErr : Option ε) (limit : Int) :
    SemGroupState ε :=
  { ctxErr := ctxErr, size := limit, cur := 0, wg := 0, groupErr := none,
    main := MainPhase.running, gs := [] }

/-- One scheduling step of `errgroupWithSemaphore`; `none` when the action is
not enabled. `canceled` is the error `context.Canceled`. -/
def errgroupWithSemaphoreStep {ε : Type} (canceled : ε) (jobs : List Int)
    (s : SemGroupState ε) : SemGroupAction ε → Option (SemGroupState ε)
  | .cancel err =>
    match s.ctxErr with
    | none => some { s with ctxErr := some err }
    | some _ => none
  | .acquireGo =>
    match s.main with
    | .running =>
      if s.gs.length < jobs.length ∧ s.cur + 1 ≤ s.size then
        some { s with cur := s.cur + 1, wg := s.wg + 1, gs := s.gs ++ [.working] }
      else none
    | .returned _ => none
  | .acquireFail =>
    match s.main, s.ctxErr with
    | .running, some err =>
      if s.gs.length < jobs.length then some { s with main := .returned (some err) }
      else none
    | _, _ => none
  | .jobTimer i =>
    match s.gs[i]? with
    | some .working => some { s with gs := s.gs.set i (.finished none) }
    | _ => none
  | .jobCancelled i =>
    match s.gs[i]?, s.ctxErr with
    | some .working, some err => some { s with gs := s.gs.set i (.finished (some err)) }
    | _, _ => none
  | .jobRelease i =>
    match s.gs[i]? with
    | some (.finished r) => some { s with cur := s.cur - 1, gs := s.gs.set i (.released r) }
    | _ => none
  | .jobDone i =>
    match s.gs[i]? with
    | some (.released none) => some { s with wg := s.wg - 1, gs := s.gs.set i .done }
    | some (.released (some err)) =>
      match s.groupErr with
      | some _ => some { s with wg := s.wg - 1, gs := s.gs.set i .done }
      | none =>
        some { s with wg := s.wg - 1, gs := s.gs.set i .done, groupErr := some err,
                      ctxErr := some (s.ctxErr.getD canceled) }
    | _ => none
  | .wait =>
    match s.main with
    | .running =>
      if s.gs.length = jobs.length ∧ s.wg = 0 then
        some { s with main := .returned s.groupErr,
                      ctxErr := some (s.ctxErr.getD canceled) }
      else none
    | .returned _ => none

/-- Run a schedule of `errgroupWithSemaphore`. -/
def errgroupWithSemaphoreRun {ε : Type} (canceled : ε) (jobs : List Int)
    (s : SemGroupState ε) : List (SemGroupAction ε) → Option (SemGroupState ε)
  | [] => some s
  | a :: rest =>
    (errgroupWithSemaphoreStep canceled jobs s a).bind
      (fun s' => errgroupWithSemaphoreRun canceled jobs s' rest)

/-- Whether the goroutine of a job holds a permit of the semaphore. -/
def JobPhase.holdsPermit {ε : Type} : JobPhase ε → Bool
  | .working => true
  | .finished _ => true
  | _ => false

/-- Number of job goroutines holding a permit. -/
def jobPermitHolders {ε : Type} (gs : List (JobPhase ε)) : Nat :=
  gs.countP JobPhase.holdsPermit

/-- Invariant of `errgroupWithSemaphore` on the permits. -/
structure SemGroupInv {ε : Type} (limit : Int) (s : SemGroupState ε) : Prop where
  sizeEq : s.size = limit
  curHeld : s.cur = (jobPermitHolders s.gs : Int)
  curSize : s.cur ≤ s.size

/-- Invariant of `limitedParallel` on the `first` slot: it holds the error of the
earliest `once.Do` call and has been assigned at most once. -/
structure LPFirstInv {ε : Type} (s : LPState ε) : Prop where
  firstRec : s.first = (s.recorded.head?).map Prod.snd
  onceRec : s.onceDone = true ↔ s.recorded ≠ []
  writesRec : s.writes = if s.recorded.isEmpty then 0 else 1

/-- Invariant of `limitedParallel` on the wait group: the counter is the number
of unfinished goroutines, and a value returned while the context was never
cancelled is the value of `first` after all goroutines have finished. -/
structure LPWaitInv {ε : Type} (s : LPState ε) : Prop where
  wgLive : s.wg = (liveGoroutines s.gs : Int)
  retFirst : ∀ r, s.main = MainPhase.returned r →
    s.ctxErr ≠ none ∨ (s.wg = 0 ∧ r = s.first)

/-- Invariant of `limitedParallel` relating the records: an error passed to
`once.Do` was returned by that task's body, an error returned by a body is
passed to `once.Do` as soon as the goroutine has left the `if`, and without
cancellation a recorded result is the task's result for a live context. -/
structure LPRecordInv {ε : Type} (tasks : List (Task ε)) (s : LPState ε) : Prop where
  recCompleted : ∀ p ∈ s.recorded, (p.1, some p.2) ∈ s.completed
  failRec : ∀ (i : Nat) (e : ε), (i, some e) ∈ s.completed →
    (i, e) ∈ s.recorded ∨ s.gs[i]? = some (GoPhase.returned (some e))
  retCompleted : ∀ (i : Nat) (r : Option ε), s.gs[i]? = some (GoPhase.returned r) →
    (i, r) ∈ s.completed
  live : s.ctxErr = none →
    ∀ p ∈ s.completed, ∃ fn, tasks[p.1]? = some fn ∧ p.2 = fn none

/-! ## rate_limiting.go : `userLimiter` -/

/-- A `rate.Limiter`: the limit and burst it was built with and the rest of its
state (tokens, time of the last update), of a type `σ` left to the library. -/
structure Bucket (L σ : Type) where
  limit : L
  burst : Int
  state : σ

/-- The struct `userLimiter`. The map holds pointers: `limiters` maps a user to
the index in `heap` of its `rate.Limiter`; `none` is the nil map. -/
structure userLimiter (L σ : Type) where
  limiters : Option (String → Option Nat)
  heap : List (Bucket L σ)
  limit : L
  burst : Int

/-- The map read `limiter, ok := u.limiters[userID]`. -/
def userLimiter.lookup {L σ : Type} (u : userLimiter L σ) (userID : String) : Option Nat :=
  u.limiters.bind (fun m => m userID)

/-- Embedding of `newUserLimiter(limit, burst)`. -/
def newUserLimiter {L σ : Type} (limit : L) (burst : Int) : userLimiter L σ :=
  { limiters := some (fun _ => none), heap := [], limit := limit, burst := burst }

/-- Embedding of `(u *userLimiter) Allow(ctx, userID)`. `fresh` is the state of
a limiter returned by `rate.NewLimiter`, `allow` is the effect and the result
of `limiter.Allow()` (library code, reading the clock), `rateErr` is the error
built by `errors.New`, `ctxErr` is `ctx.Err()`. The result is `none` when the call
panics: an assignment to an entry of a nil map. -/
def userLimiter.Allow {L σ ε : Type} (fresh : σ)
    (allow : Bucket L σ → Bucket L σ × Bool) (rateErr : ε)
    (u : userLimiter L σ) (ctxErr : Option ε) (userID : String) :
    Option (Option ε × userLimiter L σ) :=
  let found : Option (Nat × userLimiter L σ) :=
    match u.lookup userID with
    | some p => some (p, u)
    | none =>
      match u.limiters with
      | none => none
      | some m =>
        some (u.heap.length,
          { u with limiters := some (fun k => if k = userID then some u.heap.length else m k),
                   heap := u.heap ++ [⟨u.limit, u.burst, fresh⟩] })
  match found with
  | none => none
  | some (p, u1) =>
    match u1.heap[p]? with
    | none => none
    | some b =>
      let r := allow b
      some (if r.2 then ctxErr else some rateErr, { u1 with heap := u1.heap.set p r.1 })

/-- The state after a sequence of `Allow` calls on a limiter made by
`newUserLimiter`; each call is given by its user and its `ctx.Err()`, the head
of the list being the latest call. -/
def userLimiter.after {L σ ε : Type} (fresh : σ)
    (allow : Bucket L σ → Bucket L σ × Bool) (rateErr : ε) (limit : L) (burst : Int) :
    List (String × Option ε) → Option (userLimiter L σ)
  | [] => some (newUserLimiter limit burst)
  | call :: earlier =>
    (userLimiter.after fresh allow rateErr limit burst earlier).bind
      (fun u => (u.Allow fresh allow rateErr call.2 call.1).map Prod.snd)

/-- The map is allocated and every pointer stored in it points into the heap. -/
structure userLimiter.WellFormed {L σ : Type} (u : userLimiter L σ) : Prop where
  allocated : u.limiters.isSome = true
  inHeap : ∀ k p, u.lookup k = some p → p < u.heap.length

/-! ## pipelines.go : `pipelineWithBackpressure` -/

/-- Where the goroutine of `pipelineWithBackpressure` stands: at the receive of
`for job := range jobs`, at the `select` with a job in hand, or finished (the
deferred `close(out)` executed). -/
inductive StagePhase where
  | idle : StagePhase
  | holding (job : Int) : StagePhase
  | done : StagePhase
  deriving DecidableEq, Repr

/-- State of one `pipelineWithBackpressure` stage with its producer and its
consumer: `pending` are the items not yet received from `jobs` (which is closed
behind them), `buf` is the content of the buffered channel `out` of capacity
`cap`, `received` are the values the consumer has received from `out`. -/
structure BackpressureState where
  ctxDone : Bool
  pending : List Int
  stage : StagePhase
  buf : List Int
  cap : Nat
  outClosed : Bool
  received : List Int
  deriving DecidableEq, Repr

/-- Scheduler choices for a `pipelineWithBackpressure` stage. -/
inductive BackpressureAction where
  /-- The context is cancelled. -/
  | cancel : BackpressureAction
  /-- The `range` receives the next job. -/
  | recv : BackpressureAction
  /-- The `select` takes `out <- job`; the value goes into the buffer. -/
  | sendBuffer : BackpressureAction
  /-- The `select` takes `out <- job`; the buffer is empty and the value goes
  to the consumer waiting at its receive. -/
  | sendDirect : BackpressureAction
  /-- The consumer receives the oldest buffered value. -/
  | consume : BackpressureAction
  /-- The `select` takes `<-ctx.Done()`; the goroutine returns and closes `out`. -/
  | abort : BackpressureAction
  /-- The `range` ends on the closed, drained `jobs`; the goroutine closes `out`. -/
  | finish : BackpressureAction
  deriving DecidableEq, Repr

/-- State after `pipelineWithBackpressure(ctx, jobs, buffer)` has made `out`
and started its goroutine; `none` for the panic of `make` on a negative size. -/
def pipelineWithBackpressure (input : List Int) (buffer : Int) :
    Option BackpressureState :=
  if buffer < 0 then none
  else some { ctxDone := false, pending := input, stage := .idle, buf := [],
              cap := buffer.toNat, outClosed := false, received := [] }

/-- One scheduling step of the stage; `none` when the action is not enabled. -/
def backpressureStep (s : BackpressureState) : BackpressureAction → Option BackpressureState
  | .cancel => some { s with ctxDone := true }
  | .recv =>
    match s.stage, s.pending with
    | .idle, job :: rest => some { s with stage := .holding job, pending := rest }
    | _, _ => none
  | .sendBuffer =>
    match s.stage with
    | .holding job =>
      if s.buf.length < s.cap then some { s with stage := .idle, buf := s.buf ++ [job] }
      else none
    | _ => none
  | .sendDirect =>
    match s.stage, s.buf with
    | .holding job, [] => some { s with stage := .idle, received := s.received ++ [job] }
    | _, _ => none
  | .consume =>
    match s.buf with
    | v :: rest => some { s with buf := rest, received := s.received ++ [v] }
    | [] => none
  | .abort =>
    match s.stage with
    | .holding _ => if s.ctxDone then some { s with stage := .done, outClosed := true } else none
    | _ => none
  | .finish =>
    match s.stage, s.pending with
    | .idle, [] => some { s with stage := .done, outClosed := true }
    | _, _ => none

/-- Run a schedule of the stage. -/
def backpressureRun (s : BackpressureState) :
    List BackpressureAction → Option BackpressureState
  | [] => some s
  | a :: rest => (backpressureStep s a).bind (fun s' => backpressureRun s' rest)

/-- The job held by the goroutine, as a list. -/
def StagePhase.held : StagePhase → List Int
  | .holding job => [job]
  | _ => []

/-- Invariant of the stage: the buffer is within its capacity, `out` is closed
only by the finished goroutine, and without cancellation the values received,
buffered, held and pending are the input in order, none pending once finished. -/
structure BackpressureInv (input : List Int) (cap : Nat) (s : BackpressureState) :
    Prop where
  capEq : s.cap = cap
  bounded : s.buf.length ≤ s.cap
  closedDone : s.outClosed = true → s.stage = StagePhase.done
  order : s.ctxDone = false → s.received ++ s.buf ++ s.stage.held ++ s.pending = input
  drained : s.ctxDone = false → s.stage = StagePhase.done → s.pending = []

/-- The schedule that hands every job directly to a waiting consumer. -/
def directSchedule : List Int → List BackpressureAction
  | [] => [.finish]
  | _ :: rest => .recv :: .sendDirect :: directSchedule rest

/-- Whether a goroutine has left its `select` (by either case). -/
def GoPhase.entered {ε : Type} : GoPhase ε → Bool
  | .waiting => false
  | _ => true

/-- Invariant of `limitedParallel` on the invocations: a value is returned
without cancellation only after the loop has started every task, and without
cancellation a body has been entered once by each goroutine that has left its
`select` and by no other. -/
structure LPInvokeInv {ε : Type} (tasks : List (Task ε)) (s : LPState ε) : Prop where
  retLen : ∀ r, s.main = MainPhase.returned r →
    s.ctxErr ≠ none ∨ s.gs.length = tasks.length
  invokedOnce : s.ctxErr = none → ∀ (i : Nat) (p : GoPhase ε), s.gs[i]? = some p →
    s.invoked.count i = if p.entered then 1 else 0
  invokedNone : s.ctxErr = none → ∀ i : Nat, s.gs.length ≤ i → s.invoked.count i = 0

/-- The schedule that starts goroutine `i` and runs it to its end at once. -/
def roundSchedule {ε : Type} (i : Nat) : List (LPAction ε) :=
  [.spawn, .acquire i, .finish i, .record i, .release i, .done i]

/-- The schedule that runs the first `n` tasks one after the other. -/
def serialRounds {ε : Type} : Nat → List (LPAction ε)
  | 0 => []
  | n + 1 => serialRounds n ++ roundSchedule n

/-! ## pipelines.go : `pipelineFanOutFanIn`, `mergeChannels` -/

/-- Where a goroutine started by `process` stands: at the receive of
`for job := range in`; at the first `select` (the timer) with a job; at the
second `select` with the value `job * job` to send; finished, its `out` closed. -/
inductive ProcPhase where
  | idle : ProcPhase
  | sleeping (job : Int) : ProcPhase
  | sending (val : Int) : ProcPhase
  | closed : ProcPhase
  deriving DecidableEq, Repr

/-- Where a forwarding goroutine of `mergeChannels` stands: at the receive of
`for val := range ch`; at the `select` with a value to send on `out`; finished,
its deferred `wg.Done()` executed. -/
inductive MergePhase where
  | idle : MergePhase
  | sending (val : Int) : MergePhase
  | done : MergePhase
  deriving DecidableEq, Repr

/-- State of one `pipelineFanOutFanIn` call and of its consumer: `sent` is the
loop index of the producer goroutine, `inputClosed` tells that it has finished
and closed `input`; worker `w` consists of the goroutine `procs[w]` and of the
forwarder `mergers[w]` reading its channel; `wg` is the counter of
`mergeChannels`, `outClosed` tells that the merged channel is closed, `emitted`
are the values received from it so far; `crashed` is set by a panic. -/
structure FanState where
  ctxDone : Bool
  sent : Nat
  inputClosed : Bool
  procs : List ProcPhase
  mergers : List MergePhase
  wg : Int
  outClosed : Bool
  emitted : List Int
  crashed : Bool
  deriving DecidableEq, Repr

/-- Scheduler choices for a `pipelineFanOutFanIn` call. -/
inductive FanAction where
  /-- The context is cancelled. -/
  | cancel : FanAction
  /-- The producer sends the next job on `input` and worker `w` receives it. -/
  | produce (w : Nat) : FanAction
  /-- The producer's loop is over; it closes `input`. -/
  | producerClose : FanAction
  /-- The producer's `select` takes `<-ctx.Done()`; it returns and closes `input`. -/
  | producerAbort : FanAction
  /-- The first `select` of worker `w` takes the timer. -/
  | timer (w : Nat) : FanAction
  /-- The `range` of worker `w` ends on the closed `input`; it closes its channel. -/
  | procClose (w : Nat) : FanAction
  /-- A `select` of worker `w` takes `<-ctx.Done()`; it returns and closes its channel. -/
  | procAbort (w : Nat) : FanAction
  /-- Worker `w` sends its value on its channel and its forwarder receives it. -/
  | forward (w : Nat) : FanAction
  /-- Forwarder `w` sends its value on the merged channel to the consumer. -/
  | emit (w : Nat) : FanAction
  /-- The `range` of forwarder `w` ends on the closed channel; it runs `wg.Done()`. -/
  | mergerDone (w : Nat) : FanAction
  /-- The `select` of forwarder `w` takes `<-ctx.Done()`; it runs `wg.Done()`. -/
  | mergerAbort (w : Nat) : FanAction
  /-- The call `wg.Wait()` returns and the merged channel is closed. -/
  | closeOut : FanAction
  deriving DecidableEq, Repr

/-- The transformation `job * job` on `int`. -/
def square (job : Int) : Int := wrap64 (job * job)

/-- State after `pipelineFanOutFanIn(ctx, jobs, workers)` has returned: all the
goroutines are started, `wg.Add(len(chans))` is done. -/
def pipelineFanOutFanIn (workers : Int) : FanState :=
  { ctxDone := false, sent := 0, inputClosed := false,
    procs := List.replicate workers.toNat ProcPhase.idle,
    mergers := List.replicate workers.toNat MergePhase.idle,
    wg := workers.toNat, outClosed := false, emitted := [], crashed := false }

/-- One scheduling step of the pipeline; `none` when the action is not enabled. -/
def fanStep (jobs : List Int) (s : FanState) (a : FanAction) : Option FanState :=
  if s.crashed then none else
  match a with
  | .cancel => some { s with ctxDone := true }
  | .produce w =>
    if s.inputClosed then none else
    match s.procs[w]?, jobs[s.sent]? with
    | some .idle, some job =>
      some { s with sent := s.sent + 1, procs := s.procs.set w (.sleeping job) }
    | _, _ => none
  | .producerClose =>
    if s.inputClosed then none
    else if s.sent = jobs.length then some { s with inputClosed := true }
    else none
  | .producerAbort =>
    if s.inputClosed then none
    else if s.sent < jobs.length ∧ s.ctxDone = true then some { s with inputClosed := true }
    else none
  | .timer w =>
    match s.procs[w]? with
    | some (.sleeping job) => some { s with procs := s.procs.set w (.sending (square job)) }
    | _ => none
  | .procClose w =>
    match s.procs[w]? with
    | some .idle =>
      if s.inputClosed then some { s with procs := s.procs.set w .closed } else none
    | _ => none
  | .procAbort w =>
    match s.procs[w]? with
    | some (.sleeping _) =>
      if s.ctxDone then some { s with procs := s.procs.set w .closed } else none
    | some (.sending _) =>
      if s.ctxDone then some { s with procs := s.procs.set w .closed } else none
    | _ => none
  | .forward w =>
    match s.procs[w]?, s.mergers[w]? with
    | some (.sending val), some .idle =>
      some { s with procs := s.procs.set w .idle, mergers := s.mergers.set w (.sending val) }
    | _, _ => none
  | .emit w =>
    match s.mergers[w]? with
    | some (.sending val) =>
      if s.outClosed then some { s with crashed := true }
      else some { s with mergers := s.mergers.set w .idle, emitted := s.emitted ++ [val] }
    | _ => none
  | .mergerDone w =>
    match s.mergers[w]?, s.procs[w]? with
    | some .idle, some .closed =>
      if 0 < s.wg then some { s with mergers := s.mergers.set w .done, wg := s.wg - 1 }
      else none
    | _, _ => none
  | .mergerAbort w =>
    match s.mergers[w]? with
    | some (.sending _) =>
      if s.ctxDone ∧ 0 < s.wg then
        some { s with mergers := s.mergers.set w .done, wg := s.wg - 1 }
      else none
    | _ => none
  | .closeOut =>
    if s.wg = 0 ∧ s.outClosed = false then some { s with outClosed := true } else none

/-- Run a schedule of the pipeline. -/
def fanRun (jobs : List Int) (s : FanState) : List FanAction → Option FanState
  | [] => some s
  | a :: rest => (fanStep jobs s a).bind (fun s' => fanRun jobs s' rest)

/-- Whether a worker goroutine holds a job whose value is or will be `v`. -/
def ProcPhase.carries (v : Int) : ProcPhase → Bool
  | .sleeping job => decide (square job = v)
  | .sending val => decide (val = v)
  | _ => false

/-- Whether a forwarder holds the value `v`. -/
def MergePhase.carries (v : Int) : MergePhase → Bool
  | .sending val => decide (val = v)
  | _ => false

/-- Whether a forwarder has not finished. -/
def MergePhase.live : MergePhase → Bool
  | .done => false
  | _ => true

/-- Invariant of the pipeline in every schedule: the number of workers is
constant, the counter of `mergeChannels` counts the unfinished forwarders, and
the merged channel is closed only when the counter is zero. -/
structure FanShapeInv (jobs : List Int) (n : Nat) (s : FanState) : Prop where
  procsLen : s.procs.length = n
  mergersLen : s.mergers.length = n
  sentLe : s.sent ≤ jobs.length
  wgLive : s.wg = (s.mergers.countP MergePhase.live : Int)
  closedZero : s.outClosed = true → s.wg = 0

/-- Invariant of the pipeline while the context is not cancelled: every job
sent so far is, squared, either emitted or held by exactly one goroutine;
`input` is closed only after all jobs were sent, a worker closes its channel
only after that, and a forwarder finishes only after its worker. -/
structure FanFlowInv (jobs : List Int) (s : FanState) : Prop where
  counts : ∀ v : Int,
    s.emitted.count v + s.procs.countP (ProcPhase.carries v) +
        s.mergers.countP (MergePhase.carries v) =
      ((jobs.take s.sent).map square).count v
  allSent : s.inputClosed = true → s.sent = jobs.length
  procAfterInput : ∀ w : Nat, s.procs[w]? = some ProcPhase.closed → s.inputClosed = true
  mergerAfterProc : ∀ w : Nat, s.mergers[w]? = some MergePhase.done →
    s.procs[w]? = some ProcPhase.closed

/-- The schedule in which worker 0 takes every job in turn and passes its
square on at once. -/
def serveSchedule : List Int → List FanAction
  | [] => []
  | _ :: rest => .produce 0 :: .timer 0 :: .forward 0 :: .emit 0 :: serveSchedule rest

/-- The schedule that ends workers `k, k+1, ..., k+m-1` and their forwarders. -/
def closeSchedule : Nat → Nat → List FanAction
  | _, 0 => []
  | k, m + 1 => .procClose k :: .mergerDone k :: closeSchedule (k + 1) m

/-! ## The jitter arithmetic of `retryWithBackoff`

`float64` values are modelled by the rationals they denote. `float64 q` is
the IEEE 754 binary64 round-to-nearest-even of the real `q` (53 significant
bits); the exponent range is not modelled, which is exact for every
magnitude that occurs here (between `2^-4` and `2^63`). -/

/-- Nearest integer to `x`, ties to the even neighbour. -/
def roundHalfEven (x : ℚ) : ℤ :=
  if x - ⌊x⌋ < 1 / 2 then ⌊x⌋
  else if 1 / 2 < x - ⌊x⌋ then ⌊x⌋ + 1
  else if ⌊x⌋ % 2 = 0 then ⌊x⌋ else ⌊x⌋ + 1

/-- Rounding of a non-negative real to 53 significant bits: for
`2^e ≤ q < 2^(e+1)` the result is the multiple of `2^(e-52)` nearest to `q`. -/
def roundPos (q : ℚ) : ℚ :=
  if q = 0 then 0
  else (roundHalfEven (q / 2 ^ (Int.log 2 q - 52)) : ℚ) * 2 ^ (Int.log 2 q - 52)

/-- The binary64 value nearest to `q`: the conversion `float64(x)` of an
integer, the value of a constant such as `0.1`, and the rounding applied to
the exact result of every `*` and `/` on `float64` operands. -/
def float64 (q : ℚ) : ℚ := if q < 0 then -roundPos (-q) else roundPos q

/-- The conversion `time.Duration(f)` of a `float64` to `int64`: the fraction
is discarded (truncation toward zero). Every value converted below is under
`2^63` in magnitude, where the conversion is defined. -/
def truncate (x : ℚ) : ℤ := if 0 ≤ x then ⌊x⌋ else ⌈x⌉

/-- The constant `0.1` as a `float64`. -/
def tenth : ℚ := float64 (1 / 10)

/-- `randFloat64`: `float64(time.Now().UnixNano()%1000) / 1000.0`, as a
function of the clock reading `now` (an `int64`; `%` truncates toward zero). -/
def randFloat64 (now : Int) : ℚ :=
  float64 (float64 ((Int.tmod now 1000 : Int) : ℚ) / float64 1000)

/-- The local `jitter := time.Duration(float64(delay) * 0.1)` of
`retryWithBackoff`. -/
def backoffJitter (delay : Int) : Int := truncate (float64 (float64 (delay : ℚ) * tenth))

/-- The local `sleep := delay + time.Duration(randFloat64()*float64(jitter))`
of `retryWithBackoff`: the duration handed to `time.After`. The addition is
an `int64` addition and wraps. -/
def backoffSleep (delay now : Int) : Int :=
  wrap64 (delay + truncate (float64 (randFloat64 now * float64 ((backoffJitter delay : Int) : ℚ))))

end GoConcurrency

namespace Cheatsheets

/-! ## General utilities of package `cheatsheets` (`src/go`)

The Go type `int` is taken as a 64-bit two's-complement integer and `uint32`
as a natural number below `2^32`; `/` and `%` on `int` truncate toward zero
(`Int.tdiv`, `Int.tmod`). -/

/-- Two's-complement wrap of an integer into the range of `int`. -/
def wrapInt (x : Int) : Int := (x + 2 ^ 63) % 2 ^ 64 - 2 ^ 63

/-! ### math.go : `egcd`, `modInverse` -/

/-- The recursion of `egcd(a, b)`, with a bound on its depth: `none` when the
bound is reached. -/
def egcdFuel : Nat → Int → Int → Option (Int × Int × Int)
  | 0, _, _ => none
  | fuel + 1, a, b =>
    if b = 0 then some (a, 1, 0)
    else
      match egcdFuel fuel b (Int.tmod a b) with
      | none => none
      | some (g, x1, y1) =>
        some (g, y1, wrapInt (x1 - wrapInt (wrapInt (Int.tdiv a b) * y1)))

/-- Embedding of `egcd(a, b)`; the absolute value of `b` decreases at each
call, so the bound is never reached. -/
def egcd (a b : Int) : Option (Int × Int × Int) := egcdFuel (b.natAbs + 1) a b

/-- Embedding of `modInverse(a, mod)`. The result is `none` only for the
run-time panic of `x % mod` with `mod = 0`. -/
def modInverse (a mod : Int) : Option Int :=
  match egcd a mod with
  | none => none
  | some (g, x, _) =>
    if g ≠ 1 then some (-1)
    else if mod = 0 then none
    else some (Int.tmod (wrapInt (Int.tmod x mod + mod)) mod)

/-! ### bits.go : `nextPowerOfTwo` -/

/-- The statement `num |= num >> shift`. -/
def smearStep (shift num : Nat) : Nat := num ||| (num >>> shift)

/-- Embedding of `nextPowerOfTwo(num)` on `uint32`. -/
def nextPowerOfTwo (num : Nat) : Nat :=
  if num = 0 then 1
  else
    let n0 := (num - 1) % 2 ^ 32
    let n1 := smearStep 1 n0
    let n2 := smearStep 2 n1
    let n3 := smearStep 4 n2
    let n4 := smearStep 8 n3
    let n5 := smearStep 16 n4
    (n5 + 1) % 2 ^ 32

/-! ### bits.go : `countBits`, `countBitsBuiltin` -/

/-- The loop of `countBits`: `for num > 0 { count += num & 1; num >>= 1 }`, with
a bound on the number of iterations (`none` when the bound is reached). -/
def countBitsLoop : Nat → Int → Int → Option Int
  | 0, _, _ => none
  | fuel + 1, num, count =>
    if 0 < num then countBitsLoop fuel (num >>> 1) (wrapInt (count + Int.land num 1))
    else some count

/-- Embedding of `countBits(num)`. A positive `int` is below `2^63`, so the loop
ends within 64 iterations. -/
def countBits (num : Int) : Option Int := countBitsLoop 65 num 0

/-- The conversion `uint(num)` of an `int`: the value modulo `2^64`. -/
def toUint (num : Int) : Nat := (num % 2 ^ 64).toNat

/-- The library function `bits.OnesCount` on a 64-bit `uint`: the number of
one bits of its argument. -/
def onesCount (x : Nat) : Nat := ((List.range 64).filter (fun i => x.testBit i)).length

/-- Embedding of `countBitsBuiltin(num)`. -/
def countBitsBuiltin (num : Nat) : Int := (onesCount num : Int)

/-! ### dates.go : `calculateAge` -/

/-- A calendar date as read from a `time.Time` in its location: the values of
`Year()`, `Month()` (1 to 12) and `Day()`. -/
structure Date where
  year : Int
  month : Nat
  day : Nat
  deriving DecidableEq, Repr

/-- Leap years of the Gregorian calendar. -/
def isLeap (year : Int) : Bool := year % 4 = 0 && (year % 100 ≠ 0 || year % 400 = 0)

/-- Number of days of a non-leap year before the first day of a month. -/
def daysBefore : Nat → Nat
  | 1 => 0
  | 2 => 31
  | 3 => 59
  | 4 => 90
  | 5 => 120
  | 6 => 151
  | 7 => 181
  | 8 => 212
  | 9 => 243
  | 10 => 273
  | 11 => 304
  | 12 => 334
  | _ => 0

/-- The library method `Time.YearDay()`: the day of the year, 1 to 365 in a
non-leap year and 1 to 366 in a leap year. -/
def Date.YearDay (d : Date) : Int :=
  (daysBefore d.month + d.day + (if isLeap d.year && decide (2 < d.month) then 1 else 0) : Nat)

/-- Embedding of `calculateAge(birthDate)`, with the value of `time.Now()` as
the parameter `now`. -/
def calculateAge (now birthDate : Date) : Int :=
  let age := now.year - birthDate.year
  if now.YearDay < birthDate.YearDay then age - 1 else age

/-- The number of complete years from `birthDate` to `now` by the calendar: the
difference of the years, less one when the (month, day) of `now` is earlier
than the (month, day) of `birthDate`. -/
def completeYears (now birthDate : Date) : Int :=
  now.year - birthDate.year -
    (if now.month < birthDate.month ∨ (now.month = birthDate.month ∧ now.day < birthDate.day)
     then 1 else 0)

/-! ### array.go : `arrayFilter` -/

/-- The loop of `arrayFilter` over the backing array `arr` of the argument:
`remaining` iterations are left, `i` is the index read by `range`, `k` is
`len(filtered)`. Since `k ≤ i < len(slice) ≤ cap(slice)`, each `append` writes
`arr[k]` in place. Returns the final `len(filtered)` and the backing array. -/
def arrayFilterLoop : Nat → Nat → Nat → List Int → Nat × List Int
  | 0, _, k, arr => (k, arr)
  | remaining + 1, i, k, arr =>
    match arr[i]? with
    | none => (k, arr)
    | some v =>
      if Int.tmod v 2 = 0 then arrayFilterLoop remaining (i + 1) (k + 1) (arr.set k v)
      else arrayFilterLoop remaining (i + 1) k arr

/-- Embedding of `arrayFilter(slice)`: the returned slice `filtered` (the first
`len(filtered)` cells of the shared backing array) and the elements of the
caller's slice after the call. -/
def arrayFilter (slice : List Int) : List Int × List Int :=
  let r := arrayFilterLoop slice.length 0 0 slice
  (r.2.take r.1, r.2)

/-! ### bits.go : `findSingle` -/

/-- Embedding of `findSingle(nums)`: `result ^= num` over the slice, from 0.
The exclusive or of two `int` values is again an `int`, so no wrap occurs. -/
def findSingle (nums : List Int) : Int :=
  nums.foldl (fun result num => Int.xor result num) 0

/-! ### math.go : `gcd` -/

/-- The loop of `gcd(a, b)`: `for b != 0 { a, b = b, a%b }`, with a bound on the
number of iterations (`none` when the bound is reached). -/
def gcdLoop : Nat → Int → Int → Option Int
  | 0, _, _ => none
  | fuel + 1, a, b => if b ≠ 0 then gcdLoop fuel b (Int.tmod a b) else some a

/-- Embedding of `gcd(a, b)`; the absolute value of `b` decreases at each
iteration, so the bound is never reached. -/
def gcd (a b : Int) : Option Int := gcdLoop (b.natAbs + 1) a b

/-! ### math.go : `sieve` -/

/-- The inner loop of `sieve`: `for j := ...; j <= limit; j += i { marked[j] = true }`
from the current `j`, with a bound on the number of iterations. The result is
`none` when the bound is reached or when `marked[j]` is out of range (a
run-time panic). -/
def markMultiples : Nat → Int → Int → Int → List Bool → Option (List Bool)
  | 0, _, _, _, _ => none
  | fuel + 1, limit, i, j, marked =>
    if j ≤ limit then
      if 0 ≤ j ∧ j.toNat < marked.length then
        markMultiples fuel limit i (wrapInt (j + i)) (marked.set j.toNat true)
      else none
    else some marked

/-- The outer loop of `sieve`: `for i := ...; i <= limit; i++`, from the current
`i`, with a bound on the number of iterations. -/
def sieveLoop : Nat → Int → Int → List Bool → List Int → Option (List Int)
  | 0, _, _, _, _ => none
  | fuel + 1, limit, i, marked, primes =>
    if i ≤ limit then
      if 0 ≤ i then
        match marked[i.toNat]? with
        | none => none
        | some true => sieveLoop fuel limit (wrapInt (i + 1)) marked primes
        | some false =>
          match markMultiples (limit.toNat + 1) limit i (wrapInt (i * i)) marked with
          | none => none
          | some marked1 => sieveLoop fuel limit (wrapInt (i + 1)) marked1 (primes ++ [i])
      else none
    else some primes

/-- Embedding of `sieve(limit)`. The result is `none` for a run-time panic:
`make([]bool, limit+1)` with a negative length, or an index out of range. -/
def sieve (limit : Int) : Option (List Int) :=
  if wrapInt (limit + 1) < 0 then none
  else sieveLoop (limit.toNat + 1) limit 2 (List.replicate (wrapInt (limit + 1)).toNat false) []

/-! ### algos.go : `HasCycle`

The argument `adj` of type `map[int][]int` is modelled by the list of its
entries (key, slice), whose keys are pairwise distinct; the order in which
`range adj` yields the keys is a parameter. The map `color` is modelled by the function that a read
`color[v]` computes, 0 for the keys never assigned. -/

/-- The read `adj[v]`: the slice stored under `v`, the nil slice for a key that
is not in the map. -/
def neighbours (adj : List (Int × List Int)) (v : Int) : List Int :=
  match adj.lookup v with
  | some targets => targets
  | none => []

/-- All the vertices of the graph: the keys of `adj` and the targets of its
edges. -/
def vertices (adj : List (Int × List Int)) : List Int :=
  adj.map Prod.fst ++ (adj.map Prod.snd).flatten

/-- The loop `for _, to := range adj[v]` of the closure `dfs`, over the targets
still to be read (`dst` stands for the loop variable `to`), with the closure
itself as the parameter `dfs`. The result
is the returned flag when the loop returns `true`, `false` when it ends, and
the map `color` afterwards; `none` when a call of `dfs` gives `none`. -/
def visit (dfs : Int → (Int → Int) → Option (Bool × (Int → Int))) :
    List Int → (Int → Int) → Option (Bool × (Int → Int))
  | [], color => some (false, color)
  | dst :: rest, color =>
    if color dst = 1 then some (true, color)
    else if color dst = 0 then
      match dfs dst color with
      | none => none
      | some (true, color1) => some (true, color1)
      | some (false, color1) => visit dfs rest color1
    else visit dfs rest color

/-- The closure `dfs` of `HasCycle`, with a bound on the depth of the
recursion (`none` when the bound is reached). -/
def dfs (adj : List (Int × List Int)) : Nat → Int → (Int → Int) → Option (Bool × (Int → Int))
  | 0, _, _ => none
  | fuel + 1, v, color =>
    match visit (dfs adj fuel) (neighbours adj v) (Function.update color v 1) with
    | none => none
    | some (true, color1) => some (true, color1)
    | some (false, color1) => some (false, Function.update color1 v 2)

/-- The loop `for v := range adj` of `HasCycle`, over the keys still to be
yielded. -/
def HasCycleLoop (adj : List (Int × List Int)) (fuel : Nat) :
    List Int → (Int → Int) → Option Bool
  | [], _ => some false
  | v :: rest, color =>
    if color v = 0 then
      match dfs adj fuel v color with
      | none => none
      | some (true, _) => some true
      | some (false, color1) => HasCycleLoop adj fuel rest color1
    else HasCycleLoop adj fuel rest color

/-- Embedding of `HasCycle(adj)`, where `order` is the order in which
`range adj` yields the keys. Each call of `dfs` turns a white vertex gray, so
the depth of the recursion is at most the number of vertices. -/
def HasCycle (adj : List (Int × List Int)) (order : List Int) : Option Bool :=
  HasCycleLoop adj ((vertices adj).length + 1) order (fun _ => 0)

/-- The edge relation of the graph, read from the entries of the map: the map
has an entry with the key `u` whose slice lists `w`. -/
def edge (adj : List (Int × List Int)) (u w : Int) : Prop :=
  ∃ targets, (u, targets) ∈ adj ∧ w ∈ targets

/-- Invariant of `color` between the calls of `dfs`: the values are 0, 1 or 2,
the targets of a black vertex are black, and no black vertex is on a cycle. -/
structure ColorInv (adj : List (Int × List Int)) (color : Int → Int) : Prop where
  range : ∀ u, color u = 0 ∨ color u = 1 ∨ color u = 2
  closed : ∀ u w, color u = 2 → edge adj u w → color w = 2
  acyclic : ∀ u, color u = 2 → ¬ Relation.TransGen (edge adj) u u

/-- Effect of a call of `dfs` that returns `false`: a vertex keeps its colour
or goes from white to black. -/
def ColorStep (color color1 : Int → Int) : Prop :=
  ∀ u, color1 u = color u ∨ (color u = 0 ∧ color1 u = 2)

/-- The white vertices of the graph. -/
def whiteVertices (adj : List (Int × List Int)) (color : Int → Int) : Finset Int :=
  (vertices adj).toFinset.filter (fun u => color u = 0)

/-- Contract of the closure `dfs` when at most `n` vertices are white: called on
a white vertex `w` that every gray vertex reaches, it returns; if it returns
`true` the graph has a cycle, and if it returns `false` the invariant holds
again, `w` is black and every other vertex kept its colour or went from white
to black. -/
def DfsSpec (adj : List (Int × List Int)) (n : Nat)
    (f : Int → (Int → Int) → Option (Bool × (Int → Int))) : Prop :=
  ∀ w color, w ∈ vertices adj → color w = 0 → (whiteVertices adj color).card ≤ n →
    ColorInv adj color → (∀ g, color g = 1 → Relation.ReflTransGen (edge adj) g w) →
    ∃ b color1, f w color = some (b, color1) ∧
      (b = true → ∃ x, Relation.TransGen (edge adj) x x) ∧
      (b = false → ColorInv adj color1 ∧ ColorStep color color1 ∧ color1 w = 2)

end Cheatsheets

namespace GoConcurrency

/-! ## Properties of `retryWithBackoff` -/

theorem attemptsFrom_succ (a : Int) (n : Nat) :
    attemptsFrom a (n + 1) = a :: attemptsFrom (a + 1) n := by
  simp only [attemptsFrom, List.range_succ_eq_map, List.map_cons, List.map_map]
  refine congrArg₂ List.cons (by simp) ?_
  apply List.map_congr_left
  intro i _
  simp only [Function.comp, Nat.succ_eq_add_one, Nat.cast_add, Nat.cast_one]
  ring

theorem delaysFrom_succ (d : Int) (n : Nat) :
    delaysFrom d (n + 1) = d :: delaysFrom (nextDelay d) n := by
  simp only [delaysFrom, List.range_succ_eq_map, List.map_cons, List.map_map]
  refine congrArg₂ List.cons (by simp) ?_
  apply List.map_congr_left
  intro i _
  simp only [Function.comp, Nat.succ_eq_add_one, Function.iterate_succ]

/-- A run of `n` failed attempts, each followed by a backoff whose timer
fires, advances the loop by `n` iterations. -/
theorem retryLoop_failed_prefix {ε : Type} (maxAttempts : Int) (fn : Int → Option ε)
    (sel : Int → BackoffSelect ε) (n : Nat) :
    ∀ (fuel : Nat) (a delay : Int) (calls delays : List Int),
      (∀ i : Nat, i < n → (fn (a + i)).isSome) →
      (∀ i : Nat, i < n → sel (a + i) = BackoffSelect.timer) →
      a + n ≤ maxAttempts →
      retryLoop maxAttempts fn sel (fuel + n) a delay calls delays =
        retryLoop maxAttempts fn sel fuel (a + n) (nextDelay^[n] delay)
          (calls ++ attemptsFrom a n) (delays ++ delaysFrom delay n) := by
  induction n with
  | zero =>
    intro fuel a delay calls delays _ _ _
    simp [attemptsFrom, delaysFrom]
  | succ n ih =>
    intro fuel a delay calls delays hfn hsel hle
    have h0 : (fn a).isSome := by simpa using hfn 0 (Nat.succ_pos n)
    have hs0 : sel a = BackoffSelect.timer := by simpa using hsel 0 (Nat.succ_pos n)
    obtain ⟨err, herr⟩ := Option.isSome_iff_exists.mp h0
    have hlt : a < maxAttempts := by push_cast at hle; omega
    have hstep : retryLoop maxAttempts fn sel (fuel + n + 1) a delay calls delays =
        retryLoop maxAttempts fn sel (fuel + n) (a + 1) (nextDelay delay)
          (calls ++ [a]) (delays ++ [delay]) := by
      simp only [retryLoop, herr, hs0, if_pos (le_of_lt hlt), if_neg (ne_of_lt hlt)]
    have hrec := ih fuel (a + 1) (nextDelay delay) (calls ++ [a]) (delays ++ [delay])
      (fun i hi => by
        have := hfn (i + 1) (Nat.succ_lt_succ hi)
        push_cast at this
        rwa [show a + 1 + (i : Int) = a + ((i : Int) + 1) by ring])
      (fun i hi => by
        have := hsel (i + 1) (Nat.succ_lt_succ hi)
        push_cast at this
        rwa [show a + 1 + (i : Int) = a + ((i : Int) + 1) by ring])
      (by push_cast at hle; omega)
    rw [show fuel + (n + 1) = fuel + n + 1 by omega, hstep, hrec,
      attemptsFrom_succ, delaysFrom_succ]
    simp only [Function.iterate_succ, Function.comp, List.append_assoc, List.singleton_append]
    congr 1
    push_cast
    ring

/-- C1. With `maxAttempts = K >= 1`, a task that fails on every attempt and
backoff sleeps that are never interrupted by cancellation, `retryWithBackoff`
returns, `fn` is called exactly `K` times with the attempt numbers
`1, 2, ..., K` in that order, and the returned value is the error of the
`K`-th call. -/
theorem retryWithBackoff_exhausts_attempts {ε : Type} (K : Nat) (baseDelay : Int)
    (fn : Int → Option ε) (sel : Int → BackoffSelect ε)
    (hK : 1 ≤ K)
    (hfail : ∀ a : Int, 1 ≤ a → a ≤ K → (fn a).isSome)
    (hsel : ∀ a : Int, 1 ≤ a → a < K → sel a = BackoffSelect.timer) :
    ∃ run, retryWithBackoff (K : Int) baseDelay fn sel = some run ∧
      run.calls = attemptsFrom 1 K ∧ run.calls.length = K ∧
      run.result = fn K ∧ (fn K).isSome := by
  obtain ⟨n, rfl⟩ : ∃ n, K = n + 1 := ⟨K - 1, by omega⟩
  have hpre := retryLoop_failed_prefix ((n + 1 : Nat) : Int) fn sel n 2 1 baseDelay [] []
    (fun i hi => hfail _ (by omega) (by push_cast; omega))
    (fun i hi => hsel _ (by omega) (by push_cast; omega))
    (by push_cast; omega)
  have hlast : (fn ((n + 1 : Nat) : Int)).isSome := hfail _ (by push_cast; omega) le_rfl
  obtain ⟨err, herr⟩ := Option.isSome_iff_exists.mp hlast
  have hcast : (1 : Int) + (n : Int) = ((n + 1 : Nat) : Int) := by push_cast; ring
  refine ⟨⟨some err, attemptsFrom 1 (n + 1), delaysFrom baseDelay n⟩, ?_, rfl, ?_, ?_, hlast⟩
  · unfold retryWithBackoff
    rw [show (((n + 1 : Nat) : Int)).toNat + 1 = 2 + n by
      rw [Int.toNat_ofNat]; omega, hpre, hcast]
    simp only [retryLoop, herr, le_refl, if_true, List.nil_append]
    simp only [attemptsFrom, List.range_succ, List.map_append, List.map_cons, List.map_nil]
    simp [hcast]
  · simp only [attemptsFrom, List.length_map, List.length_range]
  · exact herr.symm

theorem retryWithBackoff_exhausts_attempts_witness :
    ∃ run, retryWithBackoff (ε := String) ((3 : Nat) : Int) 100
        (fun a => some (toString a)) (fun _ => BackoffSelect.timer) = some run ∧
      run.calls = attemptsFrom 1 3 ∧ run.calls.length = 3 ∧
      run.result = (fun a : Int => some (toString a)) ((3 : Nat) : Int) ∧
      ((fun a : Int => some (toString a)) ((3 : Nat) : Int)).isSome :=
  retryWithBackoff_exhausts_attempts 3 100 (fun a => some (toString a))
    (fun _ => BackoffSelect.timer) (by decide) (fun _ _ _ => rfl) (fun _ _ _ => rfl)

/-- C9. If attempts `1..j` fail with `j < maxAttempts` (so `maxAttempts >= 2`),
the earlier backoffs run to their timer and the context is cancelled during
the backoff that follows attempt `j`, then `retryWithBackoff` returns the
context's error `ctx.Err()` (whatever error attempt `j` returned) and `fn`
is called for the attempts `1..j` only. -/
theorem retryWithBackoff_cancelled_in_backoff {ε : Type} (maxAttempts : Int) (j : Nat)
    (baseDelay : Int) (fn : Int → Option ε) (sel : Int → BackoffSelect ε) (ctxErr : ε)
    (hj1 : 1 ≤ j) (hj : (j : Int) < maxAttempts)
    (hfail : ∀ a : Int, 1 ≤ a → a ≤ j → (fn a).isSome)
    (htimer : ∀ a : Int, 1 ≤ a → a < j → sel a = BackoffSelect.timer)
    (hcancel : sel j = BackoffSelect.cancelled ctxErr) :
    2 ≤ maxAttempts ∧
    ∃ run, retryWithBackoff maxAttempts baseDelay fn sel = some run ∧
      run.result = some ctxErr ∧ run.calls = attemptsFrom 1 j ∧
      run.calls.length = j := by
  refine ⟨by omega, ?_⟩
  obtain ⟨n, rfl⟩ : ∃ n, j = n + 1 := ⟨j - 1, by omega⟩
  obtain ⟨f, hf⟩ : ∃ f, maxAttempts.toNat + 1 = (f + 1) + n := ⟨maxAttempts.toNat - n, by omega⟩
  have hpre := retryLoop_failed_prefix maxAttempts fn sel n (f + 1) 1 baseDelay [] []
    (fun i hi => hfail _ (by omega) (by push_cast; omega))
    (fun i hi => htimer _ (by omega) (by push_cast; omega))
    (by push_cast at hj; omega)
  have hcast : (1 : Int) + (n : Int) = ((n + 1 : Nat) : Int) := by push_cast; ring
  have hlast : (fn ((n + 1 : Nat) : Int)).isSome := hfail _ (by push_cast; omega) le_rfl
  obtain ⟨err, herr⟩ := Option.isSome_iff_exists.mp hlast
  refine ⟨⟨some ctxErr, attemptsFrom 1 (n + 1), delaysFrom baseDelay (n + 1)⟩, ?_, rfl, rfl, ?_⟩
  · unfold retryWithBackoff
    rw [hf, hpre, hcast]
    simp only [retryLoop, herr, hcancel, if_pos (le_of_lt hj), if_neg (ne_of_lt hj),
      List.nil_append]
    simp only [attemptsFrom, delaysFrom, List.range_succ, List.map_append, List.map_cons,
      List.map_nil]
    simp [hcast]
  · simp only [attemptsFrom, List.length_map, List.length_range]

theorem retryWithBackoff_cancelled_in_backoff_witness :
    (2 : Int) ≤ 5 ∧
    ∃ run, retryWithBackoff (ε := String) 5 100
        (fun a => some (toString a))
        (fun a => if a = 2 then BackoffSelect.cancelled "context canceled"
          else BackoffSelect.timer) = some run ∧
      run.result = some "context canceled" ∧ run.calls = attemptsFrom 1 2 ∧
      run.calls.length = 2 :=
  retryWithBackoff_cancelled_in_backoff 5 2 100 (fun a => some (toString a))
    (fun a => if a = 2 then BackoffSelect.cancelled "context canceled"
      else BackoffSelect.timer) "context canceled" (by decide) (by decide)
    (fun _ _ _ => rfl) (fun a _ h => if_neg (ne_of_lt h)) rfl

/-! ## Properties of `guardedGo` -/

/-- C7. At the input where `fn` panics and `onPanic` is nil, the deferred
recover calls the nil `onPanic`: the goroutine ends with an unrecovered
runtime panic (after `wg.Done()` ran once), for every `onError`. -/
theorem guardedGo_nil_onPanic_crashes {ε π : Type} (v : Fault π) (onError : Callback ε π) :
    guardedGo (FnOutcome.panics v) none onError =
      ⟨[.wgAdd 1, .callFn, .wgDone], some Fault.nilFuncCall⟩ := by
  rfl

/-- C8. With both callbacks present and never panicking: a panic of `fn` with
value `v` calls `onPanic` once with `v` and not `onError`; a non-nil error `e`
calls `onError` once with `e` and not `onPanic`; a nil result calls neither.
In all three cases the goroutine ends without a panic, between one
`wg.Add(1)` and one `wg.Done()`. -/
theorem guardedGo_routes_outcome {ε π : Type} (onPanic : Fault π → Option (Fault π))
    (onError : ε → Option (Fault π))
    (hPanic : ∀ r, onPanic r = none) (hError : ∀ e, onError e = none) :
    (∀ v, guardedGo (FnOutcome.panics v) (some onPanic) (some onError) =
      ⟨[.wgAdd 1, .callFn, .callOnPanic v, .wgDone], none⟩) ∧
    (∀ e, guardedGo (FnOutcome.returns (some e)) (some onPanic) (some onError) =
      ⟨[.wgAdd 1, .callFn, .callOnError e, .wgDone], none⟩) ∧
    guardedGo (FnOutcome.returns none) (some onPanic) (some onError) =
      ⟨[.wgAdd 1, .callFn, .wgDone], none⟩ := by
  refine ⟨fun v => ?_, fun e => ?_, rfl⟩
  · simp [guardedGo, guardedBody, guardedRecover, hPanic]
  · simp [guardedGo, guardedBody, guardedRecover, hError]

theorem guardedGo_routes_outcome_witness :
    (∀ v : Fault String, guardedGo (ε := String) (FnOutcome.panics v)
        (some (fun _ => none)) (some (fun _ => none)) =
      ⟨[.wgAdd 1, .callFn, .callOnPanic v, .wgDone], none⟩) ∧
    (∀ e : String, guardedGo (π := String) (FnOutcome.returns (some e))
        (some (fun _ => none)) (some (fun _ => none)) =
      ⟨[.wgAdd 1, .callFn, .callOnError e, .wgDone], none⟩) ∧
    guardedGo (ε := String) (π := String) (FnOutcome.returns none)
        (some (fun _ => none)) (some (fun _ => none)) =
      ⟨[.wgAdd 1, .callFn, .wgDone], none⟩ :=
  guardedGo_routes_outcome (fun _ => none) (fun _ => none) (fun _ => rfl) (fun _ => rfl)

/-! ## Properties of `workerPool` -/

/-- Replacing the element at a position changes a count by the two elements. -/
theorem countP_set_add {α : Type} (p : α → Bool) :
    ∀ (l : List α) (i : Nat) (a b : α), l[i]? = some a →
      (l.set i b).countP p + (if p a then 1 else 0) =
        l.countP p + (if p b then 1 else 0) := by
  intro l
  induction l with
  | nil => intro i a b h; simp at h
  | cons x xs ih =>
    intro i a b h
    cases i with
    | zero =>
      simp only [List.getElem?_cons_zero, Option.some.injEq] at h
      subst h
      simp only [List.set_cons_zero, List.countP_cons]
      omega
    | succ i =>
      simp only [List.getElem?_cons_succ] at h
      have := ih i a b h
      simp only [List.set_cons_succ, List.countP_cons]
      omega

theorem getElem?_set_cases {α : Type} (l : List α) (i j : Nat) (b x : α)
    (h : (l.set i b)[j]? = some x) : (j = i ∧ x = b) ∨ l[j]? = some x := by
  rw [List.getElem?_set] at h
  split at h
  · next hij =>
    split at h
    · left; exact ⟨hij.symm, (Option.some.inj h).symm⟩
    · simp at h
  · right; exact h

theorem getElem?_set_keep {α : Type} (l : List α) (i j : Nat) (a b x : α)
    (hi : l[i]? = some a) (hj : l[j]? = some x) (hne : a ≠ x) :
    (l.set i b)[j]? = some x := by
  have hij : i ≠ j := by
    intro e
    subst e
    rw [hi] at hj
    exact hne (Option.some.inj hj)
  rw [List.getElem?_set_ne hij]
  exact hj

theorem getElem?_set_self {α : Type} (l : List α) (i : Nat) (a b : α)
    (hi : l[i]? = some a) : (l.set i b)[i]? = some b := by
  have hlt : i < l.length := (List.getElem?_eq_some.mp hi).1
  rw [List.getElem?_set_self hlt]

theorem getElem?_append_keep {α : Type} (l : List α) (j : Nat) (b x : α)
    (hj : l[j]? = some x) : (l ++ [b])[j]? = some x := by
  have hlt : j < l.length := (List.getElem?_eq_some.mp hj).1
  rw [List.getElem?_append_left hlt]
  exact hj

theorem getElem?_append_singleton_cases {α : Type} (l : List α) (j : Nat) (b x : α)
    (h : (l ++ [b])[j]? = some x) : x = b ∨ l[j]? = some x := by
  by_cases hj : j < l.length
  · right; rwa [List.getElem?_append_left hj] at h
  · left
    rw [List.getElem?_append_right (by omega)] at h
    cases hk : j - l.length with
    | zero => rw [hk] at h; simpa using h.symm
    | succ k => rw [hk] at h; simp at h

theorem newWorkerPool_inv (workers : Int) : PoolInv (newWorkerPool workers) := by
  refine ⟨?_, ?_, ?_, ?_, ?_, ?_, ?_, ?_, ?_⟩ <;>
    simp [newWorkerPool, runningCount, liveWorkers, drainingCalls, List.countP_replicate]
  split <;> omega

theorem runningCount_set (t : Nat) (l : List WorkerPhase) (w : Nat) (a b : WorkerPhase)
    (h : l[w]? = some a) :
    runningCount t (l.set w b) + (if a = WorkerPhase.running t then 1 else 0) =
      runningCount t l + (if b = WorkerPhase.running t then 1 else 0) := by
  have := countP_set_add (fun x => decide (x = WorkerPhase.running t)) l w a b h
  simpa [runningCount] using this

theorem liveWorkers_set (l : List WorkerPhase) (w : Nat) (a b : WorkerPhase)
    (h : l[w]? = some a) :
    liveWorkers (l.set w b) + (if a = WorkerPhase.exited then 0 else 1) =
      liveWorkers l + (if b = WorkerPhase.exited then 0 else 1) := by
  have := countP_set_add (fun x => decide (x ≠ WorkerPhase.exited)) l w a b h
  simp only [liveWorkers]
  by_cases ha : a = WorkerPhase.exited <;> by_cases hb : b = WorkerPhase.exited <;>
    simp [ha, hb] at this ⊢ <;> omega

theorem drainingCalls_set (l : List ShutdownCall) (c : Nat) (a b : ShutdownCall)
    (h : l[c]? = some a) :
    drainingCalls (l.set c b) + (if a = ShutdownCall.draining then 1 else 0) =
      drainingCalls l + (if b = ShutdownCall.draining then 1 else 0) := by
  have := countP_set_add (fun x => decide (x = ShutdownCall.draining)) l c a b h
  simpa [drainingCalls] using this

theorem drainingCalls_append (l : List ShutdownCall) (b : ShutdownCall) :
    drainingCalls (l ++ [b]) =
      drainingCalls l + (if b = ShutdownCall.draining then 1 else 0) := by
  simp only [drainingCalls, List.countP_append, List.countP_cons, List.countP_nil]
  by_cases hb : b = ShutdownCall.draining <;> simp [hb]

theorem poolStep_inv (s s' : PoolState) (a : PoolAction) (hinv : PoolInv s)
    (h : poolStep s a = some s') : PoolInv s' := by
  obtain ⟨hc, hwg, hdd, hrd, hdr, htf, hsf, hct, hcs⟩ := hinv
  unfold poolStep at h
  split at h
  · exact absurd h (by simp)
  cases a with
  | submitCheck t =>
    simp only at h
    split at h <;> cases h <;> exact ⟨hc, hwg, hdd, hrd, hdr, htf, hsf, hct, hcs⟩
  | submitSend t w =>
    simp only at h
    split at h
    · split at h
      · cases h; exact ⟨hc, hwg, hdd, hrd, hdr, htf, hsf, hct, hcs⟩
      · split at h
        · next hw =>
          cases h
          have hl := liveWorkers_set s.workers w _ (WorkerPhase.running t) hw
          refine ⟨fun t' => ?_, ?_, hdd, hrd, hdr, htf, hsf, hct, hcs⟩
          · have hr := runningCount_set t' s.workers w _ (WorkerPhase.running t) hw
            have := hc t'
            simp only [List.count_append, List.count_singleton] at hr ⊢
            by_cases htt : t = t'
            · subst htt; simp at hr ⊢; omega
            · have htt' : ¬ (t' = t) := fun e => htt e.symm
              simp [htt, htt'] at hr ⊢; omega
          · simp at hl
            simp only [hwg, hl]
        · exact absurd h (by simp)
    · exact absurd h (by simp)
  | taskReturn w =>
    simp only at h
    split at h
    · next t hw =>
      cases h
      have hl := liveWorkers_set s.workers w _ WorkerPhase.idle hw
      refine ⟨fun t' => ?_, ?_, hdd, hrd, hdr, htf, hsf, hct, hcs⟩
      · have hr := runningCount_set t' s.workers w _ WorkerPhase.idle hw
        have := hc t'
        simp only [List.count_append, List.count_singleton] at hr ⊢
        by_cases htt : t = t'
        · subst htt; simp at hr ⊢; omega
        · have htt' : ¬ (t' = t) := fun e => htt e.symm
          simp [htt, htt'] at hr ⊢; omega
      · simp at hl
        simp only [hwg, hl]
    · exact absurd h (by simp)
  | taskPanic w =>
    simp only at h
    split at h
    · cases h; exact ⟨hc, hwg, hdd, hrd, hdr, htf, hsf, hct, hcs⟩
    · exact absurd h (by simp)
  | workerExit w =>
    simp only at h
    split at h
    · next hw =>
      split at h
      · split at h
        · cases h; exact ⟨hc, hwg, hdd, hrd, hdr, htf, hsf, hct, hcs⟩
        · next hpos =>
          cases h
          have hl := liveWorkers_set s.workers w _ WorkerPhase.exited hw
          simp at hl
          refine ⟨fun t' => ?_, ?_, ?_, hrd, hdr, htf, hsf, hct, hcs⟩
          · have hr := runningCount_set t' s.workers w _ WorkerPhase.exited hw
            have := hc t'
            simp at hr
            simp only [hr]; exact this
          · simp only [hwg]; omega
          · intro hd
            have := hdd hd
            simp only at this ⊢
            omega
      · exact absurd h (by simp)
    · exact absurd h (by simp)
  | shutdownEnter =>
    simp only at h
    split at h
    · next hf =>
      split at h
      · cases h; exact ⟨hc, hwg, hdd, hrd, hdr, htf, hsf, hct, hcs⟩
      · cases h
        refine ⟨hc, hwg, ?_, ?_, ?_, ?_, ?_, ?_, ?_⟩
        · intro hd; exact absurd hd (by simp)
        · intro c hcr
          rcases getElem?_append_singleton_cases _ _ _ _ hcr with hx | hx
          · exact absurd hx (by simp)
          · have := hrd c hx; rw [hf] at this; exact absurd this (by simp)
        · simp only [drainingCalls_append, hdr, hf]; simp
        · simp
        · simp only [hf] at hsf; simpa using hsf
        · simp only [hct, hf]; simp
        · simp only [hcs, hf]; simp
    · next hr =>
      cases h
      refine ⟨hc, hwg, hdd, ?_, ?_, htf, hsf, hct, hcs⟩
      · intro c hcr
        rcases getElem?_append_singleton_cases _ _ _ _ hcr with hx | hx
        · exact absurd hx (by simp)
        · exact hrd c hx
      · simp only [drainingCalls_append, hdr]; simp
    · next hd =>
      cases h
      refine ⟨hc, hwg, hdd, ?_, ?_, htf, hsf, hct, hcs⟩
      · intro c _; exact hd
      · simp only [drainingCalls_append, hdr]; simp
  | shutdownDrained c =>
    simp only at h
    split at h
    · next hcd =>
      split at h
      · next hz =>
        split at h
        · cases h; exact ⟨hc, hwg, hdd, hrd, hdr, htf, hsf, hct, hcs⟩
        · next hns =>
          cases h
          have hd := drainingCalls_set s.callers c _ ShutdownCall.returned hcd
          simp at hd
          have hrun : s.stopOnce = OncePhase.running := by
            by_contra hne
            rw [if_neg hne] at hdr
            rw [hdr] at hd
            exact absurd hd (Nat.succ_ne_zero _)
          refine ⟨hc, hwg, fun _ => hz, fun _ _ => rfl, ?_, ?_, ?_, ?_, ?_⟩
          · rw [hdr, if_pos hrun] at hd
            simp; omega
          · simp only [hrun] at htf
            simpa using htf
          · simp
          · simp only [hct, hrun]; simp
          · simp only [hcs, hrun]; simp
      · exact absurd h (by simp)
    · exact absurd h (by simp)
  | shutdownUnblock c =>
    simp only at h
    split at h
    · next hcb =>
      split at h
      · next hd =>
        cases h
        have hdc := drainingCalls_set s.callers c _ ShutdownCall.returned hcb
        simp at hdc
        refine ⟨hc, hwg, hdd, fun _ _ => hd, ?_, htf, hsf, hct, hcs⟩
        simp only [hdc]; exact hdr
      · exact absurd h (by simp)
    · exact absurd h (by simp)

theorem poolRun_inv (acts : List PoolAction) :
    ∀ s s' : PoolState, PoolInv s → poolRun s acts = some s' → PoolInv s' := by
  induction acts with
  | nil => intro s s' hinv h; cases h; exact hinv
  | cons a rest ih =>
    intro s s' hinv h
    simp only [poolRun] at h
    cases hstep : poolStep s a with
    | none => rw [hstep] at h; exact absurd h (by simp)
    | some s1 =>
      rw [hstep] at h
      exact ih s1 s' (poolStep_inv s s1 a hinv hstep) h

/-- Once some `Shutdown` call has returned, every worker has exited. -/
theorem PoolInv.all_exited {s : PoolState} (hinv : PoolInv s) (c : Nat)
    (hret : s.callers[c]? = some ShutdownCall.returned) :
    ∀ w ∈ s.workers, w = WorkerPhase.exited := by
  have hz := hinv.doneDrained (hinv.returnedDone c hret)
  have hl : liveWorkers s.workers = 0 := by
    have := hinv.wgLive
    omega
  intro w hw
  have := (List.countP_eq_zero.mp hl) w hw
  simpa using this

theorem poolRun_shutdown_again (n : Nat) :
    ∀ s : PoolState, s.crashed = false → s.stopOnce = OncePhase.done →
      poolRun s (List.replicate n PoolAction.shutdownEnter) =
        some { s with callers := s.callers ++ List.replicate n ShutdownCall.returned } := by
  induction n with
  | zero => intro s _ _; simp [poolRun]
  | succ n ih =>
    intro s hlive hdone
    have hstep : poolStep s PoolAction.shutdownEnter =
        some { s with callers := s.callers ++ [ShutdownCall.returned] } := by
      simp [poolStep, hlive, hdone]
    simp only [List.replicate_succ, poolRun, hstep, Option.some_bind]
    have hrec := ih { s with callers := s.callers ++ [ShutdownCall.returned] } hlive hdone
    rw [hrec]
    simp

/-- C4. A pool with one worker that is inside a task, after `Shutdown` has closed
`p.tasks` and while it waits for the worker (`p.stopped` still open): `Submit`
passes the `p.stopped` check and panics at the send on the closed channel. -/
theorem workerPool_Submit_while_draining_panics :
    (poolRun (newWorkerPool 1)
        [.submitCheck 1, .submitSend 1 0, .shutdownEnter,
         .submitCheck 2, .submitSend 2 0]).map
      (fun s => (s.tasksClosed, s.stoppedClosed, s.callers, s.accepted, s.crashed)) =
      some (true, false, [ShutdownCall.draining], [1], true) := by
  decide

/-- C6. In a pool state reached after some `Shutdown` call has returned (and no
panic has ended the program), `n` further `Shutdown` calls made one after the
other all return at once and change nothing in the pool: the intake stays
closed, the workers exited, the `stopped` latch closed, and `close(p.tasks)`
and `close(p.stopped)` have each been executed exactly once. -/
theorem workerPool_Shutdown_idempotent (workers : Int) (acts : List PoolAction)
    (s : PoolState) (c n : Nat)
    (hrun : poolRun (newWorkerPool workers) acts = some s)
    (hret : s.callers[c]? = some ShutdownCall.returned)
    (hlive : s.crashed = false) :
    poolRun s (List.replicate n PoolAction.shutdownEnter) =
        some { s with callers := s.callers ++ List.replicate n ShutdownCall.returned } ∧
      s.tasksClosed = true ∧ s.stoppedClosed = true ∧
      (∀ w ∈ s.workers, w = WorkerPhase.exited) ∧
      s.closeTasks = 1 ∧ s.closeStopped = 1 := by
  have hinv : PoolInv s := poolRun_inv acts _ s (newWorkerPool_inv workers) hrun
  have hdone := hinv.returnedDone c hret
  refine ⟨poolRun_shutdown_again n s hlive hdone, ?_, ?_, hinv.all_exited c hret, ?_, ?_⟩
  · exact hinv.tasksFlag.mpr (by simp [hdone])
  · exact hinv.stoppedFlag.mpr hdone
  · simp [hinv.closeTasksOnce, hdone]
  · simp [hinv.closeStoppedOnce, hdone]

theorem workerPool_Shutdown_idempotent_witness :
    poolRun
        { tasksClosed := true, stoppedClosed := true, wg := 0,
          workers := [.exited], stopOnce := .done, senders := [],
          callers := [.returned], accepted := [], dropped := [], finished := [],
          closeTasks := 1, closeStopped := 1, crashed := false }
        (List.replicate 3 PoolAction.shutdownEnter) =
        some
          { tasksClosed := true, stoppedClosed := true, wg := 0,
            workers := [.exited], stopOnce := .done, senders := [],
            callers := [.returned] ++ List.replicate 3 ShutdownCall.returned,
            accepted := [], dropped := [], finished := [],
            closeTasks := 1, closeStopped := 1, crashed := false } ∧
      true = true ∧ true = true ∧
      (∀ w ∈ [WorkerPhase.exited], w = WorkerPhase.exited) ∧
      1 = 1 ∧ 1 = 1 :=
  workerPool_Shutdown_idempotent 1
    [.shutdownEnter, .workerExit 0, .shutdownDrained 0]
    { tasksClosed := true, stoppedClosed := true, wg := 0,
      workers := [.exited], stopOnce := .done, senders := [],
      callers := [.returned], accepted := [], dropped := [], finished := [],
      closeTasks := 1, closeStopped := 1, crashed := false }
    0 3 (by decide) (by decide) rfl

/-! ## Properties of `limitedParallel` -/

theorem permitHolders_set {ε : Type} (gs : List (GoPhase ε)) (i : Nat) (a b : GoPhase ε)
    (h : gs[i]? = some a) :
    permitHolders (gs.set i b) + (if a.holdsPermit then 1 else 0) =
      permitHolders gs + (if b.holdsPermit then 1 else 0) :=
  countP_set_add GoPhase.holdsPermit gs i a b h

theorem liveGoroutines_set {ε : Type} (gs : List (GoPhase ε)) (i : Nat) (a b : GoPhase ε)
    (h : gs[i]? = some a) :
    liveGoroutines (gs.set i b) + (if a.live then 1 else 0) =
      liveGoroutines gs + (if b.live then 1 else 0) :=
  countP_set_add GoPhase.live gs i a b h

theorem limitedParallelInit_permitInv {ε : Type} (ctxErr : Option ε) (limit : Int) :
    LPPermitInv (if limit ≤ 0 then 1 else limit.toNat) (limitedParallelInit ctxErr limit) :=
  ⟨rfl, rfl, Nat.zero_le _⟩

theorem limitedParallelStep_permitInv {ε : Type} (tasks : List (Task ε)) (cap : Nat) (s s' : LPState ε)
    (a : LPAction ε) (hinv : LPPermitInv cap s) (h : limitedParallelStep tasks s a = some s') :
    LPPermitInv cap s' := by
  obtain ⟨hcap, hheld, hle⟩ := hinv
  cases a with
  | cancel err =>
    simp only [limitedParallelStep] at h
    split at h <;> cases h
    exact ⟨hcap, hheld, hle⟩
  | spawn =>
    simp only [limitedParallelStep] at h
    repeat' split at h
    all_goals cases h
    · exact ⟨hcap, hheld, hle⟩
    · refine ⟨hcap, ?_, hle⟩
      simp only [permitHolders, List.countP_append, List.countP_cons, List.countP_nil,
        GoPhase.holdsPermit] at hheld ⊢
      simpa using hheld
  | acquire i =>
    simp only [limitedParallelStep] at h
    repeat' split at h
    all_goals cases h
    have := permitHolders_set s.gs i _ GoPhase.running ‹s.gs[i]? = some GoPhase.waiting›
    simp only [GoPhase.holdsPermit] at this
    refine ⟨hcap, ?_, ?_⟩ <;> simp only <;> simp at this <;> omega
  | abandon i =>
    simp only [limitedParallelStep] at h
    repeat' split at h
    all_goals cases h
    have := permitHolders_set s.gs i _ GoPhase.leaving ‹s.gs[i]? = some GoPhase.waiting›
    simp only [GoPhase.holdsPermit] at this
    refine ⟨hcap, ?_, hle⟩
    simp only; simp at this; omega
  | finish i =>
    simp only [limitedParallelStep] at h
    repeat' split at h
    all_goals cases h
    next fn _ _ =>
    have := permitHolders_set s.gs i _ (GoPhase.returned (fn s.ctxErr))
      ‹s.gs[i]? = some GoPhase.running›
    simp only [GoPhase.holdsPermit] at this
    refine ⟨hcap, ?_, hle⟩
    simp only; simp at this; omega
  | record i =>
    simp only [limitedParallelStep] at h
    repeat' split at h
    all_goals cases h
    all_goals
      have := permitHolders_set s.gs i _ GoPhase.holding ‹s.gs[i]? = some (GoPhase.returned _)›
      simp only [GoPhase.holdsPermit] at this
      refine ⟨hcap, ?_, hle⟩
      simp only; simp at this; omega
  | release i =>
    simp only [limitedParallelStep] at h
    repeat' split at h
    all_goals cases h
    have := permitHolders_set s.gs i _ GoPhase.leaving ‹s.gs[i]? = some GoPhase.holding›
    simp only [GoPhase.holdsPermit] at this
    refine ⟨hcap, ?_, ?_⟩ <;> simp only <;> simp at this <;> omega
  | done i =>
    simp only [limitedParallelStep] at h
    repeat' split at h
    all_goals cases h
    have := permitHolders_set s.gs i _ GoPhase.done ‹s.gs[i]? = some GoPhase.leaving›
    simp only [GoPhase.holdsPermit] at this
    refine ⟨hcap, ?_, hle⟩
    simp only; simp at this; omega
  | wait =>
    simp only [limitedParallelStep] at h
    repeat' split at h
    all_goals cases h
    exact ⟨hcap, hheld, hle⟩

theorem limitedParallelRun_permitInv {ε : Type} (tasks : List (Task ε)) (cap : Nat)
    (acts : List (LPAction ε)) :
    ∀ s s' : LPState ε, LPPermitInv cap s → limitedParallelRun tasks s acts = some s' →
      LPPermitInv cap s' := by
  induction acts with
  | nil => intro s s' hinv h; cases h; exact hinv
  | cons a rest ih =>
    intro s s' hinv h
    simp only [limitedParallelRun] at h
    cases hstep : limitedParallelStep tasks s a with
    | none => rw [hstep] at h; exact absurd h (by simp)
    | some s1 =>
      rw [hstep] at h
      exact ih s1 s' (limitedParallelStep_permitInv tasks cap s s1 a hinv hstep) h

/-! ## Properties of `errgroupWithSemaphore` -/

theorem jobPermitHolders_set {ε : Type} (gs : List (JobPhase ε)) (i : Nat) (a b : JobPhase ε)
    (h : gs[i]? = some a) :
    jobPermitHolders (gs.set i b) + (if a.holdsPermit then 1 else 0) =
      jobPermitHolders gs + (if b.holdsPermit then 1 else 0) :=
  countP_set_add JobPhase.holdsPermit gs i a b h

theorem errgroupWithSemaphoreStep_inv {ε : Type} (canceled : ε) (jobs : List Int)
    (limit : Int) (s s' : SemGroupState ε) (a : SemGroupAction ε)
    (hinv : SemGroupInv limit s)
    (h : errgroupWithSemaphoreStep canceled jobs s a = some s') : SemGroupInv limit s' := by
  obtain ⟨hsize, hheld, hle⟩ := hinv
  cases a with
  | cancel err =>
    simp only [errgroupWithSemaphoreStep] at h
    split at h <;> cases h
    exact ⟨hsize, hheld, hle⟩
  | acquireGo =>
    simp only [errgroupWithSemaphoreStep] at h
    repeat' split at h
    all_goals cases h
    have hguard := ‹s.gs.length < jobs.length ∧ s.cur + 1 ≤ s.size›
    refine ⟨hsize, ?_, hguard.2⟩
    simp only [jobPermitHolders, List.countP_append, List.countP_cons, List.countP_nil,
      JobPhase.holdsPermit] at hheld ⊢
    simp only [hheld]; simp
  | acquireFail =>
    simp only [errgroupWithSemaphoreStep] at h
    repeat' split at h
    all_goals cases h
    exact ⟨hsize, hheld, hle⟩
  | jobTimer i =>
    simp only [errgroupWithSemaphoreStep] at h
    repeat' split at h
    all_goals cases h
    have := jobPermitHolders_set s.gs i _ (JobPhase.finished none)
      ‹s.gs[i]? = some JobPhase.working›
    simp only [JobPhase.holdsPermit] at this
    refine ⟨hsize, ?_, hle⟩
    simp only; simp at this; omega
  | jobCancelled i =>
    simp only [errgroupWithSemaphoreStep] at h
    repeat' split at h
    all_goals cases h
    next err _ _ =>
    have := jobPermitHolders_set s.gs i _ (JobPhase.finished (some err))
      ‹s.gs[i]? = some JobPhase.working›
    simp only [JobPhase.holdsPermit] at this
    refine ⟨hsize, ?_, hle⟩
    simp only; simp at this; omega
  | jobRelease i =>
    simp only [errgroupWithSemaphoreStep] at h
    repeat' split at h
    all_goals cases h
    next r _ =>
    have := jobPermitHolders_set s.gs i _ (JobPhase.released r)
      ‹s.gs[i]? = some (JobPhase.finished r)›
    simp only [JobPhase.holdsPermit] at this
    refine ⟨hsize, ?_, ?_⟩ <;> simp only <;> simp at this <;> omega
  | jobDone i =>
    simp only [errgroupWithSemaphoreStep] at h
    repeat' split at h
    all_goals cases h
    all_goals
      have := jobPermitHolders_set s.gs i _ JobPhase.done
        ‹s.gs[i]? = some (JobPhase.released _)›
      simp only [JobPhase.holdsPermit] at this
      refine ⟨hsize, ?_, hle⟩
      simp only; simp at this; omega
  | wait =>
    simp only [errgroupWithSemaphoreStep] at h
    repeat' split at h
    all_goals cases h
    exact ⟨hsize, hheld, hle⟩

theorem errgroupWithSemaphoreRun_inv {ε : Type} (canceled : ε) (jobs : List Int)
    (limit : Int) (acts : List (SemGroupAction ε)) :
    ∀ s s' : SemGroupState ε, SemGroupInv limit s →
      errgroupWithSemaphoreRun canceled jobs s acts = some s' → SemGroupInv limit s' := by
  induction acts with
  | nil => intro s s' hinv h; cases h; exact hinv
  | cons a rest ih =>
    intro s s' hinv h
    simp only [errgroupWithSemaphoreRun] at h
    cases hstep : errgroupWithSemaphoreStep canceled jobs s a with
    | none => rw [hstep] at h; exact absurd h (by simp)
    | some s1 =>
      rw [hstep] at h
      exact ih s1 s' (errgroupWithSemaphoreStep_inv canceled jobs limit s s1 a hinv hstep) h

/-- C3. With a limit `L >= 1`, in every state reached by any schedule of
`limitedParallel(ctx, tasks, L)`, for any number of tasks, the number of
goroutines that have acquired a permit and not yet released it is at most `L`;
the same holds in every state reached by `errgroupWithSemaphore(ctx, jobs, L)`. -/
theorem permit_holders_le_limit {ε : Type} (limit : Int) (hL : 1 ≤ limit) :
    (∀ (tasks : List (Task ε)) (ctxErr : Option ε) (acts : List (LPAction ε))
        (s : LPState ε),
        limitedParallelRun tasks (limitedParallelInit ctxErr limit) acts = some s →
          (permitHolders s.gs : Int) ≤ limit) ∧
    (∀ (canceled : ε) (jobs : List Int) (ctxErr : Option ε)
        (acts : List (SemGroupAction ε)) (s : SemGroupState ε),
        errgroupWithSemaphoreRun canceled jobs (errgroupWithSemaphoreInit ctxErr limit) acts
            = some s →
          (jobPermitHolders s.gs : Int) ≤ limit) := by
  constructor
  · intro tasks ctxErr acts s h
    have hinv := limitedParallelRun_permitInv tasks _ acts _ s
      (limitedParallelInit_permitInv ctxErr limit) h
    have h1 := hinv.semHeld
    have h2 := hinv.semCap
    have h3 := hinv.capEq
    rw [if_neg (by omega)] at h3
    omega
  · intro canceled jobs ctxErr acts s h
    have hinit : SemGroupInv limit (errgroupWithSemaphoreInit ctxErr limit) :=
      ⟨rfl, rfl, by simp only [errgroupWithSemaphoreInit]; omega⟩
    have hinv := errgroupWithSemaphoreRun_inv canceled jobs limit acts _ s hinit h
    have h1 := hinv.curHeld
    have h2 := hinv.curSize
    have h3 := hinv.sizeEq
    omega

theorem permit_holders_le_limit_witness :
    (permitHolders [GoPhase.running, GoPhase.waiting, (GoPhase.running : GoPhase Nat)] : Int) ≤ 2 ∧
    (jobPermitHolders [JobPhase.working, (JobPhase.working : JobPhase Nat)] : Int) ≤ 2 :=
  ⟨(permit_holders_le_limit 2 (by decide)).1
      [fun _ => none, fun _ => none, fun _ => none] none
      [.spawn, .spawn, .spawn, .acquire 0, .acquire 2]
      { ctxErr := none, cap := 2, sem := 2, wg := 3, onceDone := false, first := none,
        main := .running, gs := [.running, .waiting, .running], invoked := [0, 2],
        completed := [], recorded := [], abandoned := [], writes := 0 }
      (by decide),
   (permit_holders_le_limit 2 (by decide)).2 0 [1, 2, 3] none
      [.acquireGo, .acquireGo]
      { ctxErr := none, size := 2, cur := 2, wg := 2, groupErr := none,
        main := .running, gs := [.working, .working] }
      (by decide)⟩

/-! ## Properties of `limitedParallel`: the `first` slot -/

theorem limitedParallelStep_firstInv {ε : Type} (tasks : List (Task ε)) (s s' : LPState ε)
    (a : LPAction ε) (hinv : LPFirstInv s) (h : limitedParallelStep tasks s a = some s') :
    LPFirstInv s' := by
  obtain ⟨h1, h2, h3⟩ := hinv
  cases a <;> simp only [limitedParallelStep] at h <;> (repeat' split at h) <;> cases h <;>
    first
      | exact ⟨h1, h2, h3⟩
      | skip
  · have hne : s.recorded ≠ [] := h2.mp ‹s.onceDone = true›
    obtain ⟨x, xs, hx⟩ := List.exists_cons_of_ne_nil hne
    refine ⟨?_, ?_, ?_⟩
    · simp only [h1, hx]; rfl
    · simp [‹s.onceDone = true›]
    · simp only [h3, hx]; rfl
  · have hnil : s.recorded = [] := by
      by_contra hne
      exact ‹¬s.onceDone = true› (h2.mpr hne)
    refine ⟨?_, ?_, ?_⟩
    · simp only [hnil]; rfl
    · simp
    · simp only [h3, hnil]; rfl

/-! ## Properties of `limitedParallel`: the wait group -/

theorem liveGoroutines_pos {ε : Type} (gs : List (GoPhase ε)) (i : Nat) (a : GoPhase ε)
    (h : gs[i]? = some a) (ha : a.live = true) : 1 ≤ liveGoroutines gs := by
  have := liveGoroutines_set gs i a GoPhase.done h
  rw [if_pos ha, if_neg (by simp [GoPhase.live])] at this
  omega

theorem liveGoroutines_set_live {ε : Type} (gs : List (GoPhase ε)) (i : Nat) (a b : GoPhase ε)
    (h : gs[i]? = some a) (ha : a.live = true) (hb : b.live = true) :
    liveGoroutines (gs.set i b) = liveGoroutines gs := by
  have := liveGoroutines_set gs i a b h
  rw [if_pos ha, if_pos hb] at this
  omega

theorem limitedParallelStep_waitInv {ε : Type} (tasks : List (Task ε)) (s s' : LPState ε)
    (a : LPAction ε) (hinv : LPWaitInv s) (h : limitedParallelStep tasks s a = some s') :
    LPWaitInv s' := by
  obtain ⟨h1, h2⟩ := hinv
  cases a with
  | cancel err =>
    simp only [limitedParallelStep] at h
    split at h <;> cases h
    exact ⟨h1, fun r _ => Or.inl (by simp)⟩
  | spawn =>
    simp only [limitedParallelStep] at h
    repeat' split at h
    all_goals cases h
    · exact ⟨h1, fun r _ => Or.inl (by simp [‹s.ctxErr = some _›])⟩
    · refine ⟨?_, fun r hr => ?_⟩
      · simp only [liveGoroutines, List.countP_append, List.countP_cons, List.countP_nil,
          GoPhase.live] at h1 ⊢
        simp only [h1]; simp
      · have hm : s.main = MainPhase.running := ‹s.main = MainPhase.running›
        simp only at hr
        rw [hm] at hr
        exact absurd hr (by simp)
  | acquire i =>
    simp only [limitedParallelStep] at h
    repeat' split at h
    all_goals cases h
    refine ⟨?_, h2⟩
    simp only
    rw [liveGoroutines_set_live s.gs i _ GoPhase.running ‹s.gs[i]? = some GoPhase.waiting› rfl rfl]
    exact h1
  | abandon i =>
    simp only [limitedParallelStep] at h
    repeat' split at h
    all_goals cases h
    refine ⟨?_, h2⟩
    simp only
    rw [liveGoroutines_set_live s.gs i _ GoPhase.leaving ‹s.gs[i]? = some GoPhase.waiting› rfl rfl]
    exact h1
  | finish i =>
    simp only [limitedParallelStep] at h
    repeat' split at h
    all_goals cases h
    refine ⟨?_, h2⟩
    simp only
    rw [liveGoroutines_set_live s.gs i _ (GoPhase.returned _) ‹s.gs[i]? = some GoPhase.running› rfl rfl]
    exact h1
  | record i =>
    simp only [limitedParallelStep] at h
    repeat' split at h
    all_goals cases h
    · refine ⟨?_, h2⟩
      simp only
      rw [liveGoroutines_set_live s.gs i _ GoPhase.holding ‹s.gs[i]? = some (GoPhase.returned none)› rfl rfl]
      exact h1
    · refine ⟨?_, h2⟩
      simp only
      rw [liveGoroutines_set_live s.gs i _ GoPhase.holding ‹s.gs[i]? = some (GoPhase.returned (some _))›
        rfl rfl]
      exact h1
    · have hpos := liveGoroutines_pos s.gs i _ ‹s.gs[i]? = some (GoPhase.returned (some _))› rfl
      refine ⟨?_, fun r hr => ?_⟩
      · simp only
        rw [liveGoroutines_set_live s.gs i _ GoPhase.holding ‹s.gs[i]? = some (GoPhase.returned (some _))›
          rfl rfl]
        exact h1
      · rcases h2 r hr with hc | ⟨hz, _⟩
        · exact Or.inl hc
        · omega
  | release i =>
    simp only [limitedParallelStep] at h
    repeat' split at h
    all_goals cases h
    refine ⟨?_, h2⟩
    simp only
    rw [liveGoroutines_set_live s.gs i _ GoPhase.leaving ‹s.gs[i]? = some GoPhase.holding› rfl rfl]
    exact h1
  | done i =>
    simp only [limitedParallelStep] at h
    repeat' split at h
    all_goals cases h
    have hset := liveGoroutines_set s.gs i _ GoPhase.done ‹s.gs[i]? = some GoPhase.leaving›
    simp [GoPhase.live] at hset
    have hpos : 0 < s.wg := ‹0 < s.wg›
    refine ⟨?_, fun r hr => ?_⟩
    · simp only; omega
    · rcases h2 r hr with hc | ⟨hz, _⟩
      · exact Or.inl hc
      · omega
  | wait =>
    simp only [limitedParallelStep] at h
    repeat' split at h
    all_goals cases h
    have hg : s.gs.length = tasks.length ∧ s.wg = 0 := ‹_›
    refine ⟨h1, fun r hr => Or.inr ⟨hg.2, ?_⟩⟩
    simp only [MainPhase.returned.injEq] at hr
    exact hr.symm

/-! ## Properties of `limitedParallel`: the records -/

/-- A change of phase of one goroutine that neither leaves the phase
`returned (some _)` nor enters a phase `returned _` keeps the record invariant. -/
theorem LPRecordInv.of_set {ε : Type} {tasks : List (Task ε)} {s s' : LPState ε}
    (hinv : LPRecordInv tasks s) (i : Nat) (a b : GoPhase ε)
    (hi : s.gs[i]? = some a) (ha : ∀ e, a ≠ GoPhase.returned (some e))
    (hb : ∀ r, b ≠ GoPhase.returned r)
    (hgs : s'.gs = s.gs.set i b) (hc : s'.completed = s.completed)
    (hr : s'.recorded = s.recorded) (hx : s'.ctxErr = s.ctxErr) :
    LPRecordInv tasks s' := by
  obtain ⟨h1, h2, h3, h4⟩ := hinv
  refine ⟨?_, ?_, ?_, ?_⟩
  · rw [hr, hc]; exact h1
  · intro j e hje
    rw [hc] at hje
    rw [hr, hgs]
    exact (h2 j e hje).imp id (fun hg => getElem?_set_keep _ _ _ _ _ _ hi hg (ha e))
  · intro j r hj
    rw [hgs] at hj
    rw [hc]
    rcases getElem?_set_cases _ _ _ _ _ hj with ⟨_, hx⟩ | hx
    · exact absurd hx.symm (hb r)
    · exact h3 j r hx
  · rw [hx, hc]; exact h4

theorem limitedParallelInit_recordInv {ε : Type} (tasks : List (Task ε)) (ctxErr : Option ε)
    (limit : Int) : LPRecordInv tasks (limitedParallelInit ctxErr limit) := by
  refine ⟨?_, ?_, ?_, ?_⟩ <;> simp [limitedParallelInit]

theorem limitedParallelStep_recordInv {ε : Type} (tasks : List (Task ε)) (s s' : LPState ε)
    (a : LPAction ε) (hinv : LPRecordInv tasks s)
    (h : limitedParallelStep tasks s a = some s') : LPRecordInv tasks s' := by
  have hinv0 := hinv
  obtain ⟨h1, h2, h3, h4⟩ := hinv
  cases a with
  | cancel err =>
    simp only [limitedParallelStep] at h
    split at h <;> cases h
    exact ⟨h1, h2, h3, fun hc => absurd hc (by simp)⟩
  | spawn =>
    simp only [limitedParallelStep] at h
    repeat' split at h
    all_goals cases h
    · exact ⟨h1, h2, h3, h4⟩
    · refine ⟨h1, ?_, ?_, h4⟩
      · intro j e hje
        exact (h2 j e hje).imp id (fun hg => getElem?_append_keep _ _ _ _ hg)
      · intro j r hj
        rcases getElem?_append_singleton_cases _ _ _ _ hj with hx | hx
        · exact absurd hx (by simp)
        · exact h3 j r hx
  | acquire i =>
    simp only [limitedParallelStep] at h
    repeat' split at h
    all_goals cases h
    exact hinv0.of_set i _ GoPhase.running ‹s.gs[i]? = some GoPhase.waiting›
      (by simp) (by simp) rfl rfl rfl rfl
  | abandon i =>
    simp only [limitedParallelStep] at h
    repeat' split at h
    all_goals cases h
    exact hinv0.of_set i _ GoPhase.leaving ‹s.gs[i]? = some GoPhase.waiting›
      (by simp) (by simp) rfl rfl rfl rfl
  | finish i =>
    simp only [limitedParallelStep] at h
    repeat' split at h
    all_goals cases h
    next fn hi hfn =>
    refine ⟨?_, ?_, ?_, ?_⟩
    · intro p hp
      exact List.mem_append_left _ (h1 p hp)
    · intro j e hje
      rcases List.mem_append.mp hje with hold | hnew
      · exact (h2 j e hold).imp id
          (fun hg => getElem?_set_keep _ _ _ _ _ _ hi hg (by simp))
      · right
        simp only [List.mem_singleton, Prod.mk.injEq] at hnew
        obtain ⟨hji, hres⟩ := hnew
        subst hji
        simp only
        rw [← hres]
        exact getElem?_set_self _ _ _ _ hi
    · intro j r hj
      rcases getElem?_set_cases _ _ _ _ _ hj with ⟨hji, hx⟩ | hx
      · subst hji
        simp only [GoPhase.returned.injEq] at hx
        subst hx
        exact List.mem_append_right _ (List.mem_singleton.mpr rfl)
      · exact List.mem_append_left _ (h3 j r hx)
    · intro hc p hp
      simp only at hc
      rcases List.mem_append.mp hp with hold | hnew
      · exact h4 hc p hold
      · simp only [List.mem_singleton] at hnew
        subst hnew
        exact ⟨fn, hfn, by simp only [hc]⟩
  | record i =>
    simp only [limitedParallelStep] at h
    repeat' split at h
    all_goals cases h
    · exact hinv0.of_set i _ GoPhase.holding ‹s.gs[i]? = some (GoPhase.returned none)›
        (by simp) (by simp) rfl rfl rfl rfl
    all_goals
      next err hi _ =>
      refine ⟨?_, ?_, ?_, h4⟩
      · intro p hp
        rcases List.mem_append.mp hp with hold | hnew
        · exact h1 p hold
        · simp only [List.mem_singleton] at hnew
          subst hnew
          exact h3 i _ hi
      · intro j e hje
        rcases h2 j e hje with hrec | hg
        · exact Or.inl (List.mem_append_left _ hrec)
        · by_cases hji : j = i
          · subst hji
            rw [hi] at hg
            simp only [Option.some.injEq, GoPhase.returned.injEq] at hg
            subst hg
            exact Or.inl (List.mem_append_right _ (List.mem_singleton.mpr rfl))
          · right
            simp only
            rw [List.getElem?_set_ne (fun e => hji e.symm)]
            exact hg
      · intro j r hj
        rcases getElem?_set_cases _ _ _ _ _ hj with ⟨_, hx⟩ | hx
        · exact absurd hx (by simp)
        · exact h3 j r hx
  | release i =>
    simp only [limitedParallelStep] at h
    repeat' split at h
    all_goals cases h
    exact hinv0.of_set i _ GoPhase.leaving ‹s.gs[i]? = some GoPhase.holding›
      (by simp) (by simp) rfl rfl rfl rfl
  | done i =>
    simp only [limitedParallelStep] at h
    repeat' split at h
    all_goals cases h
    exact hinv0.of_set i _ GoPhase.done ‹s.gs[i]? = some GoPhase.leaving›
      (by simp) (by simp) rfl rfl rfl rfl
  | wait =>
    simp only [limitedParallelStep] at h
    repeat' split at h
    all_goals cases h
    exact ⟨h1, h2, h3, h4⟩

/-! ## Properties of `limitedParallel`: the returned value -/

theorem limitedParallelRun_inv {ε : Type} (tasks : List (Task ε))
    (acts : List (LPAction ε)) :
    ∀ s s' : LPState ε, (LPFirstInv s ∧ LPWaitInv s ∧ LPRecordInv tasks s) →
      limitedParallelRun tasks s acts = some s' →
      LPFirstInv s' ∧ LPWaitInv s' ∧ LPRecordInv tasks s' := by
  induction acts with
  | nil => intro s s' hinv h; cases h; exact hinv
  | cons a rest ih =>
    intro s s' hinv h
    simp only [limitedParallelRun] at h
    cases hstep : limitedParallelStep tasks s a with
    | none => rw [hstep] at h; exact absurd h (by simp)
    | some s1 =>
      rw [hstep] at h
      exact ih s1 s'
        ⟨limitedParallelStep_firstInv tasks s s1 a hinv.1 hstep,
         limitedParallelStep_waitInv tasks s s1 a hinv.2.1 hstep,
         limitedParallelStep_recordInv tasks s s1 a hinv.2.2 hstep⟩ h

theorem limitedParallelInit_inv {ε : Type} (tasks : List (Task ε)) (ctxErr : Option ε)
    (limit : Int) :
    LPFirstInv (limitedParallelInit ctxErr limit) ∧
      LPWaitInv (limitedParallelInit ctxErr limit) ∧
      LPRecordInv tasks (limitedParallelInit ctxErr limit) := by
  refine ⟨⟨rfl, by simp [limitedParallelInit], rfl⟩, ⟨rfl, ?_⟩,
    limitedParallelInit_recordInv tasks ctxErr limit⟩
  intro r hr
  simp [limitedParallelInit] at hr

/-- C2 (as stated, refuted). With two failing tasks and limit 2, the context
never cancelled: task 0 is the first to return from its body (error 10), task 1
returns second (error 20) and reaches `once.Do` first; `limitedParallel`
returns 20, not the error of the first task to fail by completion order. -/
theorem limitedParallel_not_first_completed :
    ¬ ∀ (tasks : List (Task Nat)) (limit : Int) (acts : List (LPAction Nat))
        (s : LPState Nat) (r : Option Nat),
        limitedParallelRun tasks (limitedParallelInit none limit) acts = some s →
        s.ctxErr = none → s.main = MainPhase.returned r →
        r = firstFailure s.completed := by
  intro hall
  have := hall [fun _ => some 10, fun _ => some 20] 2
    [.spawn, .spawn, .acquire 0, .acquire 1, .finish 0, .finish 1, .record 1, .record 0,
     .release 0, .release 1, .done 0, .done 1, .wait]
    { ctxErr := none, cap := 2, sem := 0, wg := 0, onceDone := true, first := some 20,
      main := .returned (some 20), gs := [.done, .done], invoked := [0, 1],
      completed := [(0, some 10), (1, some 20)], recorded := [(1, 20), (0, 10)],
      abandoned := [], writes := 1 }
    (some 20) (by decide) rfl rfl
  exact absurd this (by decide)

/-- C2 (amended). For every list of tasks, every limit and every schedule in
which the context is never cancelled, the value returned by `limitedParallel`
is the error passed by the first `once.Do` call (nil when there was none);
every error passed to `once.Do` is the error returned by that task's body; the
value is nil exactly when no body returned an error; and `first` is assigned at
most once. -/
theorem limitedParallel_first_recorded_wins {ε : Type} (tasks : List (Task ε))
    (limit : Int) (acts : List (LPAction ε)) (s : LPState ε) (r : Option ε)
    (hrun : limitedParallelRun tasks (limitedParallelInit none limit) acts = some s)
    (hctx : s.ctxErr = none) (hret : s.main = MainPhase.returned r) :
    r = (s.recorded.head?).map Prod.snd ∧
      (∀ p ∈ s.recorded, (p.1, some p.2) ∈ s.completed) ∧
      (∀ p ∈ s.completed, ∃ fn, tasks[p.1]? = some fn ∧ p.2 = fn none) ∧
      (r = none ↔ ∀ p ∈ s.completed, p.2 = none) ∧
      s.writes ≤ 1 := by
  obtain ⟨hfirst, hwait, hrec⟩ :=
    limitedParallelRun_inv tasks acts _ s (limitedParallelInit_inv tasks none limit) hrun
  have hz : s.wg = 0 ∧ r = s.first := by
    rcases hwait.retFirst r hret with hc | hz
    · exact absurd hctx hc
    · exact hz
  have hr : r = (s.recorded.head?).map Prod.snd := hz.2.trans hfirst.firstRec
  have hlive : liveGoroutines s.gs = 0 := by
    have := hwait.wgLive
    omega
  refine ⟨hr, hrec.recCompleted, hrec.live hctx, ⟨?_, ?_⟩, ?_⟩
  · intro hnone p hp
    cases hres : p.2 with
    | none => rfl
    | some e =>
      exfalso
      have hmem : (p.1, some e) ∈ s.completed := by rw [← hres]; exact hp
      rcases hrec.failRec p.1 e hmem with hin | hg
      · rw [hnone] at hr
        cases hl : s.recorded with
        | nil => rw [hl] at hin; simp at hin
        | cons x xs => rw [hl] at hr; simp at hr
      · have := liveGoroutines_pos s.gs p.1 _ hg rfl
        omega
  · intro hall
    rw [hr]
    cases hl : s.recorded with
    | nil => rfl
    | cons x xs =>
      have := hall _ (hrec.recCompleted x (by rw [hl]; exact List.mem_cons_self _ _))
      simp at this
  · rw [hfirst.writesRec]
    split <;> omega

theorem limitedParallel_first_recorded_wins_witness :
    some 20 = (([(1, 20), (0, 10)] : List (Nat × Nat)).head?).map Prod.snd ∧
      (∀ p ∈ ([(1, 20), (0, 10)] : List (Nat × Nat)),
        (p.1, some p.2) ∈ ([(0, some 10), (1, some 20)] : List (Nat × Option Nat))) ∧
      (∀ p ∈ ([(0, some 10), (1, some 20)] : List (Nat × Option Nat)),
        ∃ fn, ([fun _ => some 10, fun _ => some 20] : List (Task Nat))[p.1]? = some fn ∧
          p.2 = fn none) ∧
      (some 20 = none ↔
        ∀ p ∈ ([(0, some 10), (1, some 20)] : List (Nat × Option Nat)), p.2 = none) ∧
      1 ≤ 1 :=
  limitedParallel_first_recorded_wins [fun _ => some 10, fun _ => some 20] 2
    [.spawn, .spawn, .acquire 0, .acquire 1, .finish 0, .finish 1, .record 1, .record 0,
     .release 0, .release 1, .done 0, .done 1, .wait]
    { ctxErr := none, cap := 2, sem := 0, wg := 0, onceDone := true, first := some 20,
      main := .returned (some 20), gs := [.done, .done], invoked := [0, 1],
      completed := [(0, some 10), (1, some 20)], recorded := [(1, 20), (0, 10)],
      abandoned := [], writes := 1 }
    (some 20) (by decide) rfl rfl

/-- C10. Two tasks that return nil, limit 1: both goroutines are started, task 0
takes the only permit, the context is cancelled (error 99) while goroutine 1
waits in its `select`, goroutine 1 takes the `ctx.Done()` case and its body is
never entered; `limitedParallel` returns nil. -/
theorem limitedParallel_abandoned_returns_nil :
    (limitedParallelRun [fun _ => none, fun _ => none]
        (limitedParallelInit (none : Option Nat) 1)
        [.spawn, .spawn, .acquire 0, .cancel 99, .abandon 1, .done 1, .finish 0,
         .record 0, .release 0, .done 0, .wait]).map
      (fun s => (s.ctxErr, s.invoked, s.abandoned, s.main)) =
      some (some 99, [0], [1], MainPhase.returned none) := by
  decide

theorem wrap64_eq (x : Int) (hlo : -(2 ^ 63) ≤ x) (hhi : x < 2 ^ 63) : wrap64 x = x := by
  unfold wrap64
  rw [Int.emod_eq_of_lt (by omega) (by omega)]
  omega

theorem nextDelay_le (d : Int) : nextDelay d ≤ fiveSeconds := by
  simp only [nextDelay]
  split <;> omega

/-- Closed form of the delay after `i` completed backoffs, for a base delay
that does not exceed the ceiling. -/
theorem nextDelay_iterate (b : Int) (hpos : 0 < b) (hle : b ≤ fiveSeconds) (i : Nat) :
    nextDelay^[i] b = min (b * 2 ^ i) fiveSeconds := by
  induction i with
  | zero => simp only [Function.iterate_zero, id_eq, pow_zero, mul_one]; omega
  | succ i ih =>
    rw [Function.iterate_succ_apply', ih]
    have hpow : (0 : Int) < 2 ^ i := by positivity
    have hmul : 0 < b * 2 ^ i := Int.mul_pos hpos hpow
    have hsucc : b * 2 ^ (i + 1) = 2 * (b * 2 ^ i) := by ring
    rw [hsucc]
    simp only [fiveSeconds] at hle ⊢
    by_cases hc : b * 2 ^ i ≤ 5000000000
    · rw [min_eq_left hc]
      simp only [nextDelay, fiveSeconds]
      rw [wrap64_eq _ (by omega) (by omega)]
      split
      · rw [min_eq_right (by omega)]
      · rw [min_eq_left (by omega)]; ring
    · rw [min_eq_right (by omega), min_eq_right (by omega)]
      simp only [nextDelay, fiveSeconds]
      rw [wrap64_eq _ (by omega) (by omega)]
      simp

/-- Whatever the task and the scheduler do, the delays recorded by the loop
are the successive values of `delay`, starting from its value at entry. -/
theorem retryLoop_delays {ε : Type} (maxAttempts : Int) (fn : Int → Option ε)
    (sel : Int → BackoffSelect ε) (fuel : Nat) :
    ∀ (a d : Int) (calls delays : List Int) (run : RetryRun ε),
      retryLoop maxAttempts fn sel fuel a d calls delays = some run →
      ∃ n, run.delays = delays ++ delaysFrom d n := by
  induction fuel with
  | zero => intro a d calls delays run h; simp [retryLoop] at h
  | succ fuel ih =>
    intro a d calls delays run h
    simp only [retryLoop] at h
    split at h
    · split at h
      · cases h; exact ⟨0, by simp [delaysFrom]⟩
      · split at h
        · cases h; exact ⟨0, by simp [delaysFrom]⟩
        · split at h
          · obtain ⟨n, hn⟩ := ih _ _ _ _ run h
            refine ⟨n + 1, ?_⟩
            rw [hn, delaysFrom_succ]
            simp
          · cases h
            exact ⟨1, by simp [delaysFrom]⟩
    · cases h; exact ⟨0, by simp [delaysFrom]⟩

theorem delaysFrom_getElem? (d : Int) (n i : Nat) (x : Int)
    (h : (delaysFrom d n)[i]? = some x) : x = nextDelay^[i] d := by
  simp only [delaysFrom, List.getElem?_map] at h
  by_cases hi : i < n
  · rw [List.getElem?_range hi] at h
    simpa using h.symm
  · rw [List.getElem?_eq_none (by simpa using hi)] at h
    simp at h

/-- C14 (as stated, refuted). With `baseDelay` = 6 s, two attempts and a task
that fails, the backoff after the first attempt uses a delay of 6 s, not
`min(6 s, 5 s)`. -/
theorem retryWithBackoff_first_delay_uncapped :
    ¬ ∀ (maxAttempts baseDelay : Int) (fn : Int → Option Nat)
        (sel : Int → BackoffSelect Nat) (run : RetryRun Nat) (i : Nat) (d : Int),
        0 < baseDelay → retryWithBackoff maxAttempts baseDelay fn sel = some run →
        run.delays[i]? = some d →
        d = min (baseDelay * 2 ^ i) fiveSeconds ∧ d ≤ fiveSeconds := by
  intro hall
  have := hall 2 6000000000 (fun _ => some 1) (fun _ => BackoffSelect.timer)
    ⟨some 1, [1, 2], [6000000000]⟩ 0 6000000000 (by decide) (by decide) (by decide)
  exact absurd this.2 (by decide)

/-- C14 (amended). For every base delay with `0 < baseDelay <= 5 s`, in every
run of `retryWithBackoff` the delay (before jitter) of the backoff that follows
the `(i+1)`-th failed attempt is `min(baseDelay * 2^i, 5 s)`, and so never
exceeds the ceiling of 5 seconds. -/
theorem retryWithBackoff_delay_schedule {ε : Type} (maxAttempts baseDelay : Int)
    (fn : Int → Option ε) (sel : Int → BackoffSelect ε) (run : RetryRun ε)
    (i : Nat) (d : Int)
    (hpos : 0 < baseDelay) (hle : baseDelay ≤ fiveSeconds)
    (hrun : retryWithBackoff maxAttempts baseDelay fn sel = some run)
    (hd : run.delays[i]? = some d) :
    d = min (baseDelay * 2 ^ i) fiveSeconds ∧ d ≤ fiveSeconds := by
  obtain ⟨n, hn⟩ := retryLoop_delays maxAttempts fn sel _ 1 baseDelay [] [] run hrun
  rw [hn, List.nil_append] at hd
  have hx := delaysFrom_getElem? baseDelay n i d hd
  rw [nextDelay_iterate baseDelay hpos hle i] at hx
  exact ⟨hx, by rw [hx]; exact min_le_right _ _⟩

theorem retryWithBackoff_delay_schedule_witness :
    (4000000000 : Int) = min (1000000000 * 2 ^ 2) fiveSeconds ∧
      (4000000000 : Int) ≤ fiveSeconds :=
  retryWithBackoff_delay_schedule (ε := Nat) 5 1000000000 (fun _ => some 1)
    (fun _ => BackoffSelect.timer)
    ⟨some 1, [1, 2, 3, 4, 5], [1000000000, 2000000000, 4000000000, 5000000000]⟩
    2 4000000000 (by decide) (by decide) (by decide) (by decide)

/-- C16. If attempts `1..j-1` fail, attempt `j <= maxAttempts` returns nil and
the `j-1` backoffs in between run to their timer, then `retryWithBackoff`
returns nil, `fn` is called for the attempts `1..j` only, and exactly the
`j-1` backoffs that precede the successful attempt are started. -/
theorem retryWithBackoff_returns_on_success {ε : Type} (maxAttempts : Int) (j : Nat)
    (baseDelay : Int) (fn : Int → Option ε) (sel : Int → BackoffSelect ε)
    (hj1 : 1 ≤ j) (hj : (j : Int) ≤ maxAttempts)
    (hfail : ∀ a : Int, 1 ≤ a → a < j → (fn a).isSome)
    (hok : fn j = none)
    (htimer : ∀ a : Int, 1 ≤ a → a < j → sel a = BackoffSelect.timer) :
    ∃ run, retryWithBackoff maxAttempts baseDelay fn sel = some run ∧
      run.result = none ∧ run.calls = attemptsFrom 1 j ∧ run.calls.length = j ∧
      run.delays.length = j - 1 := by
  obtain ⟨n, rfl⟩ : ∃ n, j = n + 1 := ⟨j - 1, by omega⟩
  obtain ⟨f, hf⟩ : ∃ f, maxAttempts.toNat + 1 = (f + 1) + n := ⟨maxAttempts.toNat - n, by omega⟩
  have hpre := retryLoop_failed_prefix maxAttempts fn sel n (f + 1) 1 baseDelay [] []
    (fun i hi => hfail _ (by omega) (by push_cast; omega))
    (fun i hi => htimer _ (by omega) (by push_cast; omega))
    (by push_cast at hj; omega)
  have hcast : (1 : Int) + (n : Int) = ((n + 1 : Nat) : Int) := by push_cast; ring
  refine ⟨⟨none, attemptsFrom 1 (n + 1), delaysFrom baseDelay n⟩, ?_, rfl, rfl, ?_, ?_⟩
  · unfold retryWithBackoff
    rw [hf, hpre, hcast]
    simp only [retryLoop, hok, if_pos hj, List.nil_append]
    simp only [attemptsFrom, List.range_succ, List.map_append, List.map_cons, List.map_nil]
    simp [hcast]
  · simp only [attemptsFrom, List.length_map, List.length_range]
  · simp only [delaysFrom, List.length_map, List.length_range]; omega

theorem retryWithBackoff_returns_on_success_witness :
    ∃ run, retryWithBackoff (ε := String) 5 100
        (fun a => if a = 3 then none else some (toString a))
        (fun _ => BackoffSelect.timer) = some run ∧
      run.result = none ∧ run.calls = attemptsFrom 1 3 ∧ run.calls.length = 3 ∧
      run.delays.length = 3 - 1 :=
  retryWithBackoff_returns_on_success 5 3 100
    (fun a => if a = 3 then none else some (toString a))
    (fun _ => BackoffSelect.timer) (by decide) (by decide)
    (fun a _ h => by
      have hne : a ≠ 3 := by omega
      simp [hne]) rfl (fun _ _ _ => rfl)

/-! ## Properties of `userLimiter.Allow` -/

theorem newUserLimiter_wellFormed {L σ : Type} (limit : L) (burst : Int) :
    (newUserLimiter limit burst : userLimiter L σ).WellFormed :=
  ⟨rfl, fun k p h => by simp [userLimiter.lookup, newUserLimiter] at h⟩

/-- Effect of one `Allow` call on a limiter whose map is allocated. -/
theorem userLimiter.Allow_spec {L σ ε : Type} (fresh : σ)
    (allow : Bucket L σ → Bucket L σ × Bool) (rateErr : ε)
    (u : userLimiter L σ) (hwf : u.WellFormed) (ctxErr : Option ε) (userID : String) :
    ∃ r u' p, u.Allow fresh allow rateErr ctxErr userID = some (r, u') ∧
      u'.lookup userID = some p ∧
      (u.lookup userID = none →
        p = u.heap.length ∧ (∀ k, u.lookup k ≠ some p) ∧
          u'.heap[p]? = some (allow ⟨u.limit, u.burst, fresh⟩).1) ∧
      (∀ q, u.lookup userID = some q → p = q) ∧
      (∀ k q, u.lookup k = some q → u'.lookup k = some q) ∧
      (∀ k, k ≠ userID → u'.lookup k = u.lookup k) ∧
      u'.limit = u.limit ∧ u'.burst = u.burst ∧ u'.WellFormed := by
  obtain ⟨halloc, hheap⟩ := hwf
  cases hl : u.lookup userID with
  | some q =>
    have hq : q < u.heap.length := hheap userID q hl
    have hA : u.Allow fresh allow rateErr ctxErr userID =
        some (if (allow u.heap[q]).2 then ctxErr else some rateErr,
          { u with heap := u.heap.set q (allow u.heap[q]).1 }) := by
      simp only [userLimiter.Allow, hl, List.getElem?_eq_getElem hq]
    refine ⟨_, _, q, hA, ?_, ?_, ?_, ?_, ?_, rfl, rfl, ?_⟩
    · exact hl
    · intro h; cases h
    · intro q' h; cases h; rfl
    · intro k q' h; exact h
    · intro k _; rfl
    · refine ⟨halloc, fun k p' h => ?_⟩
      simp only [List.length_set]
      exact hheap k p' h
  | none =>
    cases hm : u.limiters with
    | none => rw [hm] at halloc; cases halloc
    | some m =>
      have hmk : ∀ k, u.lookup k = m k := fun k => by simp [userLimiter.lookup, hm]
      have hnew : (u.heap ++ [(⟨u.limit, u.burst, fresh⟩ : Bucket L σ)])[u.heap.length]? =
          some ⟨u.limit, u.burst, fresh⟩ := by simp
      have hA : u.Allow fresh allow rateErr ctxErr userID =
          some (if (allow ⟨u.limit, u.burst, fresh⟩).2 then ctxErr else some rateErr,
            { u with
              limiters := some (fun k => if k = userID then some u.heap.length else m k),
              heap := (u.heap ++ [(⟨u.limit, u.burst, fresh⟩ : Bucket L σ)]).set u.heap.length
                (allow ⟨u.limit, u.burst, fresh⟩).1 }) := by
        simp only [userLimiter.Allow, hl, hm, hnew]
      refine ⟨_, _, u.heap.length, hA, ?_, ?_, ?_, ?_, ?_, rfl, rfl, ?_⟩
      · simp [userLimiter.lookup]
      · intro _
        refine ⟨rfl, fun k h => ?_, ?_⟩
        · exact absurd (hheap k _ h) (lt_irrefl _)
        · simp
      · intro q h; cases h
      · intro k q h
        have hk : k ≠ userID := by
          intro e; rw [e, hl] at h; cases h
        simp only [userLimiter.lookup, Option.some_bind, if_neg hk]
        rw [← hmk k]; exact h
      · intro k hk
        simp only [userLimiter.lookup, Option.some_bind, if_neg hk]
        rw [← hmk k]; rfl
      · refine ⟨rfl, fun k p' h => ?_⟩
        simp only [List.length_set, List.length_append, List.length_singleton]
        simp only [userLimiter.lookup, Option.some_bind] at h
        split at h
        · cases h; omega
        · have := hheap k p' (by rw [hmk k]; exact h)
          omega

/-- States reached from `newUserLimiter` by `Allow` calls: no call panics, the
configuration is kept, and the users with a bucket are the users of the calls. -/
theorem userLimiter.after_spec {L σ ε : Type} (fresh : σ)
    (allow : Bucket L σ → Bucket L σ × Bool) (rateErr : ε) (limit : L) (burst : Int)
    (calls : List (String × Option ε)) :
    ∃ u, userLimiter.after fresh allow rateErr limit burst calls = some u ∧
      u.WellFormed ∧ u.limit = limit ∧ u.burst = burst ∧
      ∀ k, (u.lookup k).isSome = true ↔ k ∈ calls.map Prod.fst := by
  induction calls with
  | nil =>
    refine ⟨_, rfl, newUserLimiter_wellFormed limit burst, rfl, rfl, fun k => ?_⟩
    simp [userLimiter.lookup, newUserLimiter]
  | cons call earlier ih =>
    obtain ⟨u, hu, hwf, hlim, hburst, hkeys⟩ := ih
    obtain ⟨r, u', p, hallow, hp, _, _, hkeep, hother, hl', hb', hwf'⟩ :=
      userLimiter.Allow_spec fresh allow rateErr u hwf call.2 call.1
    refine ⟨u', ?_, hwf', hl'.trans hlim, hb'.trans hburst, fun k => ?_⟩
    · simp only [userLimiter.after, hu, Option.some_bind, hallow, Option.map_some']
    · simp only [List.map_cons, List.mem_cons]
      by_cases hk : k = call.1
      · subst hk
        simp [hp]
      · rw [hother k hk, hkeys k]
        simp [hk]

/-- C18 (counterexample). On the zero value of `userLimiter`, whose map is nil,
the call `Allow(ctx, "alice")` panics at the assignment
`u.limiters[userID] = limiter`: the call does not return and no bucket is
stored. -/
theorem userLimiter_Allow_nil_map_panics :
    userLimiter.Allow () (fun b => (b, true)) "rate limit exceeded for user"
      ({ limiters := none, heap := [], limit := 0, burst := 0 } : userLimiter Int Unit)
      none "alice" = none :=
  rfl

/-- C18 (amended). For every `userLimiter` state whose map is allocated and
holds only pointers to limiters, and every `userID`, the call
`Allow(ctx, userID)` returns and leaves such a state with a bucket for `userID`:
the same pointer as before if there was one, otherwise a newly allocated limiter
built from the configured `limit` and `burst` (on which `Allow()` has been called
once); every user that had a bucket still maps to the same pointer, and no other
key is added or removed. Every state reached from `newUserLimiter(limit, burst)`
by a sequence of `Allow` calls is such a state, and the users that have a bucket
in it are exactly the users for which `Allow` has been called. -/
theorem userLimiter_Allow_lazy_no_eviction {L σ ε : Type} (fresh : σ)
    (allow : Bucket L σ → Bucket L σ × Bool) (rateErr : ε) :
    (∀ (u : userLimiter L σ), u.WellFormed → ∀ (ctxErr : Option ε) (userID : String),
      ∃ r u' p, u.Allow fresh allow rateErr ctxErr userID = some (r, u') ∧
        u'.WellFormed ∧ u'.limit = u.limit ∧ u'.burst = u.burst ∧
        u'.lookup userID = some p ∧
        (u.lookup userID = none →
          p = u.heap.length ∧ (∀ k, u.lookup k ≠ some p) ∧
            u'.heap[p]? = some (allow ⟨u.limit, u.burst, fresh⟩).1) ∧
        (∀ q, u.lookup userID = some q → p = q) ∧
        (∀ k q, u.lookup k = some q → u'.lookup k = some q) ∧
        (∀ k, k ≠ userID → u'.lookup k = u.lookup k)) ∧
    (∀ (limit : L) (burst : Int) (calls : List (String × Option ε)),
      ∃ u, userLimiter.after fresh allow rateErr limit burst calls = some u ∧
        u.WellFormed ∧ u.limit = limit ∧ u.burst = burst ∧
        ∀ k, (u.lookup k).isSome = true ↔ k ∈ calls.map Prod.fst) := by
  constructor
  · intro u hwf ctxErr userID
    obtain ⟨r, u', p, hallow, hp, hnew, hsame, hkeep, hother, hl, hb, hwf'⟩ :=
      userLimiter.Allow_spec fresh allow rateErr u hwf ctxErr userID
    exact ⟨r, u', p, hallow, hwf', hl, hb, hp, hnew, hsame, hkeep, hother⟩
  · intro limit burst calls
    exact userLimiter.after_spec fresh allow rateErr limit burst calls

/-- Instance of C18 at the first call `Allow(ctx, "alice")` on the state made by
`newUserLimiter(5, 3)`. -/
theorem userLimiter_Allow_lazy_no_eviction_witness :
    (newUserLimiter 5 3 : userLimiter Int Unit).WellFormed ∧
    ∃ r u' p, userLimiter.Allow () (fun b => (b, true)) "rate limit exceeded for user"
        (newUserLimiter 5 3 : userLimiter Int Unit) none "alice" = some (r, u') ∧
      u'.WellFormed ∧ u'.limit = 5 ∧ u'.burst = 3 ∧
      u'.lookup "alice" = some p ∧
      ((newUserLimiter 5 3 : userLimiter Int Unit).lookup "alice" = none →
        p = 0 ∧ (∀ k, (newUserLimiter 5 3 : userLimiter Int Unit).lookup k ≠ some p) ∧
          u'.heap[p]? = some ⟨5, 3, ()⟩) ∧
      (∀ q, (newUserLimiter 5 3 : userLimiter Int Unit).lookup "alice" = some q → p = q) ∧
      (∀ k q, (newUserLimiter 5 3 : userLimiter Int Unit).lookup k = some q →
        u'.lookup k = some q) ∧
      (∀ k, k ≠ "alice" → u'.lookup k = (newUserLimiter 5 3 : userLimiter Int Unit).lookup k) :=
  ⟨newUserLimiter_wellFormed 5 3,
    (userLimiter_Allow_lazy_no_eviction () (fun b => (b, true))
      "rate limit exceeded for user").1 (newUserLimiter 5 3) (newUserLimiter_wellFormed 5 3)
      none "alice"⟩

/-! ## Properties of `pipelineWithBackpressure` -/

theorem backpressureStep_inv (input : List Int) (cap : Nat) (s s' : BackpressureState)
    (a : BackpressureAction) (hinv : BackpressureInv input cap s)
    (h : backpressureStep s a = some s') : BackpressureInv input cap s' := by
  obtain ⟨h0, h1, h2, h3, h4⟩ := hinv
  cases a with
  | cancel =>
    simp only [backpressureStep] at h
    cases h
    exact ⟨h0, h1, h2, fun hc => absurd hc (by simp), fun hc => absurd hc (by simp)⟩
  | recv =>
    simp only [backpressureStep] at h
    repeat' split at h
    all_goals cases h
    next job rest hst hp =>
    refine ⟨h0, h1, fun hc => ?_, fun hc => ?_, fun _ hd => ?_⟩
    · have := h2 hc; rw [hst] at this; cases this
    · have := h3 hc
      rw [hst, hp] at this
      simpa [StagePhase.held] using this
    · cases hd
  | sendBuffer =>
    simp only [backpressureStep] at h
    repeat' split at h
    all_goals cases h
    next job hst hlt =>
    refine ⟨h0, ?_, fun hc => ?_, fun hc => ?_, fun _ hd => ?_⟩
    · simp only [List.length_append, List.length_singleton]; omega
    · have := h2 hc; rw [hst] at this; cases this
    · have := h3 hc
      rw [hst] at this
      simpa [StagePhase.held] using this
    · cases hd
  | sendDirect =>
    simp only [backpressureStep] at h
    repeat' split at h
    all_goals cases h
    next job hst hb =>
    refine ⟨h0, h1, fun hc => ?_, fun hc => ?_, fun _ hd => ?_⟩
    · have := h2 hc; rw [hst] at this; cases this
    · have := h3 hc
      rw [hst, hb] at this
      simpa [StagePhase.held, hb] using this
    · cases hd
  | consume =>
    simp only [backpressureStep] at h
    repeat' split at h
    all_goals cases h
    next v rest hb =>
    refine ⟨h0, ?_, h2, fun hc => ?_, h4⟩
    · rw [hb] at h1
      simp only [List.length_cons] at h1
      show rest.length ≤ s.cap
      omega
    · have := h3 hc
      rw [hb] at this
      simpa using this
  | abort =>
    simp only [backpressureStep] at h
    repeat' split at h
    all_goals cases h
    next hcd =>
    refine ⟨h0, h1, fun _ => rfl, fun hc => ?_, fun hc => ?_⟩
    · rw [hcd] at hc; cases hc
    · rw [hcd] at hc; cases hc
  | finish =>
    simp only [backpressureStep] at h
    repeat' split at h
    all_goals cases h
    next hst hp =>
    refine ⟨h0, h1, fun _ => rfl, fun hc => ?_, fun _ _ => hp⟩
    have := h3 hc
    rw [hst, hp] at this
    simpa [StagePhase.held, hp] using this

theorem backpressureRun_inv (input : List Int) (cap : Nat) (acts : List BackpressureAction) :
    ∀ s s' : BackpressureState, BackpressureInv input cap s →
      backpressureRun s acts = some s' → BackpressureInv input cap s' := by
  induction acts with
  | nil => intro s s' hinv h; cases h; exact hinv
  | cons a rest ih =>
    intro s s' hinv h
    simp only [backpressureRun] at h
    cases hstep : backpressureStep s a with
    | none => rw [hstep] at h; exact absurd h (by simp)
    | some s1 =>
      rw [hstep] at h
      exact ih s1 s' (backpressureStep_inv input cap s s1 a hinv hstep) h

/-- The direct schedule delivers all pending jobs in order and closes `out`. -/
theorem backpressureRun_directSchedule (pending : List Int) :
    ∀ (received : List Int) (cap : Nat),
      backpressureRun
        { ctxDone := false, pending := pending, stage := .idle, buf := [], cap := cap,
          outClosed := false, received := received } (directSchedule pending) =
      some { ctxDone := false, pending := [], stage := .done, buf := [], cap := cap,
             outClosed := true, received := received ++ pending } := by
  induction pending with
  | nil => intro received cap; simp [directSchedule, backpressureRun, backpressureStep]
  | cons job rest ih =>
    intro received cap
    simp only [directSchedule, backpressureRun, backpressureStep, Option.some_bind]
    rw [ih (received ++ [job]) cap]
    simp

/-- C12. For every finite input delivered on `jobs` and every buffer size
`>= 0`: the stage can run to completion, the consumer then having received
exactly the input in order with `out` closed; and in every schedule the buffer
of `out` never holds more than `buffer` items and, as long as the context is not
cancelled, what the consumer has received followed by what is buffered is a
prefix of the input, and is the whole input once `out` is closed. -/
theorem pipelineWithBackpressure_drops_nothing (input : List Int) (buffer : Int)
    (hb : 0 ≤ buffer) :
    ∃ s0, pipelineWithBackpressure input buffer = some s0 ∧
      (∃ acts s, backpressureRun s0 acts = some s ∧ s.ctxDone = false ∧
        s.outClosed = true ∧ s.buf = [] ∧ s.received = input) ∧
      ∀ acts s, backpressureRun s0 acts = some s →
        (s.buf.length : Int) ≤ buffer ∧
        (s.ctxDone = false →
          (s.received ++ s.buf) <+: input ∧
          (s.outClosed = true → s.received ++ s.buf = input)) := by
  have hstart : pipelineWithBackpressure input buffer =
      some { ctxDone := false, pending := input, stage := .idle, buf := [],
             cap := buffer.toNat, outClosed := false, received := [] } := by
    simp only [pipelineWithBackpressure, if_neg (not_lt.mpr hb)]
  refine ⟨_, hstart, ?_, ?_⟩
  · exact ⟨directSchedule input, _, backpressureRun_directSchedule input [] _, rfl, rfl, rfl,
      by simp⟩
  · intro acts s hrun
    have hinit : BackpressureInv input buffer.toNat
        { ctxDone := false, pending := input, stage := .idle, buf := [],
          cap := buffer.toNat, outClosed := false, received := [] } :=
      ⟨rfl, Nat.zero_le _, fun h => (by cases h), fun _ => (by simp [StagePhase.held]),
        fun _ h => (by cases h)⟩
    obtain ⟨h0, h1, h2, h3, h4⟩ := backpressureRun_inv input _ acts _ s hinit hrun
    refine ⟨by omega, fun hc => ⟨?_, fun hclosed => ?_⟩⟩
    · refine ⟨s.stage.held ++ s.pending, ?_⟩
      rw [← h3 hc]; simp
    · have hd := h2 hclosed
      have := h3 hc
      rw [h4 hc hd, hd] at this
      simpa [StagePhase.held] using this

theorem pipelineWithBackpressure_drops_nothing_witness :
    ∃ s0, pipelineWithBackpressure [3, 1, 2] 1 = some s0 ∧
      (∃ acts s, backpressureRun s0 acts = some s ∧ s.ctxDone = false ∧
        s.outClosed = true ∧ s.buf = [] ∧ s.received = [3, 1, 2]) ∧
      ∀ acts s, backpressureRun s0 acts = some s →
        (s.buf.length : Int) ≤ 1 ∧
        (s.ctxDone = false →
          (s.received ++ s.buf) <+: [3, 1, 2] ∧
          (s.outClosed = true → s.received ++ s.buf = [3, 1, 2])) :=
  pipelineWithBackpressure_drops_nothing [3, 1, 2] 1 (by decide)

/-! ## Properties of `limitedParallel`: the invocations -/

theorem getElem?_set_split {α : Type} (l : List α) (i j : Nat) (b x : α)
    (h : (l.set i b)[j]? = some x) : (j = i ∧ x = b) ∨ (j ≠ i ∧ l[j]? = some x) := by
  by_cases hij : j = i
  · left
    subst hij
    have hlt : j < l.length := by
      have := (List.getElem?_eq_some.mp h).1
      simpa using this
    rw [List.getElem?_set_self hlt] at h
    exact ⟨rfl, (Option.some.inj h).symm⟩
  · right
    rw [List.getElem?_set_ne (fun e => hij e.symm)] at h
    exact ⟨hij, h⟩

theorem getElem?_append_singleton_split {α : Type} (l : List α) (j : Nat) (b x : α)
    (h : (l ++ [b])[j]? = some x) : (j = l.length ∧ x = b) ∨ l[j]? = some x := by
  by_cases hj : j < l.length
  · right; rwa [List.getElem?_append_left hj] at h
  · left
    have hlt : j < (l ++ [b]).length := (List.getElem?_eq_some.mp h).1
    simp only [List.length_append, List.length_singleton] at hlt
    have hje : j = l.length := by omega
    subst hje
    simp at h
    exact ⟨rfl, h.symm⟩

/-- A change of phase of one goroutine between two phases past the `select`,
with the other records unchanged, keeps the invocation invariant. -/
theorem LPInvokeInv.of_phase_set {ε : Type} {tasks : List (Task ε)} {s s' : LPState ε}
    (hinv : LPInvokeInv tasks s) (i : Nat) (a b : GoPhase ε)
    (hi : s.gs[i]? = some a) (ha : a.entered = true) (hb : b.entered = true)
    (hgs : s'.gs = s.gs.set i b) (hm : s'.main = s.main)
    (hinvk : s'.invoked = s.invoked) (hx : s'.ctxErr = s.ctxErr) :
    LPInvokeInv tasks s' := by
  obtain ⟨h1, h2, h3⟩ := hinv
  refine ⟨?_, ?_, ?_⟩
  · intro r hr
    rw [hm] at hr
    rw [hx, hgs, List.length_set]
    exact h1 r hr
  · intro hc j p hj
    rw [hx] at hc
    rw [hgs] at hj
    rw [hinvk]
    rcases getElem?_set_split _ _ _ _ _ hj with ⟨hji, hp⟩ | ⟨_, hold⟩
    · subst hji; subst hp
      rw [h2 hc j a hi, if_pos ha, if_pos hb]
    · exact h2 hc j p hold
  · intro hc j hj
    rw [hx] at hc
    rw [hgs, List.length_set] at hj
    rw [hinvk]
    exact h3 hc j hj

theorem limitedParallelInit_invokeInv {ε : Type} (tasks : List (Task ε)) (ctxErr : Option ε)
    (limit : Int) : LPInvokeInv tasks (limitedParallelInit ctxErr limit) := by
  refine ⟨?_, ?_, ?_⟩ <;> simp [limitedParallelInit]

theorem limitedParallelStep_invokeInv {ε : Type} (tasks : List (Task ε)) (s s' : LPState ε)
    (a : LPAction ε) (hinv : LPInvokeInv tasks s)
    (h : limitedParallelStep tasks s a = some s') : LPInvokeInv tasks s' := by
  have hinv0 := hinv
  obtain ⟨h1, h2, h3⟩ := hinv
  cases a with
  | cancel err =>
    simp only [limitedParallelStep] at h
    split at h <;> cases h
    exact ⟨fun _ _ => Or.inl (by simp), fun hc => absurd hc (by simp),
      fun hc => absurd hc (by simp)⟩
  | spawn =>
    simp only [limitedParallelStep] at h
    repeat' split at h
    all_goals cases h
    · exact ⟨fun _ _ => Or.inl (by simp [‹s.ctxErr = some _›]), h2, h3⟩
    · refine ⟨fun r hr => ?_, fun hc j p hj => ?_, fun hc j hj => ?_⟩
      · have hm : s.main = MainPhase.running := ‹s.main = MainPhase.running›
        simp only at hr
        rw [hm] at hr
        exact absurd hr (by simp)
      · rcases getElem?_append_singleton_split _ _ _ _ hj with ⟨hjl, hp⟩ | hold
        · subst hp
          simp only [GoPhase.entered]
          exact h3 hc j (le_of_eq hjl.symm)
        · exact h2 hc j p hold
      · simp only [List.length_append, List.length_singleton] at hj
        exact h3 hc j (by omega)
  | acquire i =>
    simp only [limitedParallelStep] at h
    repeat' split at h
    all_goals cases h
    have hi : s.gs[i]? = some GoPhase.waiting := ‹_›
    have hilt : i < s.gs.length := (List.getElem?_eq_some.mp hi).1
    refine ⟨fun r hr => ?_, fun hc j p hj => ?_, fun hc j hj => ?_⟩
    · simp only [List.length_set]
      exact h1 r hr
    · simp only [List.count_append, List.count_singleton]
      rcases getElem?_set_split _ _ _ _ _ hj with ⟨hji, hp⟩ | ⟨hne, hold⟩
      · subst hji; subst hp
        have := h2 hc j _ hi
        simp only [GoPhase.entered] at this ⊢
        simp [this]
      · have := h2 hc j p hold
        have hne' : ¬ (i = j) := fun e => hne e.symm
        simp [this, hne']
    · simp only [List.length_set] at hj
      simp only [List.count_append, List.count_singleton]
      have := h3 hc j hj
      have hne : ¬ (i = j) := by omega
      simp [this, hne]
  | abandon i =>
    simp only [limitedParallelStep] at h
    repeat' split at h
    all_goals cases h
    have hce : s.ctxErr = some _ := ‹s.ctxErr = some _›
    refine ⟨fun r hr => ?_, fun hc => ?_, fun hc => ?_⟩
    · simp only [List.length_set]
      exact h1 r hr
    · simp only at hc; rw [hce] at hc; cases hc
    · simp only at hc; rw [hce] at hc; cases hc
  | finish i =>
    simp only [limitedParallelStep] at h
    repeat' split at h
    all_goals cases h
    exact hinv0.of_phase_set i _ (GoPhase.returned _) ‹s.gs[i]? = some GoPhase.running›
      rfl rfl rfl rfl rfl rfl
  | record i =>
    simp only [limitedParallelStep] at h
    repeat' split at h
    all_goals cases h
    · exact hinv0.of_phase_set i _ GoPhase.holding ‹s.gs[i]? = some (GoPhase.returned none)›
        rfl rfl rfl rfl rfl rfl
    · exact hinv0.of_phase_set i _ GoPhase.holding ‹s.gs[i]? = some (GoPhase.returned (some _))›
        rfl rfl rfl rfl rfl rfl
    · exact hinv0.of_phase_set i _ GoPhase.holding ‹s.gs[i]? = some (GoPhase.returned (some _))›
        rfl rfl rfl rfl rfl rfl
  | release i =>
    simp only [limitedParallelStep] at h
    repeat' split at h
    all_goals cases h
    exact hinv0.of_phase_set i _ GoPhase.leaving ‹s.gs[i]? = some GoPhase.holding›
      rfl rfl rfl rfl rfl rfl
  | done i =>
    simp only [limitedParallelStep] at h
    repeat' split at h
    all_goals cases h
    exact hinv0.of_phase_set i _ GoPhase.done ‹s.gs[i]? = some GoPhase.leaving›
      rfl rfl rfl rfl rfl rfl
  | wait =>
    simp only [limitedParallelStep] at h
    repeat' split at h
    all_goals cases h
    have hg : s.gs.length = tasks.length ∧ s.wg = 0 := ‹_›
    exact ⟨fun _ _ => Or.inr hg.1, h2, h3⟩

theorem limitedParallelRun_invokeInv {ε : Type} (tasks : List (Task ε))
    (acts : List (LPAction ε)) :
    ∀ s s' : LPState ε, LPInvokeInv tasks s →
      limitedParallelRun tasks s acts = some s' → LPInvokeInv tasks s' := by
  induction acts with
  | nil => intro s s' hinv h; cases h; exact hinv
  | cons a rest ih =>
    intro s s' hinv h
    simp only [limitedParallelRun] at h
    cases hstep : limitedParallelStep tasks s a with
    | none => rw [hstep] at h; exact absurd h (by simp)
    | some s1 =>
      rw [hstep] at h
      exact ih s1 s' (limitedParallelStep_invokeInv tasks s s1 a hinv hstep) h

theorem limitedParallelRun_append {ε : Type} (tasks : List (Task ε))
    (a b : List (LPAction ε)) :
    ∀ s : LPState ε, limitedParallelRun tasks s (a ++ b) =
      (limitedParallelRun tasks s a).bind (fun s' => limitedParallelRun tasks s' b) := by
  induction a with
  | nil => intro s; rfl
  | cons x xs ih =>
    intro s
    simp only [List.cons_append, limitedParallelRun]
    cases limitedParallelStep tasks s x with
    | none => rfl
    | some s1 => exact ih s1

theorem set_append_length {α : Type} (l : List α) (a b : α) :
    (l ++ [a]).set l.length b = l ++ [b] := by
  induction l with
  | nil => rfl
  | cons x xs ih => simp only [List.cons_append, List.length_cons, List.set_cons_succ, ih]

/-- One round of the serial schedule, for a task that returns nil, with a free
permit and a live context: the goroutine is started and runs to its end. -/
theorem limitedParallelRun_round {ε : Type} (tasks : List (Task ε)) (s : LPState ε)
    (fn : Task ε) (hmain : s.main = MainPhase.running) (hctx : s.ctxErr = none)
    (hsem : s.sem < s.cap) (hfn : tasks[s.gs.length]? = some fn) (hnil : fn none = none)
    (hwg : 0 ≤ s.wg) :
    ∃ s', limitedParallelRun tasks s (roundSchedule s.gs.length) = some s' ∧
      s'.gs.length = s.gs.length + 1 ∧ s'.main = MainPhase.running ∧ s'.ctxErr = none ∧
      s'.sem = s.sem ∧ s'.cap = s.cap ∧ s'.wg = s.wg ∧ s'.first = s.first := by
  have hlen : s.gs.length < tasks.length := (List.getElem?_eq_some.mp hfn).1
  have hget : ∀ (a : GoPhase ε), (s.gs ++ [a])[s.gs.length]? = some a := fun a => by simp
  have hrun : limitedParallelRun tasks s (roundSchedule s.gs.length) =
      some { s with sem := s.sem + 1 - 1, wg := s.wg + 1 - 1,
                    gs := s.gs ++ [GoPhase.done],
                    invoked := s.invoked ++ [s.gs.length],
                    completed := s.completed ++ [(s.gs.length, none)] } := by
    have hwg1 : (0 : Int) < s.wg + 1 := by omega
    simp only [roundSchedule, limitedParallelRun, limitedParallelStep, hmain, hctx, hlen,
      if_true, Option.some_bind, hget, set_append_length, hsem, hfn, hnil, hwg1,
      Nat.zero_lt_succ]
  refine ⟨_, hrun, ?_, hmain, hctx, ?_, rfl, ?_, rfl⟩
  · simp
  · simp
  · simp

/-- The serial schedule runs the first `n` tasks to their end, for tasks that
return nil under a live context. -/
theorem limitedParallelRun_serialRounds {ε : Type} (tasks : List (Task ε)) (limit : Int)
    (hnil : ∀ fn ∈ tasks, fn none = none) (n : Nat) (hn : n ≤ tasks.length) :
    ∃ s, limitedParallelRun tasks (limitedParallelInit none limit) (serialRounds n) = some s ∧
      s.gs.length = n ∧ s.main = MainPhase.running ∧ s.ctxErr = none ∧ s.sem = 0 ∧
      0 < s.cap ∧ s.wg = 0 ∧ s.first = none := by
  induction n with
  | zero =>
    refine ⟨_, rfl, rfl, rfl, rfl, rfl, ?_, rfl, rfl⟩
    simp only [limitedParallelInit]
    split <;> omega
  | succ n ih =>
    obtain ⟨s, hrun, hlen, hmain, hctx, hsem, hcap, hwg, hfirst⟩ := ih (by omega)
    have hlt : n < tasks.length := by omega
    have hfn : tasks[s.gs.length]? = some tasks[n] := by
      rw [hlen]; exact List.getElem?_eq_getElem hlt
    obtain ⟨s', hrun', hlen', hmain', hctx', hsem', hcap', hwg', hfirst'⟩ :=
      limitedParallelRun_round tasks s tasks[n] hmain hctx (by omega) hfn
        (hnil _ (List.getElem_mem hlt)) (by omega)
    refine ⟨s', ?_, by omega, hmain', hctx', by omega, by omega, by omega,
      hfirst'.trans hfirst⟩
    rw [serialRounds, limitedParallelRun_append, hrun, Option.some_bind, ← hlen]
    exact hrun'

/-- C17. For every list of tasks that return nil and every limit, with a context
that is live at the call: `limitedParallel` can run to its return, and in every
schedule in which it returns while the context is still not cancelled the
returned value is nil and every task body has been entered exactly once (the
entered bodies are a permutation of all the task indices). -/
theorem limitedParallel_all_succeed {ε : Type} (tasks : List (Task ε)) (limit : Int)
    (hnil : ∀ fn ∈ tasks, fn none = none) :
    (∃ acts s, limitedParallelRun tasks (limitedParallelInit none limit) acts = some s ∧
      s.ctxErr = none ∧ s.main = MainPhase.returned none) ∧
    ∀ (acts : List (LPAction ε)) (s : LPState ε) (r : Option ε),
      limitedParallelRun tasks (limitedParallelInit none limit) acts = some s →
      s.ctxErr = none → s.main = MainPhase.returned r →
      r = none ∧ s.invoked.Perm (List.range tasks.length) := by
  constructor
  · obtain ⟨s, hrun, hlen, hmain, hctx, _, _, hwg, hfirst⟩ :=
      limitedParallelRun_serialRounds tasks limit hnil tasks.length le_rfl
    refine ⟨serialRounds tasks.length ++ [LPAction.wait],
      { s with main := MainPhase.returned s.first }, ?_, hctx, ?_⟩
    · rw [limitedParallelRun_append, hrun, Option.some_bind]
      simp only [limitedParallelRun, limitedParallelStep, hmain, hlen, hwg, and_self, if_true,
        Option.some_bind]
    · simp only [hfirst]
  · intro acts s r hrun hctx hret
    obtain ⟨hfirst, hwait, hrec⟩ :=
      limitedParallelRun_inv tasks acts _ s (limitedParallelInit_inv tasks none limit) hrun
    have hinvk := limitedParallelRun_invokeInv tasks acts _ s
      (limitedParallelInit_invokeInv tasks none limit) hrun
    have hz : s.wg = 0 ∧ r = s.first := by
      rcases hwait.retFirst r hret with hc | hz
      · exact absurd hctx hc
      · exact hz
    have hlen : s.gs.length = tasks.length := by
      rcases hinvk.retLen r hret with hc | hl
      · exact absurd hctx hc
      · exact hl
    have hlive : liveGoroutines s.gs = 0 := by
      have := hwait.wgLive
      omega
    have hnorec : s.recorded = [] := by
      cases hl : s.recorded with
      | nil => rfl
      | cons x xs =>
        exfalso
        have hmem := hrec.recCompleted x (by rw [hl]; exact List.mem_cons_self _ _)
        obtain ⟨fn, hfn, hres⟩ := hrec.live hctx _ hmem
        have hin : fn ∈ tasks := by
          obtain ⟨hlt, heq⟩ := List.getElem?_eq_some.mp hfn
          rw [← heq]; exact List.getElem_mem hlt
        rw [hnil fn hin] at hres
        cases hres
    refine ⟨?_, ?_⟩
    · rw [hz.2, hfirst.firstRec, hnorec]; rfl
    · apply List.perm_iff_count.mpr
      intro i
      by_cases hi : i < tasks.length
      · rw [List.count_eq_one_of_mem (List.nodup_range _) (List.mem_range.mpr hi)]
        have hilt : i < s.gs.length := by omega
        have hget : s.gs[i]? = some s.gs[i] := List.getElem?_eq_getElem hilt
        rw [hinvk.invokedOnce hctx i _ hget]
        have hmem : s.gs[i] ∈ s.gs := List.getElem_mem hilt
        have hdead := (List.countP_eq_zero.mp hlive) _ hmem
        cases hp : s.gs[i] with
        | done => rfl
        | waiting => rw [hp] at hdead; simp [GoPhase.live] at hdead
        | running => rw [hp] at hdead; simp [GoPhase.live] at hdead
        | returned e => rw [hp] at hdead; simp [GoPhase.live] at hdead
        | holding => rw [hp] at hdead; simp [GoPhase.live] at hdead
        | leaving => rw [hp] at hdead; simp [GoPhase.live] at hdead
      · have h0 : List.count i (List.range tasks.length) = 0 :=
          List.count_eq_zero_of_not_mem (by simpa using hi)
        rw [h0]
        exact hinvk.invokedNone hctx i (by omega)

theorem limitedParallel_all_succeed_witness :
    (∃ acts s, limitedParallelRun ([fun _ => none, fun _ => none, fun _ => none] : List (Task Nat))
        (limitedParallelInit none 2) acts = some s ∧
      s.ctxErr = none ∧ s.main = MainPhase.returned none) ∧
    ∀ (acts : List (LPAction Nat)) (s : LPState Nat) (r : Option Nat),
      limitedParallelRun [fun _ => none, fun _ => none, fun _ => none]
        (limitedParallelInit none 2) acts = some s →
      s.ctxErr = none → s.main = MainPhase.returned r →
      r = none ∧ s.invoked.Perm (List.range 3) :=
  limitedParallel_all_succeed [fun _ => none, fun _ => none, fun _ => none] 2
    (fun fn h => by
      simp only [List.mem_cons, List.mem_singleton, List.not_mem_nil, or_false, or_self] at h
      rw [h])

/-! ## Properties of `pipelineFanOutFanIn` -/

theorem mergeLive_set (l : List MergePhase) (w : Nat) (a b : MergePhase)
    (h : l[w]? = some a) :
    (l.set w b).countP MergePhase.live + (if a.live then 1 else 0) =
      l.countP MergePhase.live + (if b.live then 1 else 0) :=
  countP_set_add MergePhase.live l w a b h

theorem fanStep_shapeInv (jobs : List Int) (n : Nat) (s s' : FanState) (a : FanAction)
    (hinv : FanShapeInv jobs n s) (h : fanStep jobs s a = some s') :
    FanShapeInv jobs n s' := by
  obtain ⟨h1, h2, h3, h4, h5⟩ := hinv
  unfold fanStep at h
  split at h
  · exact absurd h (by simp)
  cases a <;> simp only at h <;> (repeat' split at h) <;> cases h <;>
    first
      | exact ⟨h1, h2, h3, h4, h5⟩
      | exact ⟨by simpa using h1, h2, h3, h4, h5⟩
      | skip
  · -- produce
    have hjob : jobs[s.sent]? = some _ := ‹jobs[s.sent]? = some _›
    have hlt : s.sent < jobs.length := (List.getElem?_eq_some.mp hjob).1
    exact ⟨by simpa using h1, h2, hlt, h4, h5⟩
  · -- forward
    have hm : s.mergers[_]? = some MergePhase.idle := ‹s.mergers[_]? = some MergePhase.idle›
    have hl2 := mergeLive_set s.mergers _ _ (MergePhase.sending ‹Int›) hm
    simp only [MergePhase.live, if_true] at hl2
    refine ⟨by simpa using h1, by simpa using h2, h3, ?_, h5⟩
    simp only
    rw [h4]; omega
  · -- emit
    have hm : s.mergers[_]? = some (MergePhase.sending _) :=
      ‹s.mergers[_]? = some (MergePhase.sending _)›
    have hl := mergeLive_set s.mergers _ _ MergePhase.idle hm
    simp only [MergePhase.live, if_true] at hl
    refine ⟨h1, by simpa using h2, h3, ?_, h5⟩
    simp only
    rw [h4]; omega
  · -- mergerDone
    have hm : s.mergers[_]? = some MergePhase.idle := ‹s.mergers[_]? = some MergePhase.idle›
    have hl := mergeLive_set s.mergers _ _ MergePhase.done hm
    simp only [MergePhase.live, if_true] at hl
    have hpos : 0 < s.wg := ‹0 < s.wg›
    refine ⟨h1, by simpa using h2, h3, ?_, fun hc => ?_⟩
    · simp only
      simp at hl
      omega
    · have := h5 hc
      omega
  · -- mergerAbort
    have hm : s.mergers[_]? = some (MergePhase.sending _) :=
      ‹s.mergers[_]? = some (MergePhase.sending _)›
    have hl := mergeLive_set s.mergers _ _ MergePhase.done hm
    simp only [MergePhase.live, if_true] at hl
    have hpos : s.ctxDone = true ∧ 0 < s.wg := ‹s.ctxDone = true ∧ 0 < s.wg›
    refine ⟨h1, by simpa using h2, h3, ?_, fun hc => ?_⟩
    · simp only
      simp at hl
      omega
    · have := h5 hc
      omega
  · -- closeOut
    have hg : s.wg = 0 ∧ s.outClosed = false := ‹s.wg = 0 ∧ s.outClosed = false›
    exact ⟨h1, h2, h3, h4, fun _ => hg.1⟩

theorem procCarries_set (v : Int) (l : List ProcPhase) (w : Nat) (a b : ProcPhase)
    (h : l[w]? = some a) :
    (l.set w b).countP (ProcPhase.carries v) + (if a.carries v then 1 else 0) =
      l.countP (ProcPhase.carries v) + (if b.carries v then 1 else 0) :=
  countP_set_add (ProcPhase.carries v) l w a b h

theorem mergeCarries_set (v : Int) (l : List MergePhase) (w : Nat) (a b : MergePhase)
    (h : l[w]? = some a) :
    (l.set w b).countP (MergePhase.carries v) + (if a.carries v then 1 else 0) =
      l.countP (MergePhase.carries v) + (if b.carries v then 1 else 0) :=
  countP_set_add (MergePhase.carries v) l w a b h

theorem getElem?_set_same {α : Type} (l : List α) (i j : Nat) (x : α)
    (hj : l[j]? = some x) : (l.set i x)[j]? = some x := by
  by_cases hij : i = j
  · subst hij
    exact getElem?_set_self l i x x hj
  · rw [List.getElem?_set_ne hij]; exact hj

theorem fanStep_flowInv (jobs : List Int) (s s' : FanState) (a : FanAction)
    (hinv : s.ctxDone = false → FanFlowInv jobs s) (h : fanStep jobs s a = some s')
    (hlive : s'.ctxDone = false) : FanFlowInv jobs s' := by
  unfold fanStep at h
  split at h
  · exact absurd h (by simp)
  cases a with
  | cancel =>
    simp only at h
    cases h
    cases hlive
  | produce w =>
    simp only at h
    repeat' split at h
    all_goals cases h
    next hopen _ _ job hw hjob =>
    obtain ⟨hcnt, hall, hproc, hmerge⟩ := hinv hlive
    refine ⟨fun v => ?_, fun hc => absurd hc hopen, fun w' hw' => ?_, fun w' hw' => ?_⟩
    · have hset := procCarries_set v s.procs w _ (ProcPhase.sleeping job) hw
      have := hcnt v
      simp only [ProcPhase.carries] at hset
      simp only [List.take_succ, hjob, Option.toList, List.map_append, List.map_cons,
        List.map_nil, List.count_append, List.count_singleton]
      by_cases hv : square job = v
      · simp [hv] at hset this ⊢; omega
      · have hv' : ¬ (v = square job) := fun e => hv e.symm
        simp [hv, hv'] at hset this ⊢; omega
    · rcases getElem?_set_cases _ _ _ _ _ hw' with ⟨_, hx⟩ | hx
      · cases hx
      · exact hproc w' hx
    · exact getElem?_set_keep _ _ _ _ _ _ hw (hmerge w' hw') (by simp)
  | producerClose =>
    simp only at h
    repeat' split at h
    all_goals cases h
    next _ hsent =>
    obtain ⟨hcnt, hall, hproc, hmerge⟩ := hinv hlive
    exact ⟨hcnt, fun _ => hsent, fun _ _ => rfl, hmerge⟩
  | producerAbort =>
    simp only at h
    repeat' split at h
    all_goals cases h
    next _ hg =>
    have hc : s.ctxDone = false := hlive
    rw [hg.2] at hc; cases hc
  | timer w =>
    simp only at h
    repeat' split at h
    all_goals cases h
    next job hw =>
    obtain ⟨hcnt, hall, hproc, hmerge⟩ := hinv hlive
    refine ⟨fun v => ?_, hall, fun w' hw' => ?_, fun w' hw' => ?_⟩
    · have hset := procCarries_set v s.procs w _ (ProcPhase.sending (square job)) hw
      have := hcnt v
      simp only [ProcPhase.carries] at hset
      simp only
      omega
    · rcases getElem?_set_cases _ _ _ _ _ hw' with ⟨_, hx⟩ | hx
      · cases hx
      · exact hproc w' hx
    · exact getElem?_set_keep _ _ _ _ _ _ hw (hmerge w' hw') (by simp)
  | procClose w =>
    simp only at h
    repeat' split at h
    all_goals cases h
    next hw hclosed =>
    obtain ⟨hcnt, hall, hproc, hmerge⟩ := hinv hlive
    refine ⟨fun v => ?_, hall, fun _ _ => hclosed, fun w' hw' => ?_⟩
    · have hset := procCarries_set v s.procs w _ ProcPhase.closed hw
      have := hcnt v
      simp only [ProcPhase.carries] at hset
      simp only
      simp at hset
      omega
    · exact getElem?_set_same _ _ _ _ (hmerge w' hw')
  | procAbort w =>
    simp only at h
    repeat' split at h
    all_goals cases h
    all_goals
      have hc : s.ctxDone = false := hlive
      rw [‹s.ctxDone = true›] at hc
      cases hc
  | forward w =>
    simp only at h
    repeat' split at h
    all_goals cases h
    next val hw hm =>
    obtain ⟨hcnt, hall, hproc, hmerge⟩ := hinv hlive
    refine ⟨fun v => ?_, hall, fun w' hw' => ?_, fun w' hw' => ?_⟩
    · have hset := procCarries_set v s.procs w _ ProcPhase.idle hw
      have hset2 := mergeCarries_set v s.mergers w _ (MergePhase.sending val) hm
      have := hcnt v
      simp only [ProcPhase.carries, MergePhase.carries] at hset hset2
      simp only
      simp at hset hset2
      omega
    · rcases getElem?_set_cases _ _ _ _ _ hw' with ⟨_, hx⟩ | hx
      · cases hx
      · exact hproc w' hx
    · rcases getElem?_set_cases _ _ _ _ _ hw' with ⟨_, hx⟩ | hx
      · cases hx
      · exact getElem?_set_keep _ _ _ _ _ _ hw (hmerge w' hx) (by simp)
  | emit w =>
    simp only at h
    repeat' split at h
    all_goals cases h
    · obtain ⟨hcnt, hall, hproc, hmerge⟩ := hinv hlive
      exact ⟨hcnt, hall, hproc, hmerge⟩
    · next val hm _ =>
      obtain ⟨hcnt, hall, hproc, hmerge⟩ := hinv hlive
      refine ⟨fun v => ?_, hall, hproc, fun w' hw' => ?_⟩
      · have hset := mergeCarries_set v s.mergers w _ MergePhase.idle hm
        have := hcnt v
        simp only [MergePhase.carries] at hset
        simp only [List.count_append, List.count_singleton]
        by_cases hv : val = v
        · simp [hv] at hset this ⊢; omega
        · have hv' : ¬ (v = val) := fun e => hv e.symm
          simp [hv, hv'] at hset this ⊢; omega
      · rcases getElem?_set_cases _ _ _ _ _ hw' with ⟨_, hx⟩ | hx
        · cases hx
        · exact hmerge w' hx
  | mergerDone w =>
    simp only at h
    repeat' split at h
    all_goals cases h
    next hm hp _ =>
    obtain ⟨hcnt, hall, hproc, hmerge⟩ := hinv hlive
    refine ⟨fun v => ?_, hall, hproc, fun w' hw' => ?_⟩
    · have hset := mergeCarries_set v s.mergers w _ MergePhase.done hm
      have := hcnt v
      simp only [MergePhase.carries] at hset
      simp only
      simp at hset
      omega
    · rcases getElem?_set_split _ _ _ _ _ hw' with ⟨hww, _⟩ | ⟨_, hx⟩
      · rw [hww]; exact hp
      · exact hmerge w' hx
  | mergerAbort w =>
    simp only at h
    repeat' split at h
    all_goals cases h
    next _ hg =>
    have hc : s.ctxDone = false := hlive
    rw [hg.1] at hc; cases hc
  | closeOut =>
    simp only at h
    repeat' split at h
    all_goals cases h
    obtain ⟨hcnt, hall, hproc, hmerge⟩ := hinv hlive
    exact ⟨hcnt, hall, hproc, hmerge⟩

theorem fanRun_inv (jobs : List Int) (n : Nat) (acts : List FanAction) :
    ∀ s s' : FanState,
      (FanShapeInv jobs n s ∧ (s.ctxDone = false → FanFlowInv jobs s)) →
      fanRun jobs s acts = some s' →
      FanShapeInv jobs n s' ∧ (s'.ctxDone = false → FanFlowInv jobs s') := by
  induction acts with
  | nil => intro s s' hinv h; cases h; exact hinv
  | cons a rest ih =>
    intro s s' hinv h
    simp only [fanRun] at h
    cases hstep : fanStep jobs s a with
    | none => rw [hstep] at h; exact absurd h (by simp)
    | some s1 =>
      rw [hstep] at h
      exact ih s1 s'
        ⟨fanStep_shapeInv jobs n s s1 a hinv.1 hstep,
         fanStep_flowInv jobs s s1 a hinv.2 hstep⟩ h

theorem pipelineFanOutFanIn_inv (jobs : List Int) (workers : Int) :
    FanShapeInv jobs workers.toNat (pipelineFanOutFanIn workers) ∧
      ((pipelineFanOutFanIn workers).ctxDone = false →
        FanFlowInv jobs (pipelineFanOutFanIn workers)) := by
  refine ⟨⟨?_, ?_, ?_, ?_, ?_⟩, fun _ => ⟨?_, ?_, ?_, ?_⟩⟩
  · simp [pipelineFanOutFanIn]
  · simp [pipelineFanOutFanIn]
  · simp [pipelineFanOutFanIn]
  · simp [pipelineFanOutFanIn, List.countP_replicate, MergePhase.live]
  · intro h; simp [pipelineFanOutFanIn] at h
  · intro v
    simp [pipelineFanOutFanIn, List.countP_replicate, ProcPhase.carries, MergePhase.carries]
  · intro h; simp [pipelineFanOutFanIn] at h
  · intro w h
    simp only [pipelineFanOutFanIn] at h
    rw [List.getElem?_replicate] at h
    split at h <;> cases h
  · intro w h
    simp only [pipelineFanOutFanIn] at h
    rw [List.getElem?_replicate] at h
    split at h <;> cases h

/-- With at least one worker and no cancellation, once the merged channel is
closed the emitted values are the squares of all the jobs, in some order. -/
theorem fanRun_emitted_perm (jobs : List Int) (workers : Int) (hw : 1 ≤ workers)
    (acts : List FanAction) (s : FanState)
    (hrun : fanRun jobs (pipelineFanOutFanIn workers) acts = some s)
    (hctx : s.ctxDone = false) (hclosed : s.outClosed = true) :
    s.emitted.Perm (jobs.map square) := by
  obtain ⟨hshape, hflow⟩ := fanRun_inv jobs _ acts _ s (pipelineFanOutFanIn_inv jobs workers) hrun
  obtain ⟨hcnt, hall, hproc, hmerge⟩ := hflow hctx
  have hwg : s.wg = 0 := hshape.closedZero hclosed
  have hlive : s.mergers.countP MergePhase.live = 0 := by
    have := hshape.wgLive
    omega
  have hdone : ∀ m ∈ s.mergers, m = MergePhase.done := by
    intro m hm
    have := (List.countP_eq_zero.mp hlive) m hm
    cases m <;> simp [MergePhase.live] at this ⊢
  have hn : 0 < workers.toNat := by omega
  have hmd : ∀ w, w < workers.toNat → s.mergers[w]? = some MergePhase.done := by
    intro w hwlt
    have hlt : w < s.mergers.length := by rw [hshape.mergersLen]; exact hwlt
    rw [List.getElem?_eq_getElem hlt, hdone _ (List.getElem_mem hlt)]
  have hpc : ∀ p ∈ s.procs, p = ProcPhase.closed := by
    intro p hp
    obtain ⟨w, hwlt, hpw⟩ := List.getElem_of_mem hp
    have hw' : w < workers.toNat := by rw [← hshape.procsLen]; exact hwlt
    have := hmerge w (hmd w hw')
    rw [List.getElem?_eq_getElem hwlt, hpw] at this
    exact Option.some.inj this
  have hsent : s.sent = jobs.length :=
    hall (hproc 0 (hmerge 0 (hmd 0 hn)))
  apply List.perm_iff_count.mpr
  intro v
  have hp0 : s.procs.countP (ProcPhase.carries v) = 0 := by
    apply List.countP_eq_zero.mpr
    intro p hp
    rw [hpc p hp]; simp [ProcPhase.carries]
  have hm0 : s.mergers.countP (MergePhase.carries v) = 0 := by
    apply List.countP_eq_zero.mpr
    intro m hm
    rw [hdone m hm]; simp [MergePhase.carries]
  have := hcnt v
  rw [hp0, hm0, hsent, List.take_length] at this
  omega

theorem fanRun_append (jobs : List Int) (a b : List FanAction) :
    ∀ s : FanState, fanRun jobs s (a ++ b) =
      (fanRun jobs s a).bind (fun s' => fanRun jobs s' b) := by
  induction a with
  | nil => intro s; rfl
  | cons x xs ih =>
    intro s
    simp only [List.cons_append, fanRun]
    cases fanStep jobs s x with
    | none => rfl
    | some s1 => exact ih s1

theorem getElem?_append_cons_length {α : Type} (l r : List α) (a : α) :
    (l ++ a :: r)[l.length]? = some a := by
  induction l with
  | nil => simp
  | cons x xs ih => simpa using ih

theorem set_append_cons_length {α : Type} (l r : List α) (a b : α) :
    (l ++ a :: r).set l.length b = l ++ b :: r := by
  induction l with
  | nil => rfl
  | cons x xs ih => simp only [List.cons_append, List.length_cons, List.set_cons_succ, ih]

/-- Worker 0 can serve all the jobs that are left, one after the other. -/
theorem fanRun_serve (jobs : List Int) (P : List ProcPhase) (M : List MergePhase)
    (wg : Int) (rest : List Int) :
    ∀ (sent : Nat) (emitted : List Int), jobs.drop sent = rest → sent ≤ jobs.length →
      fanRun jobs
        { ctxDone := false, sent := sent, inputClosed := false,
          procs := ProcPhase.idle :: P, mergers := MergePhase.idle :: M, wg := wg,
          outClosed := false, emitted := emitted, crashed := false }
        (serveSchedule rest) =
      some { ctxDone := false, sent := jobs.length, inputClosed := false,
             procs := ProcPhase.idle :: P, mergers := MergePhase.idle :: M, wg := wg,
             outClosed := false, emitted := emitted ++ rest.map square, crashed := false } := by
  induction rest with
  | nil =>
    intro sent emitted hdrop hle
    have hge : jobs.length ≤ sent := List.drop_eq_nil_iff.mp hdrop
    have : sent = jobs.length := by omega
    subst this
    simp [serveSchedule, fanRun]
  | cons job rest ih =>
    intro sent emitted hdrop hle
    have hjob : jobs[sent]? = some job := by
      have := List.getElem?_drop jobs sent 0
      rw [hdrop] at this
      simpa using this.symm
    have hlt : sent < jobs.length := (List.getElem?_eq_some.mp hjob).1
    have hdrop' : jobs.drop (sent + 1) = rest := by
      have := List.drop_drop 1 sent jobs
      rw [hdrop] at this
      simpa [Nat.add_comm] using this.symm
    have hrec := ih (sent + 1) (emitted ++ [square job]) hdrop' (by omega)
    simp only [serveSchedule, fanRun, fanStep, hjob, Bool.false_eq_true, if_false,
      List.getElem?_cons_zero, List.set_cons_zero, Option.some_bind]
    rw [hrec]
    simp

/-- The workers `k .. k+m-1`, all waiting on the closed `input`, and their
forwarders can be ended one after the other. -/
theorem fanRun_close (jobs : List Int) (sent : Nat) (emitted : List Int) (m : Nat) :
    ∀ (Pc : List ProcPhase) (Md : List MergePhase), Pc.length = Md.length →
      fanRun jobs
        { ctxDone := false, sent := sent, inputClosed := true,
          procs := Pc ++ List.replicate m ProcPhase.idle,
          mergers := Md ++ List.replicate m MergePhase.idle, wg := m,
          outClosed := false, emitted := emitted, crashed := false }
        (closeSchedule Pc.length m) =
      some { ctxDone := false, sent := sent, inputClosed := true,
             procs := Pc ++ List.replicate m ProcPhase.closed,
             mergers := Md ++ List.replicate m MergePhase.done, wg := 0,
             outClosed := false, emitted := emitted, crashed := false } := by
  induction m with
  | zero => intro Pc Md _; simp [closeSchedule, fanRun]
  | succ m ih =>
    intro Pc Md hlen
    have hrec := ih (Pc ++ [ProcPhase.closed]) (Md ++ [MergePhase.done]) (by simp [hlen])
    have hp : (Pc ++ ProcPhase.idle :: List.replicate m ProcPhase.idle)[Pc.length]? =
        some ProcPhase.idle := getElem?_append_cons_length _ _ _
    have hps : (Pc ++ ProcPhase.idle :: List.replicate m ProcPhase.idle).set Pc.length
        ProcPhase.closed = Pc ++ ProcPhase.closed :: List.replicate m ProcPhase.idle :=
      set_append_cons_length _ _ _ _
    have hp2 : (Pc ++ ProcPhase.closed :: List.replicate m ProcPhase.idle)[Pc.length]? =
        some ProcPhase.closed := getElem?_append_cons_length _ _ _
    have hm : (Md ++ MergePhase.idle :: List.replicate m MergePhase.idle)[Pc.length]? =
        some MergePhase.idle := by rw [hlen]; exact getElem?_append_cons_length _ _ _
    have hms : (Md ++ MergePhase.idle :: List.replicate m MergePhase.idle).set Pc.length
        MergePhase.done = Md ++ MergePhase.done :: List.replicate m MergePhase.idle := by
      rw [hlen]; exact set_append_cons_length _ _ _ _
    have hpos : (0 : Int) < ((m + 1 : Nat) : Int) := by omega
    simp only [closeSchedule, fanRun, fanStep, List.replicate_succ, hp, hps, hp2, hm, hms,
      hpos, Bool.false_eq_true, if_false, if_true, Option.some_bind]
    simp only [List.length_append, List.length_singleton, List.append_assoc,
      List.singleton_append] at hrec
    have hwg : (((m + 1 : Nat) : Int) - 1) = (m : Int) := by omega
    rw [hwg, hrec]

/-- With at least one worker the pipeline can run to the closing of the merged
channel, the squares of the jobs having been emitted in job order. -/
theorem fanRun_complete (jobs : List Int) (workers : Int) (hw : 1 ≤ workers) :
    ∃ acts s, fanRun jobs (pipelineFanOutFanIn workers) acts = some s ∧
      s.ctxDone = false ∧ s.outClosed = true ∧ s.emitted = jobs.map square := by
  obtain ⟨k, hk⟩ : ∃ k, workers.toNat = k + 1 := ⟨workers.toNat - 1, by omega⟩
  have hinit : pipelineFanOutFanIn workers =
      { ctxDone := false, sent := 0, inputClosed := false,
        procs := ProcPhase.idle :: List.replicate k ProcPhase.idle,
        mergers := MergePhase.idle :: List.replicate k MergePhase.idle,
        wg := ((k + 1 : Nat) : Int), outClosed := false, emitted := [], crashed := false } := by
    simp only [pipelineFanOutFanIn, hk, List.replicate_succ]
  have hserve := fanRun_serve jobs (List.replicate k ProcPhase.idle)
    (List.replicate k MergePhase.idle) ((k + 1 : Nat) : Int) jobs 0 [] rfl (Nat.zero_le _)
  simp only [List.nil_append] at hserve
  have hB : fanRun jobs
      { ctxDone := false, sent := jobs.length, inputClosed := false,
        procs := ProcPhase.idle :: List.replicate k ProcPhase.idle,
        mergers := MergePhase.idle :: List.replicate k MergePhase.idle,
        wg := ((k + 1 : Nat) : Int), outClosed := false, emitted := jobs.map square,
        crashed := false } [FanAction.producerClose] =
      some { ctxDone := false, sent := jobs.length, inputClosed := true,
             procs := [] ++ List.replicate (k + 1) ProcPhase.idle,
             mergers := [] ++ List.replicate (k + 1) MergePhase.idle,
             wg := ((k + 1 : Nat) : Int), outClosed := false, emitted := jobs.map square,
             crashed := false } := by
    simp [fanRun, fanStep, List.replicate_succ]
  have hclose := fanRun_close jobs jobs.length (jobs.map square) (k + 1) [] [] rfl
  have hD : fanRun jobs
      { ctxDone := false, sent := jobs.length, inputClosed := true,
        procs := [] ++ List.replicate (k + 1) ProcPhase.closed,
        mergers := [] ++ List.replicate (k + 1) MergePhase.done, wg := 0,
        outClosed := false, emitted := jobs.map square, crashed := false }
      [FanAction.closeOut] =
      some { ctxDone := false, sent := jobs.length, inputClosed := true,
             procs := [] ++ List.replicate (k + 1) ProcPhase.closed,
             mergers := [] ++ List.replicate (k + 1) MergePhase.done, wg := 0,
             outClosed := true, emitted := jobs.map square, crashed := false } := by
    simp [fanRun, fanStep]
  have hrun : fanRun jobs (pipelineFanOutFanIn workers)
      (serveSchedule jobs ++ ([FanAction.producerClose] ++
        (closeSchedule ([] : List ProcPhase).length (k + 1) ++ [FanAction.closeOut]))) =
      some { ctxDone := false, sent := jobs.length, inputClosed := true,
             procs := [] ++ List.replicate (k + 1) ProcPhase.closed,
             mergers := [] ++ List.replicate (k + 1) MergePhase.done, wg := 0,
             outClosed := true, emitted := jobs.map square, crashed := false } := by
    rw [hinit, fanRun_append, hserve, Option.some_bind, fanRun_append, hB, Option.some_bind,
      fanRun_append, hclose, Option.some_bind, hD]
  exact ⟨_, _, hrun, rfl, rfl, rfl⟩

/-- C11 (as stated, refuted). With one worker and the jobs `[1,2,3,4,5]`, the
context never cancelled, the values emitted before the merged channel is closed
are `[1,4,9,16,25]`: the squares, of sum 55, not the doubles of sum 30. -/
theorem pipelineFanOutFanIn_not_doubling :
    ¬ ∀ (workers : Int) (acts : List FanAction) (s : FanState), 1 ≤ workers →
        fanRun [1, 2, 3, 4, 5] (pipelineFanOutFanIn workers) acts = some s →
        s.ctxDone = false → s.outClosed = true →
        s.emitted.Perm [2, 4, 6, 8, 10] ∧ s.emitted.sum = 30 := by
  intro hall
  have := hall 1
    [.produce 0, .timer 0, .forward 0, .emit 0, .produce 0, .timer 0, .forward 0, .emit 0,
     .produce 0, .timer 0, .forward 0, .emit 0, .produce 0, .timer 0, .forward 0, .emit 0,
     .produce 0, .timer 0, .forward 0, .emit 0, .producerClose, .procClose 0,
     .mergerDone 0, .closeOut]
    { ctxDone := false, sent := 5, inputClosed := true, procs := [.closed],
      mergers := [.done], wg := 0, outClosed := true, emitted := [1, 4, 9, 16, 25],
      crashed := false }
    (by decide) (by decide) rfl rfl
  exact absurd this.2 (by decide)

/-- C11 (amended). For every worker count `>= 1`, fed the jobs `[1,2,3,4,5]` with
a context that is never cancelled: the pipeline can run until the merged channel
is closed, and in every schedule the values emitted before the merged channel is
closed are exactly the multiset `{1,4,9,16,25}` (each input squared), so their
sum is 55 whatever the order of emission. -/
theorem pipelineFanOutFanIn_squares (workers : Int) (hw : 1 ≤ workers) :
    (∃ acts s, fanRun [1, 2, 3, 4, 5] (pipelineFanOutFanIn workers) acts = some s ∧
      s.ctxDone = false ∧ s.outClosed = true ∧ s.emitted = [1, 4, 9, 16, 25]) ∧
    ∀ (acts : List FanAction) (s : FanState),
      fanRun [1, 2, 3, 4, 5] (pipelineFanOutFanIn workers) acts = some s →
      s.ctxDone = false → s.outClosed = true →
      s.emitted.Perm [1, 4, 9, 16, 25] ∧ s.emitted.sum = 55 := by
  have hsq : List.map square [1, 2, 3, 4, 5] = [1, 4, 9, 16, 25] := by decide
  constructor
  · obtain ⟨acts, s, hrun, hctx, hclosed, hem⟩ := fanRun_complete [1, 2, 3, 4, 5] workers hw
    exact ⟨acts, s, hrun, hctx, hclosed, hem.trans hsq⟩
  · intro acts s hrun hctx hclosed
    have hperm := fanRun_emitted_perm [1, 2, 3, 4, 5] workers hw acts s hrun hctx hclosed
    rw [hsq] at hperm
    exact ⟨hperm, by rw [hperm.sum_eq]; rfl⟩

theorem pipelineFanOutFanIn_squares_witness :
    (∃ acts s, fanRun [1, 2, 3, 4, 5] (pipelineFanOutFanIn 3) acts = some s ∧
      s.ctxDone = false ∧ s.outClosed = true ∧ s.emitted = [1, 4, 9, 16, 25]) ∧
    ∀ (acts : List FanAction) (s : FanState),
      fanRun [1, 2, 3, 4, 5] (pipelineFanOutFanIn 3) acts = some s →
      s.ctxDone = false → s.outClosed = true →
      s.emitted.Perm [1, 4, 9, 16, 25] ∧ s.emitted.sum = 55 :=
  pipelineFanOutFanIn_squares 3 (by decide)

/-! ## Properties of the jitter arithmetic -/

/-- Rounding to the nearest integer moves a value by at most one half. -/
theorem roundHalfEven_near (x : ℚ) :
    |(roundHalfEven x : ℚ) - x| ≤ 1 / 2 := by
  have h1 : (⌊x⌋ : ℚ) ≤ x := Int.floor_le x
  have h2 : x < ⌊x⌋ + 1 := Int.lt_floor_add_one x
  unfold roundHalfEven
  split
  · rw [abs_le]; constructor <;> linarith
  · split
    · push_cast; rw [abs_le]; constructor <;> linarith
    · have heq : x - ⌊x⌋ = 1 / 2 := by linarith
      split
      · rw [abs_le]; constructor <;> linarith
      · push_cast; rw [abs_le]; constructor <;> linarith

/-- An integer strictly within one half of `x` is the rounding of `x`. -/
theorem roundHalfEven_eq (x : ℚ) (n : ℤ) (h : |x - n| < 1 / 2) : roundHalfEven x = n := by
  rw [abs_lt] at h
  obtain ⟨hl, hu⟩ := h
  have h1 : (⌊x⌋ : ℚ) ≤ x := Int.floor_le x
  have h2 : x < ⌊x⌋ + 1 := Int.lt_floor_add_one x
  unfold roundHalfEven
  split
  · next hlt =>
    have : (⌊x⌋ : ℚ) < n + 1 := by linarith
    have : (n : ℚ) < ⌊x⌋ + 1 := by linarith
    have a : ⌊x⌋ < n + 1 := by exact_mod_cast ‹(⌊x⌋ : ℚ) < n + 1›
    have b : n < ⌊x⌋ + 1 := by exact_mod_cast ‹(n : ℚ) < ⌊x⌋ + 1›
    omega
  · next hge =>
    split
    · next hgt =>
      have a : (⌊x⌋ : ℚ) + 1 < n + 1 := by linarith
      have b : (n : ℚ) < ⌊x⌋ + 1 + 1 := by linarith
      have a' : ⌊x⌋ + 1 < n + 1 := by exact_mod_cast a
      have b' : n < ⌊x⌋ + 1 + 1 := by exact_mod_cast b
      omega
    · next hle =>
      exfalso
      have heq : x - ⌊x⌋ = 1 / 2 := by linarith
      have a : (⌊x⌋ : ℚ) < n := by linarith
      have b : (n : ℚ) < ⌊x⌋ + 1 := by linarith
      have a' : ⌊x⌋ < n := by exact_mod_cast a
      have b' : n < ⌊x⌋ + 1 := by exact_mod_cast b
      omega

/-- The binary exponent of a rational in `[2^e, 2^(e+1))` is `e`. -/
theorem int_log_two_eq (q : ℚ) (e : ℤ) (hlo : (2 : ℚ) ^ e ≤ q) (hhi : q < (2 : ℚ) ^ (e + 1)) :
    Int.log 2 q = e := by
  have hq : 0 < q := lt_of_lt_of_le (by positivity) hlo
  have h1 : e ≤ Int.log 2 q := (Int.zpow_le_iff_le_log (by norm_num) hq).mp (by exact_mod_cast hlo)
  have h2 : Int.log 2 q < e + 1 :=
    (Int.lt_zpow_iff_log_lt (by norm_num) hq).mp (by exact_mod_cast hhi)
  omega

/-- Evaluation of `float64`: for `2^e ≤ q < 2^(e+1)` and an integer `n` strictly
within one half of `q / 2^(e-52)`, the rounding of `q` is `n * 2^(e-52)`. -/
theorem float64_eval (q : ℚ) (e n : ℤ) (hlo : (2 : ℚ) ^ e ≤ q) (hhi : q < (2 : ℚ) ^ (e + 1))
    (hn : |q / 2 ^ (e - 52) - n| < 1 / 2) : float64 q = n * 2 ^ (e - 52) := by
  have hq : 0 < q := lt_of_lt_of_le (by positivity) hlo
  unfold float64 roundPos
  rw [if_neg (not_lt.mpr hq.le), if_neg hq.ne', int_log_two_eq q e hlo hhi, roundHalfEven_eq _ n hn]

/-- Zero is a `float64`. -/
theorem float64_zero : float64 0 = 0 := by
  simp [float64, roundPos]

/-- Rounding keeps a non-negative value non-negative. -/
theorem float64_nonneg (q : ℚ) (hq : 0 ≤ q) : 0 ≤ float64 q := by
  rcases hq.eq_or_lt with h | h
  · rw [← h, float64_zero]
  · unfold float64 roundPos
    rw [if_neg (not_lt.mpr h.le), if_neg h.ne']
    have hpos : (0 : ℚ) < 2 ^ (Int.log 2 q - 52) := by positivity
    apply mul_nonneg _ hpos.le
    have hx : 0 ≤ q / 2 ^ (Int.log 2 q - 52) := div_nonneg h.le hpos.le
    have := roundHalfEven_near (q / 2 ^ (Int.log 2 q - 52))
    rw [abs_le] at this
    have h3 : (-1 : ℚ) < (roundHalfEven (q / 2 ^ (Int.log 2 q - 52)) : ℚ) := by linarith
    have h4 : (-1 : ℤ) < roundHalfEven (q / 2 ^ (Int.log 2 q - 52)) := by exact_mod_cast h3
    have h5 : (0 : ℤ) ≤ roundHalfEven (q / 2 ^ (Int.log 2 q - 52)) := by omega
    exact_mod_cast h5

/-- Relative error of one rounding: at most `2^-53`. -/
theorem float64_error (q : ℚ) (hq : 0 ≤ q) : |float64 q - q| ≤ q / 2 ^ 53 := by
  rcases hq.eq_or_lt with h | h
  · rw [← h, float64_zero]; simp
  · unfold float64 roundPos
    rw [if_neg (not_lt.mpr h.le), if_neg h.ne']
    have hu : (0 : ℚ) < 2 ^ (Int.log 2 q - 52) := by positivity
    have hnear := roundHalfEven_near (q / 2 ^ (Int.log 2 q - 52))
    have hlog : (2 : ℚ) ^ (Int.log 2 q) ≤ q := by
      have := Int.zpow_log_le_self (b := 2) (r := q) (by norm_num) h
      exact_mod_cast this
    have hsplit : (2 : ℚ) ^ (Int.log 2 q) = 2 ^ (Int.log 2 q - 52) * 2 ^ 52 := by
      have h52 : ((2 : ℚ) ^ 52) = (2 : ℚ) ^ (52 : ℤ) := by norm_cast
      rw [h52, ← zpow_add₀ (by norm_num : (2 : ℚ) ≠ 0)]
      congr 1
      ring
    have hfact : (roundHalfEven (q / 2 ^ (Int.log 2 q - 52)) : ℚ) * 2 ^ (Int.log 2 q - 52) - q =
        ((roundHalfEven (q / 2 ^ (Int.log 2 q - 52)) : ℚ) - q / 2 ^ (Int.log 2 q - 52)) *
          2 ^ (Int.log 2 q - 52) := by
      field_simp
    rw [hfact, abs_mul, abs_of_pos hu]
    calc |(roundHalfEven (q / 2 ^ (Int.log 2 q - 52)) : ℚ) - q / 2 ^ (Int.log 2 q - 52)| *
          2 ^ (Int.log 2 q - 52)
        ≤ 1 / 2 * 2 ^ (Int.log 2 q - 52) := by
          exact mul_le_mul_of_nonneg_right hnear hu.le
      _ = (2 ^ (Int.log 2 q - 52) * 2 ^ 52) / 2 ^ 53 := by ring
      _ ≤ q / 2 ^ 53 := by
          apply div_le_div_of_nonneg_right _ (by positivity)
          rw [← hsplit]; exact hlog

/-- Upper bound after one rounding. -/
theorem float64_le (q b : ℚ) (hq : 0 ≤ q) (hb : q ≤ b) :
    float64 q ≤ b * (1 + 1 / 2 ^ 53) := by
  have h := float64_error q hq
  rw [abs_le] at h
  have h1 : float64 q ≤ q * (1 + 1 / 2 ^ 53) := by linarith [h.2]
  have h2 : q * (1 + 1 / 2 ^ 53) ≤ b * (1 + 1 / 2 ^ 53) :=
    mul_le_mul_of_nonneg_right hb (by norm_num)
  linarith

/-- Lower bound after one rounding. -/
theorem float64_ge (q : ℚ) (hq : 0 ≤ q) : q * (1 - 1 / 2 ^ 53) ≤ float64 q := by
  have h := float64_error q hq
  rw [abs_le] at h
  linarith [h.1]

/-- Truncation of a non-negative value is its floor. -/
theorem truncate_nonneg (x : ℚ) (hx : 0 ≤ x) : 0 ≤ truncate x ∧ (truncate x : ℚ) ≤ x := by
  unfold truncate
  rw [if_pos hx]
  exact ⟨Int.floor_nonneg.mpr hx, Int.floor_le x⟩

/-- The jitter added to the delay by `retryWithBackoff` lies between `0` and
`delay / 10` when the delay and the clock reading are non-negative. -/
theorem backoff_added_bounds (d now : Int) (hd : 0 ≤ d) (hnow : 0 ≤ now) :
    0 ≤ truncate (float64 (randFloat64 now * float64 ((backoffJitter d : Int) : ℚ))) ∧
    truncate (float64 (randFloat64 now * float64 ((backoffJitter d : Int) : ℚ))) ≤ d / 10 := by
  have hdq : (0 : ℚ) ≤ (d : ℚ) := by exact_mod_cast hd
  have hk0 : 0 ≤ Int.tmod now 1000 := Int.tmod_nonneg 1000 hnow
  have hk1 : Int.tmod now 1000 < 1000 := Int.tmod_lt_of_pos now (by norm_num)
  have hk0q : (0 : ℚ) ≤ ((Int.tmod now 1000 : Int) : ℚ) := by exact_mod_cast hk0
  have hk1q : ((Int.tmod now 1000 : Int) : ℚ) ≤ 999 := by
    have : Int.tmod now 1000 ≤ 999 := by omega
    exact_mod_cast this
  -- float64(delay)
  have hD0 := float64_nonneg (d : ℚ) hdq
  have hD := float64_le (d : ℚ) d hdq le_rfl
  -- the constant 0.1
  have hT0 : 0 ≤ tenth := float64_nonneg _ (by norm_num)
  have hT : tenth ≤ 1 / 10 * (1 + 1 / 2 ^ 53) := float64_le _ _ (by norm_num) le_rfl
  -- float64(delay) * 0.1
  have hDT0 : 0 ≤ float64 (d : ℚ) * tenth := mul_nonneg hD0 hT0
  have hDT : float64 (d : ℚ) * tenth ≤ d * (1 + 1 / 2 ^ 53) * (1 / 10 * (1 + 1 / 2 ^ 53)) :=
    mul_le_mul hD hT hT0 (by positivity)
  have hP0 := float64_nonneg _ hDT0
  have hP := float64_le _ _ hDT0 hDT
  -- jitter
  obtain ⟨hJ0, hJ⟩ := truncate_nonneg _ hP0
  have hJ0q : (0 : ℚ) ≤ ((backoffJitter d : Int) : ℚ) := by
    unfold backoffJitter; exact_mod_cast hJ0
  have hJq : ((backoffJitter d : Int) : ℚ) ≤
      d * (1 + 1 / 2 ^ 53) * (1 / 10 * (1 + 1 / 2 ^ 53)) * (1 + 1 / 2 ^ 53) := by
    unfold backoffJitter; exact le_trans hJ hP
  have hFJ0 := float64_nonneg _ hJ0q
  have hFJ := float64_le _ _ hJ0q hJq
  -- randFloat64
  have hFk0 := float64_nonneg _ hk0q
  have hFk := float64_le _ _ hk0q hk1q
  have hF1000 := float64_ge 1000 (by norm_num)
  have hF1000pos : (0 : ℚ) < 1000 * (1 - 1 / 2 ^ 53) := by norm_num
  have hdiv0 : 0 ≤ float64 ((Int.tmod now 1000 : Int) : ℚ) / float64 1000 :=
    div_nonneg hFk0 (le_trans hF1000pos.le hF1000)
  have hdiv : float64 ((Int.tmod now 1000 : Int) : ℚ) / float64 1000 ≤
      999 * (1 + 1 / 2 ^ 53) / (1000 * (1 - 1 / 2 ^ 53)) :=
    div_le_div₀ (by norm_num) hFk hF1000pos hF1000
  have hR0 : 0 ≤ randFloat64 now := float64_nonneg _ hdiv0
  have hR : randFloat64 now ≤
      999 * (1 + 1 / 2 ^ 53) / (1000 * (1 - 1 / 2 ^ 53)) * (1 + 1 / 2 ^ 53) :=
    float64_le _ _ hdiv0 hdiv
  -- the product and its truncation
  have hprod0 : 0 ≤ randFloat64 now * float64 ((backoffJitter d : Int) : ℚ) :=
    mul_nonneg hR0 hFJ0
  have hprod := mul_le_mul hR hFJ hFJ0 (by norm_num)
  have hQ0 := float64_nonneg _ hprod0
  have hQ := float64_le _ _ hprod0 hprod
  obtain ⟨hY0, hY⟩ := truncate_nonneg _ hQ0
  refine ⟨hY0, ?_⟩
  have hfin : (truncate (float64 (randFloat64 now * float64 ((backoffJitter d : Int) : ℚ))) : ℚ)
      ≤ (d : ℚ) / 10 := by
    refine le_trans hY (le_trans hQ ?_)
    have hconst : (999 * (1 + 1 / 2 ^ 53) / (1000 * (1 - 1 / 2 ^ 53)) * (1 + 1 / 2 ^ 53) *
        ((1 + 1 / 2 ^ 53) * (1 / 10 * (1 + 1 / 2 ^ 53)) * (1 + 1 / 2 ^ 53) * (1 + 1 / 2 ^ 53)) *
        (1 + 1 / 2 ^ 53) : ℚ) ≤ 1 / 10 := by norm_num
    have := mul_le_mul_of_nonneg_left hconst hdq
    calc _ = (d : ℚ) * (999 * (1 + 1 / 2 ^ 53) / (1000 * (1 - 1 / 2 ^ 53)) * (1 + 1 / 2 ^ 53) *
        ((1 + 1 / 2 ^ 53) * (1 / 10 * (1 + 1 / 2 ^ 53)) * (1 + 1 / 2 ^ 53) * (1 + 1 / 2 ^ 53)) *
        (1 + 1 / 2 ^ 53)) := by ring
      _ ≤ (d : ℚ) * (1 / 10) := this
      _ = (d : ℚ) / 10 := by ring
  rw [Int.le_ediv_iff_mul_le (by norm_num)]
  have h10 : ((truncate (float64 (randFloat64 now * float64 ((backoffJitter d : Int) : ℚ))) * 10 : Int) : ℚ)
      ≤ (d : ℚ) := by
    push_cast; linarith
  exact_mod_cast h10

/-- C15 (amended): for every delay `d ≥ 0` with `d + d/10` representable as an
`int64` and every value returned by `randFloat64` at a clock reading
`now ≥ 0`, the duration slept satisfies `d ≤ sleep ≤ d + d/10`. -/
theorem backoffSleep_jitter_bound (d now : Int) (hd : 0 ≤ d)
    (hfit : d + d / 10 ≤ 2 ^ 63 - 1) (hnow : 0 ≤ now) :
    d ≤ backoffSleep d now ∧ backoffSleep d now ≤ d + d / 10 := by
  obtain ⟨h0, h1⟩ := backoff_added_bounds d now hd hnow
  have hw : backoffSleep d now =
      d + truncate (float64 (randFloat64 now * float64 ((backoffJitter d : Int) : ℚ))) := by
    unfold backoffSleep wrap64
    omega
  rw [hw]
  omega

/-- Instance of the C15 bound at a delay of 1000 ns and clock reading 500. -/
theorem backoffSleep_jitter_bound_witness :
    (0 : Int) ≤ 1000 ∧ (1000 : Int) + 1000 / 10 ≤ 2 ^ 63 - 1 ∧ (0 : Int) ≤ 500 ∧
    1000 ≤ backoffSleep 1000 500 ∧ backoffSleep 1000 500 ≤ 1000 + 1000 / 10 :=
  ⟨by decide, by decide, by decide,
    backoffSleep_jitter_bound 1000 500 (by decide) (by decide) (by decide)⟩

/-- Rounding is symmetric about zero. -/
theorem float64_neg (q : ℚ) (hq : 0 < q) : float64 (-q) = -float64 q := by
  unfold float64
  rw [if_pos (by linarith), if_neg (by linarith), neg_neg]

/-- Truncation fixes integers. -/
theorem truncate_intCast (n : Int) : truncate (n : ℚ) = n := by
  unfold truncate
  split <;> simp

/-- The conversion `float64(math.MaxInt64)` rounds up to `2^63`. -/
theorem float64_maxInt64 : float64 9223372036854775807 = 9223372036854775808 := by
  rw [float64_eval 9223372036854775807 62 (2 ^ 53) (by norm_num) (by norm_num)
    (by rw [abs_lt]; constructor <;> norm_num)]
  norm_num

/-- The `float64` constant `0.1` is `3602879701896397 / 2^55`. -/
theorem tenth_eq : tenth = 3602879701896397 / 36028797018963968 := by
  unfold tenth
  rw [float64_eval (1 / 10) (-4) 7205759403792794 (by norm_num) (by norm_num)
    (by rw [abs_lt]; constructor <;> norm_num)]
  norm_num

theorem float64_500 : float64 500 = 500 := by
  rw [float64_eval 500 8 (500 * 2 ^ 44) (by norm_num) (by norm_num)
    (by rw [abs_lt]; constructor <;> norm_num)]
  norm_num

theorem float64_1000 : float64 1000 = 1000 := by
  rw [float64_eval 1000 9 (1000 * 2 ^ 43) (by norm_num) (by norm_num)
    (by rw [abs_lt]; constructor <;> norm_num)]
  norm_num

theorem float64_half : float64 (1 / 2) = 1 / 2 := by
  rw [float64_eval (1 / 2) (-1) (2 ^ 52) (by norm_num) (by norm_num)
    (by rw [abs_lt]; constructor <;> norm_num)]
  norm_num

theorem float64_one : float64 1 = 1 := by
  rw [float64_eval 1 0 (2 ^ 52) (by norm_num) (by norm_num)
    (by rw [abs_lt]; constructor <;> norm_num)]
  norm_num

theorem float64_two : float64 2 = 2 := by
  rw [float64_eval 2 1 (2 ^ 52) (by norm_num) (by norm_num)
    (by rw [abs_lt]; constructor <;> norm_num)]
  norm_num

theorem float64_twenty : float64 20 = 20 := by
  rw [float64_eval 20 4 (20 * 2 ^ 48) (by norm_num) (by norm_num)
    (by rw [abs_lt]; constructor <;> norm_num)]
  norm_num

theorem float64_twenty_tenths :
    float64 (20 * (3602879701896397 / 36028797018963968)) = 2 := by
  rw [float64_eval (20 * (3602879701896397 / 36028797018963968)) 1 (2 ^ 52)
    (by norm_num) (by norm_num) (by rw [abs_lt]; constructor <;> norm_num)]
  norm_num

theorem float64_jitter_max : float64 922337203685477632 = 922337203685477632 := by
  rw [float64_eval 922337203685477632 59 7205759403792794 (by norm_num) (by norm_num)
    (by rw [abs_lt]; constructor <;> norm_num)]
  norm_num

theorem float64_added_max : float64 461168601842738816 = 461168601842738816 := by
  rw [float64_eval 461168601842738816 58 7205759403792794 (by norm_num) (by norm_num)
    (by rw [abs_lt]; constructor <;> norm_num)]
  norm_num

theorem randFloat64_500 : randFloat64 500 = 1 / 2 := by
  unfold randFloat64
  rw [show Int.tmod 500 1000 = 500 by decide, show (((500 : Int)) : ℚ) = 500 by norm_num,
    float64_500,
    float64_1000, show (500 : ℚ) / 1000 = 1 / 2 by norm_num, float64_half]

theorem randFloat64_neg500 : randFloat64 (-500) = -(1 / 2) := by
  unfold randFloat64
  rw [show Int.tmod (-500) 1000 = -500 by decide, show (((-500 : Int)) : ℚ) = -500 by norm_num,
    float64_neg 500 (by norm_num), float64_500,
    float64_1000, show -(500 : ℚ) / 1000 = -(1 / 2) by norm_num,
    float64_neg (1 / 2) (by norm_num), float64_half]

theorem backoffJitter_max : backoffJitter (2 ^ 63 - 1) = 922337203685477632 := by
  unfold backoffJitter
  rw [show (((2 ^ 63 - 1 : Int)) : ℚ) = 9223372036854775807 by norm_num, float64_maxInt64,
    tenth_eq, show (9223372036854775808 : ℚ) * (3602879701896397 / 36028797018963968) =
      922337203685477632 by norm_num, float64_jitter_max]
  exact_mod_cast truncate_intCast 922337203685477632

theorem backoffJitter_twenty : backoffJitter 20 = 2 := by
  unfold backoffJitter
  rw [show (((20 : Int)) : ℚ) = 20 by norm_num, float64_twenty, tenth_eq,
    float64_twenty_tenths]
  exact_mod_cast truncate_intCast 2

/-- C15 (counterexample): at the delay `math.MaxInt64` with `randFloat64() = 0.5`
the `int64` addition wraps and the slept duration is negative; at delay 20
with the clock reading `-500` the jitter is `-1` and the slept duration is 19,
below the delay. -/
theorem backoffSleep_outside_bound :
    backoffSleep (2 ^ 63 - 1) 500 = -8762203435012036993 ∧ backoffSleep 20 (-500) = 19 := by
  constructor
  · unfold backoffSleep
    rw [backoffJitter_max, randFloat64_500,
      show (((922337203685477632 : Int)) : ℚ) = 922337203685477632 by norm_num,
      float64_jitter_max,
      show (1 / 2 : ℚ) * 922337203685477632 = 461168601842738816 by norm_num,
      float64_added_max,
      show truncate (461168601842738816 : ℚ) = 461168601842738816 by
        exact_mod_cast truncate_intCast 461168601842738816]
    decide
  · unfold backoffSleep
    rw [backoffJitter_twenty, randFloat64_neg500,
      show (((2 : Int)) : ℚ) = 2 by norm_num, float64_two,
      show -(1 / 2 : ℚ) * 2 = -1 by norm_num,
      float64_neg 1 (by norm_num), float64_one,
      show truncate (-1 : ℚ) = -1 by exact_mod_cast truncate_intCast (-1)]
    decide

end GoConcurrency

namespace Cheatsheets

/-! ## Properties of `egcd` and `modInverse` -/

theorem natAbs_tmod_lt (a b : Int) (hb : b ≠ 0) : (Int.tmod a b).natAbs < b.natAbs := by
  rcases a with m | m <;> rcases b with n | n
  · have hn : n ≠ 0 := fun e => hb (by simp [e])
    show (m % n) < n
    exact Nat.mod_lt _ (Nat.pos_of_ne_zero hn)
  · show (m % (n + 1)) < n + 1
    exact Nat.mod_lt _ (Nat.succ_pos n)
  · have hn : n ≠ 0 := fun e => hb (by simp [e])
    show (-((((m + 1) % n : Nat)) : Int)).natAbs < n
    rw [Int.natAbs_neg]
    exact Nat.mod_lt _ (Nat.pos_of_ne_zero hn)
  · show (-((((m + 1) % (n + 1) : Nat)) : Int)).natAbs < n + 1
    rw [Int.natAbs_neg]
    exact Nat.mod_lt _ (Nat.succ_pos n)

theorem egcdFuel_total (fuel : Nat) :
    ∀ a b : Int, b.natAbs < fuel → (egcdFuel fuel a b).isSome = true := by
  induction fuel with
  | zero => intro a b h; omega
  | succ fuel ih =>
    intro a b h
    simp only [egcdFuel]
    split
    · rfl
    · next hb =>
      have hlt := natAbs_tmod_lt a b hb
      have := ih b (Int.tmod a b) (by omega)
      obtain ⟨⟨g, x1, y1⟩, hr⟩ := Option.isSome_iff_exists.mp this
      rw [hr]
      rfl

/-- The recursion of `egcd` always returns. -/
theorem egcd_total (a b : Int) : (egcd a b).isSome = true :=
  egcdFuel_total _ a b (Nat.lt_succ_self _)

/-- C19. `modInverse(-1, 5)`: the recursion of `egcd` ends in `egcd(-1, 0)` and
returns `g = -1`, so `modInverse` returns -1, although 4 is an inverse of -1
modulo 5 and the greatest common divisor of -1 and 5 is 1. -/
theorem modInverse_negative_argument :
    egcd (-1) 5 = some (-1, 1, 0) ∧ modInverse (-1) 5 = some (-1) ∧
      Int.gcd (-1) 5 = 1 ∧ (-1 * 4 : Int) % 5 = 1 := by
  decide

/-! ## Properties of `nextPowerOfTwo` -/

/-- One `num |= num >> w` doubles the window of higher bits gathered in each bit. -/
theorem smearStep_window (x y w : Nat)
    (h : ∀ i, y.testBit i = true ↔ ∃ j, j < w ∧ x.testBit (i + j) = true) :
    ∀ i, (smearStep w y).testBit i = true ↔ ∃ j, j < 2 * w ∧ x.testBit (i + j) = true := by
  intro i
  simp only [smearStep, Nat.testBit_or, Nat.testBit_shiftRight, Bool.or_eq_true, h]
  constructor
  · rintro (⟨j, hj, hb⟩ | ⟨j, hj, hb⟩)
    · exact ⟨j, by omega, hb⟩
    · exact ⟨w + j, by omega, by rw [show i + (w + j) = w + i + j by omega]; exact hb⟩
  · rintro ⟨j, hj, hb⟩
    by_cases hjw : j < w
    · exact Or.inl ⟨j, hjw, hb⟩
    · exact Or.inr ⟨j - w, by omega, by rw [show w + i + (j - w) = i + j by omega]; exact hb⟩

/-- The top bit of a non-zero number is set. -/
theorem testBit_size_pred (x : Nat) (hx : x ≠ 0) : x.testBit (x.size - 1) = true := by
  have hpos : 0 < x.size := Nat.size_pos.mpr (Nat.pos_of_ne_zero hx)
  have hge : 2 ^ (x.size - 1) ≤ x := Nat.lt_size.mp (by omega)
  obtain ⟨i, hi, hb⟩ := Nat.ge_two_pow_implies_high_bit_true hge
  have hlt : i < x.size := by
    by_contra hnot
    have hfalse := Nat.testBit_lt_two_pow
      (lt_of_lt_of_le (Nat.lt_size_self x) (Nat.pow_le_pow_right (by decide) (not_lt.mp hnot)))
    rw [hfalse] at hb
    cases hb
  have : i = x.size - 1 := by omega
  rw [← this]; exact hb

/-- The five smearing steps set every bit below the top bit of a 32-bit number. -/
theorem smear_eq (x : Nat) (hx : x < 2 ^ 32) :
    smearStep 16 (smearStep 8 (smearStep 4 (smearStep 2 (smearStep 1 x)))) =
      2 ^ x.size - 1 := by
  have h0 : ∀ i, x.testBit i = true ↔ ∃ j, j < 1 ∧ x.testBit (i + j) = true := by
    intro i
    constructor
    · intro h; exact ⟨0, by omega, h⟩
    · rintro ⟨j, hj, hb⟩
      have : j = 0 := by omega
      subst this; exact hb
  have h5 := smearStep_window x _ 16 (smearStep_window x _ 8 (smearStep_window x _ 4
    (smearStep_window x _ 2 (smearStep_window x _ 1 h0))))
  have hsize : x.size ≤ 32 := Nat.size_le.mpr hx
  apply Nat.eq_of_testBit_eq
  intro i
  rw [Nat.testBit_two_pow_sub_one]
  by_cases hi : i < x.size
  · have hx0 : x ≠ 0 := by
      intro e; rw [e] at hi; simp at hi
    rw [decide_eq_true hi]
    refine (h5 i).mpr ⟨x.size - 1 - i, by omega, ?_⟩
    rw [show i + (x.size - 1 - i) = x.size - 1 by omega]
    exact testBit_size_pred x hx0
  · rw [decide_eq_false hi]
    cases hb : (smearStep 16 (smearStep 8 (smearStep 4 (smearStep 2 (smearStep 1 x))))).testBit i with
    | false => rfl
    | true =>
      obtain ⟨j, _, hj⟩ := (h5 i).mp hb
      have hfalse := Nat.testBit_lt_two_pow
        (lt_of_lt_of_le (Nat.lt_size_self x)
          (Nat.pow_le_pow_right (by decide) (show x.size ≤ i + j by omega)))
      rw [hfalse] at hj
      cases hj

/-- For a non-zero 32-bit argument the function computes `2 ^ size (num - 1)`
modulo `2 ^ 32`. -/
theorem nextPowerOfTwo_eq (num : Nat) (h0 : num ≠ 0) (h32 : num < 2 ^ 32) :
    nextPowerOfTwo num = 2 ^ (num - 1).size % 2 ^ 32 := by
  have hlt : num - 1 < 2 ^ 32 := by omega
  simp only [nextPowerOfTwo, if_neg h0, Nat.mod_eq_of_lt hlt]
  rw [smear_eq (num - 1) hlt]
  have hpos : 0 < 2 ^ (num - 1).size := Nat.two_pow_pos _
  rw [Nat.sub_add_cancel hpos]

/-- C20 (as stated, refuted). `nextPowerOfTwo(2^31 + 1)` is 0: the sum `num + 1`
wraps around in `uint32`; 0 is not a power of two and is below the argument. -/
theorem nextPowerOfTwo_overflow :
    nextPowerOfTwo (2 ^ 31 + 1) = 0 ∧
      ¬ (∃ k, nextPowerOfTwo (2 ^ 31 + 1) = 2 ^ k ∧ 2 ^ 31 + 1 ≤ 2 ^ k) := by
  have h : nextPowerOfTwo (2 ^ 31 + 1) = 0 := by decide
  refine ⟨h, ?_⟩
  rintro ⟨k, hk, _⟩
  rw [h] at hk
  exact absurd hk.symm (Nat.two_pow_pos _).ne'

/-- C20 (amended). For every `uint32` argument `num <= 2^31`, `nextPowerOfTwo(num)`
is a power of two, is at least `num`, and is the smallest such power of two; it
is 1 for `num = 0` and `num` itself when `num` is a power of two. -/
theorem nextPowerOfTwo_smallest (num : Nat) (h : num ≤ 2 ^ 31) :
    (∃ k, nextPowerOfTwo num = 2 ^ k ∧ num ≤ 2 ^ k ∧ ∀ j, num ≤ 2 ^ j → 2 ^ k ≤ 2 ^ j) ∧
      nextPowerOfTwo 0 = 1 ∧ (∀ k, num = 2 ^ k → nextPowerOfTwo num = num) := by
  have hmain : ∃ k, nextPowerOfTwo num = 2 ^ k ∧ num ≤ 2 ^ k ∧
      ∀ j, num ≤ 2 ^ j → 2 ^ k ≤ 2 ^ j := by
    by_cases h0 : num = 0
    · subst h0
      exact ⟨0, rfl, by simp, fun j _ => Nat.pow_le_pow_right (by decide) (Nat.zero_le j)⟩
    · have hsize : (num - 1).size ≤ 31 := Nat.size_le.mpr (by omega)
      have hpow : 2 ^ (num - 1).size ≤ 2 ^ 31 := Nat.pow_le_pow_right (by decide) hsize
      refine ⟨(num - 1).size, ?_, ?_, ?_⟩
      · rw [nextPowerOfTwo_eq num h0 (by omega)]
        exact Nat.mod_eq_of_lt (by omega)
      · have := Nat.lt_size_self (num - 1)
        omega
      · intro j hj
        apply Nat.pow_le_pow_right (by decide)
        apply Nat.size_le.mpr
        have hjpos : 0 < 2 ^ j := Nat.two_pow_pos _
        omega
  refine ⟨hmain, rfl, ?_⟩
  intro k hk
  obtain ⟨k', hk', hle, hmin⟩ := hmain
  have h1 : 2 ^ k' ≤ 2 ^ k := hmin k (le_of_eq hk)
  rw [hk']
  rw [hk] at hle
  omega

theorem nextPowerOfTwo_smallest_witness :
    (∃ k, nextPowerOfTwo 5 = 2 ^ k ∧ 5 ≤ 2 ^ k ∧ ∀ j, 5 ≤ 2 ^ j → 2 ^ k ≤ 2 ^ j) ∧
      nextPowerOfTwo 0 = 1 ∧ (∀ k, 5 = 2 ^ k → nextPowerOfTwo 5 = 5) :=
  nextPowerOfTwo_smallest 5 (by decide)

/-! ### Properties of `countBits` -/

/-- The bits counted below position `k + 1` are bit 0 and the bits of the half
below position `k`. -/
theorem filter_testBit_succ (n k : Nat) :
    ((List.range (k + 1)).filter (fun i => n.testBit i)).length =
      n % 2 + ((List.range k).filter (fun i => (n / 2).testBit i)).length := by
  have h1 : ((fun i => n.testBit i) ∘ Nat.succ) = fun i => (n / 2).testBit i := by
    funext i
    simp [Nat.testBit_succ]
  have h0 : n.testBit 0 = decide (n % 2 = 1) := Nat.testBit_zero n
  rw [List.range_succ_eq_map, List.filter_cons, List.filter_map, h1]
  rcases Nat.mod_two_eq_zero_or_one n with h | h
  · simp [h0, h]
  · simp [h0, h]; omega

/-- At most `k` bits are counted below position `k`. -/
theorem filter_testBit_le (n k : Nat) :
    ((List.range k).filter (fun i => n.testBit i)).length ≤ k := by
  calc _ ≤ (List.range k).length := List.length_filter_le _ _
    _ = k := List.length_range k

/-- The loop of `countBits` on a non-negative argument below `2^k` adds the
number of its one bits to `count`. -/
theorem countBitsLoop_nat (k : Nat) : ∀ (n : Nat) (count : Int), n < 2 ^ k →
    0 ≤ count → count + k < 2 ^ 63 →
    countBitsLoop (k + 1) (n : Int) count =
      some (count + (((List.range k).filter (fun i => n.testBit i)).length : Nat)) := by
  induction k with
  | zero =>
    intro n count hn _ _
    have : n = 0 := by simpa using hn
    subst this
    simp [countBitsLoop]
  | succ k ih =>
    intro n count hn hc hck
    by_cases h0 : n = 0
    · subst h0
      simp [countBitsLoop]
    · have hpos : (0 : Int) < (n : Int) := by exact_mod_cast Nat.pos_of_ne_zero h0
      have hshift : ((n : Int) >>> 1) = ((n / 2 : Nat) : Int) := by
        show ((n >>> 1 : Nat) : Int) = ((n / 2 : Nat) : Int)
        rw [Nat.shiftRight_eq_div_pow]
      have hland : Int.land (n : Int) 1 = ((n % 2 : Nat) : Int) := by
        show ((Nat.land n 1 : Nat) : Int) = ((n % 2 : Nat) : Int)
        congr 1
        exact Nat.and_one_is_mod n
      have hlt : n % 2 < 2 := Nat.mod_lt _ (by decide)
      have hwrap : wrapInt (count + ((n % 2 : Nat) : Int)) = count + ((n % 2 : Nat) : Int) := by
        unfold wrapInt
        push_cast at hck ⊢
        omega
      rw [countBitsLoop, if_pos hpos, hshift, hland, hwrap,
        ih (n / 2) _ (by omega) (by omega) (by push_cast at hck ⊢; omega),
        filter_testBit_succ]
      push_cast
      congr 1
      ring

/-- On a non-negative `int`, `countBits` and `countBitsBuiltin` agree. -/
theorem countBits_nonneg (num : Int) (h0 : 0 ≤ num) (h1 : num < 2 ^ 63) :
    countBits num = some (countBitsBuiltin (toUint num)) := by
  obtain ⟨n, rfl⟩ := Int.eq_ofNat_of_zero_le h0
  have hn : n < 2 ^ 63 := by exact_mod_cast h1
  have hu : toUint (n : Int) = n := by
    unfold toUint
    rw [Int.emod_eq_of_lt (by omega) (by omega)]
    simp
  rw [hu, countBits, countBitsLoop_nat 64 n 0 (by omega) le_rfl (by norm_num)]
  simp [countBitsBuiltin, onesCount]

/-- C21 (failing input). `countBits(-1)` is 0: the loop condition `num > 0` is
false at once for a negative argument, while `countBitsBuiltin(uint(-1))` counts
the 64 one bits of the two's-complement representation. -/
theorem countBits_negative_argument :
    countBits (-1) = some 0 ∧ countBitsBuiltin (toUint (-1)) = 64 := by
  decide

/-! ### Properties of `calculateAge` and `arrayFilter` -/

/-- C22 (failing inputs). For a birth date of 1 March 2000 and the current date
1 March 2001 one complete year has elapsed, but `calculateAge` returns 0: the
day of the year of 1 March is 61 in the leap year 2000 and 60 in 2001. For a
birth date of 1 March 2001 and the current date 29 February 2004 two complete
years have elapsed, but `calculateAge` returns 3. -/
theorem calculateAge_leap_year :
    calculateAge ⟨2001, 3, 1⟩ ⟨2000, 3, 1⟩ = 0 ∧ completeYears ⟨2001, 3, 1⟩ ⟨2000, 3, 1⟩ = 1 ∧
    calculateAge ⟨2004, 2, 29⟩ ⟨2001, 3, 1⟩ = 3 ∧
      completeYears ⟨2004, 2, 29⟩ ⟨2001, 3, 1⟩ = 2 := by
  decide

/-- The test `v%2 == 0` holds exactly for the even integers. -/
theorem tmod_two_eq_zero_iff (v : Int) : Int.tmod v 2 = 0 ↔ Even v := by
  rw [← Int.dvd_iff_tmod_eq_zero, even_iff_two_dvd]

/-- Extending a prefix by one element extends its even elements by that element
when it is even. -/
theorem filter_even_take_succ (s : List Int) (i : Nat) (v : Int) (h : s[i]? = some v) :
    (s.take (i + 1)).filter (fun x => decide (Even x)) =
      (s.take i).filter (fun x => decide (Even x)) ++ (if Even v then [v] else []) := by
  rw [List.take_succ, h, List.filter_append]
  by_cases hv : Even v <;> simp [hv]

/-- Invariant of the loop of `arrayFilter`: after `i` iterations the backing
array holds the even elements among the first `i`, followed by the original
elements from index `len(filtered)` on. -/
theorem arrayFilterLoop_spec (s : List Int) : ∀ (remaining i : Nat),
    i + remaining = s.length →
    arrayFilterLoop remaining i ((s.take i).filter (fun x => decide (Even x))).length
        ((s.take i).filter (fun x => decide (Even x)) ++
          s.drop ((s.take i).filter (fun x => decide (Even x))).length) =
      ((s.filter (fun x => decide (Even x))).length,
        s.filter (fun x => decide (Even x)) ++
          s.drop (s.filter (fun x => decide (Even x))).length) := by
  intro remaining
  induction remaining with
  | zero =>
    intro i hi
    have : s.take i = s := List.take_of_length_le (by omega)
    rw [arrayFilterLoop, this]
  | succ r ih =>
    intro i hi
    have hlt : i < s.length := by omega
    have hk : ((s.take i).filter (fun x => decide (Even x))).length ≤ i := by
      calc _ ≤ (s.take i).length := List.length_filter_le _ _
        _ ≤ i := by simp
    have hget : ((s.take i).filter (fun x => decide (Even x)) ++
          s.drop ((s.take i).filter (fun x => decide (Even x))).length)[i]? = some s[i] := by
      rw [List.getElem?_append_right hk, List.getElem?_drop]
      rw [show ((s.take i).filter (fun x => decide (Even x))).length +
        (i - ((s.take i).filter (fun x => decide (Even x))).length) = i by omega]
      exact List.getElem?_eq_getElem hlt
    have hsucc := filter_even_take_succ s i s[i] (List.getElem?_eq_getElem hlt)
    rw [arrayFilterLoop, hget]
    simp only []
    by_cases hv : Even s[i]
    · rw [if_pos ((tmod_two_eq_zero_iff _).mpr hv)]
      have := ih (i + 1) (by omega)
      rw [hsucc, if_pos hv, List.length_append, List.length_singleton] at this
      rw [← this]
      congr 1
      have hklt : ((s.take i).filter (fun x => decide (Even x))).length < s.length := by omega
      rw [List.set_append_right _ _ (le_refl _), Nat.sub_self,
        List.drop_eq_getElem_cons hklt, List.set_cons_zero, List.append_assoc,
        List.singleton_append]
    · rw [if_neg (fun h => hv ((tmod_two_eq_zero_iff _).mp h))]
      have := ih (i + 1) (by omega)
      rw [hsucc, if_neg hv, List.append_nil] at this
      exact this

/-- C23 (counterexample). On the slice `[1,2,3,4]` the call returns `[2,4]` and
leaves the caller's slice holding `[2,4,3,4]`. -/
theorem arrayFilter_overwrites_input :
    arrayFilter [1, 2, 3, 4] = ([2, 4], [2, 4, 3, 4]) ∧
      (arrayFilter [1, 2, 3, 4]).2 ≠ [1, 2, 3, 4] := by
  decide

/-- C23 (amended). For every int slice `s`, `arrayFilter(s)` returns exactly the
even elements of `s` in their original order, and after the call the caller's
slice holds these `k` even elements in its first `k` positions, followed by the
elements it had before the call from position `k` on. -/
theorem arrayFilter_in_place (s : List Int) :
    (arrayFilter s).1 = s.filter (fun x => decide (Even x)) ∧
    (arrayFilter s).2 = s.filter (fun x => decide (Even x)) ++
      s.drop (s.filter (fun x => decide (Even x))).length := by
  have h := arrayFilterLoop_spec s s.length 0 (by omega)
  simp only [List.take_zero, List.filter_nil, List.length_nil, List.nil_append,
    List.drop_zero] at h
  show (arrayFilterLoop s.length 0 0 s).2.take (arrayFilterLoop s.length 0 0 s).1 = _ ∧
    (arrayFilterLoop s.length 0 0 s).2 = _
  rw [h]
  exact ⟨List.take_left' rfl, rfl⟩

/-! ### Properties of `findSingle` -/

/-- Two integers with the same bits are equal. -/
theorem int_eq_of_testBit_eq (a b : Int) (h : ∀ i, a.testBit i = b.testBit i) : a = b := by
  have hfalse : ∀ m n : Nat, (∀ i, Nat.testBit m i = !Nat.testBit n i) → False := by
    intro m n hmn
    have h1 : Nat.testBit m (m + n) = false :=
      Nat.testBit_lt_two_pow (lt_of_lt_of_le (Nat.lt_two_pow m)
        (Nat.pow_le_pow_right (by decide) (Nat.le_add_right m n)))
    have h2 : Nat.testBit n (m + n) = false :=
      Nat.testBit_lt_two_pow (lt_of_lt_of_le (Nat.lt_two_pow n)
        (Nat.pow_le_pow_right (by decide) (Nat.le_add_left n m)))
    have := hmn (m + n)
    rw [h1, h2] at this
    exact absurd this (by decide)
  rcases a with m | m <;> rcases b with n | n
  · congr 1
    exact Nat.eq_of_testBit_eq h
  · exact (hfalse m n h).elim
  · exact (hfalse n m (fun i => (h i).symm)).elim
  · congr 1
    apply Nat.eq_of_testBit_eq
    intro i
    have := h i
    simp only [Int.testBit] at this
    simpa using this

/-- Exclusive or is commutative. -/
theorem int_xor_comm (a b : Int) : Int.xor a b = Int.xor b a :=
  int_eq_of_testBit_eq _ _ (fun i => by rw [Int.testBit_lxor, Int.testBit_lxor, Bool.xor_comm])

/-- Exclusive or is associative. -/
theorem int_xor_assoc (a b c : Int) : Int.xor (Int.xor a b) c = Int.xor a (Int.xor b c) :=
  int_eq_of_testBit_eq _ _ (fun i => by simp only [Int.testBit_lxor, Bool.xor_assoc])

/-- A value cancels itself under exclusive or. -/
theorem int_xor_self (a : Int) : Int.xor a a = 0 :=
  int_eq_of_testBit_eq _ _ (fun i => by
    rw [Int.testBit_lxor, Bool.xor_self]
    exact (Nat.zero_testBit i).symm)

/-- Zero is neutral for exclusive or. -/
theorem int_xor_zero (a : Int) : Int.xor a 0 = a :=
  int_eq_of_testBit_eq _ _ (fun i => by
    rw [Int.testBit_lxor]
    have : Int.testBit 0 i = false := Nat.zero_testBit i
    rw [this, Bool.xor_false])

/-- The loop started from `a` gives `a` xor the loop started from 0. -/
theorem foldl_xor_eq (l : List Int) (a : Int) :
    l.foldl (fun result num => Int.xor result num) a =
      Int.xor a (l.foldl (fun result num => Int.xor result num) 0) := by
  induction l generalizing a with
  | nil => exact (int_xor_zero a).symm
  | cons x xs ih =>
    rw [List.foldl_cons, List.foldl_cons, ih (Int.xor a x), ih (Int.xor 0 x), int_xor_assoc,
      int_xor_comm 0 x, int_xor_zero]

/-- Values that each occur twice cancel in the loop. -/
theorem foldl_xor_twice (l : List Int) (a : Int) :
    (l ++ l).foldl (fun result num => Int.xor result num) a = a := by
  rw [List.foldl_append, foldl_xor_eq l a, foldl_xor_eq l (Int.xor a _), int_xor_assoc,
    int_xor_self, int_xor_zero]

/-- C26. For every list of ints in which the value `v` occurs exactly once and
every other value that occurs does so exactly twice, in any order,
`findSingle` returns `v`. -/
theorem findSingle_returns_single (nums : List Int) (v : Int) (hv : nums.count v = 1)
    (hrest : ∀ x ∈ nums, x ≠ v → nums.count x = 2) : findSingle nums = v := by
  have hnd : nums.dedup.Nodup := List.nodup_dedup nums
  have hperm : nums.Perm (v :: (nums.dedup.erase v ++ nums.dedup.erase v)) := by
    rw [List.perm_iff_count]
    intro x
    rw [List.count_cons, List.count_append]
    by_cases hx : x = v
    · subst hx
      have : List.count x (nums.dedup.erase x) = 0 :=
        List.count_eq_zero_of_not_mem (fun h => (List.Nodup.mem_erase_iff hnd).mp h |>.1 rfl)
      rw [this, hv]
      simp
    · have hne : (v == x) = false := by simpa using fun h => hx h.symm
      rw [List.count_erase_of_ne hx]
      by_cases hmem : x ∈ nums
      · rw [hrest x hmem hx, List.count_eq_one_of_mem hnd (List.mem_dedup.mpr hmem)]
        simp [hne]
      · rw [List.count_eq_zero_of_not_mem hmem,
          List.count_eq_zero_of_not_mem (fun h => hmem (List.mem_dedup.mp h))]
        simp [hne]
  haveI : RightCommutative (fun result num : Int => Int.xor result num) :=
    ⟨fun b a1 a2 => by
      show Int.xor (Int.xor b a1) a2 = Int.xor (Int.xor b a2) a1
      rw [int_xor_assoc, int_xor_comm a1 a2, ← int_xor_assoc]⟩
  unfold findSingle
  rw [hperm.foldl_eq, List.foldl_cons, foldl_xor_twice, int_xor_comm, int_xor_zero]

/-- Instance of C26 on the list `[4, 1, 2, 1, 2]`. -/
theorem findSingle_returns_single_witness :
    List.count 4 ([4, 1, 2, 1, 2] : List Int) = 1 ∧
    (∀ x ∈ ([4, 1, 2, 1, 2] : List Int), x ≠ 4 → List.count x [4, 1, 2, 1, 2] = 2) ∧
    findSingle [4, 1, 2, 1, 2] = 4 :=
  ⟨by decide, by decide,
    findSingle_returns_single [4, 1, 2, 1, 2] 4 (by decide) (by decide)⟩

/-! ### Properties of `egcd` and `gcd` -/

/-- The absolute value of a truncated remainder is the remainder of the
absolute values. -/
theorem natAbs_tmod (a b : Int) : (Int.tmod a b).natAbs = a.natAbs % b.natAbs := by
  rcases a with m | m <;> rcases b with n | n
  · show (m % n) = m % n
    rfl
  · show (m % (n + 1)) = m % (n + 1)
    rfl
  · show (-((((m + 1) % n : Nat)) : Int)).natAbs = (m + 1) % n
    rw [Int.natAbs_neg]
    rfl
  · show (-((((m + 1) % (n + 1) : Nat)) : Int)).natAbs = (m + 1) % (n + 1)
    rw [Int.natAbs_neg]
    rfl

/-- A value of absolute value at most `2^62` is not changed by the wrap. -/
theorem wrapInt_of_natAbs_le (x : Int) (h : 2 * x.natAbs ≤ 2 ^ 63) : wrapInt x = x := by
  unfold wrapInt
  omega

/-- The greatest common divisor is kept by one step of the Euclidean
algorithm with the truncated remainder. -/
theorem gcd_tmod_step (a b : Int) : Int.gcd b (Int.tmod a b) = Int.gcd a b := by
  show Nat.gcd b.natAbs (Int.tmod a b).natAbs = Nat.gcd a.natAbs b.natAbs
  rw [natAbs_tmod, Nat.gcd_comm a.natAbs, Nat.gcd_rec b.natAbs a.natAbs, Nat.gcd_comm]

/-- Result of `egcd` on arguments of absolute value at most `2^63`: the Bezout
identity holds over the integers, the absolute value of `g` is the greatest
common divisor, and the coefficients are small: `(1, 0)` for `b = 0`, `(0, 1)`
when `b` divides `a`, and at most half of `|b|` and `|a|` otherwise. -/
theorem egcdFuel_spec (fuel : Nat) : ∀ a b : Int, b.natAbs < fuel →
    a.natAbs ≤ 2 ^ 63 → b.natAbs ≤ 2 ^ 63 →
    ∃ g x y, egcdFuel fuel a b = some (g, x, y) ∧ a * x + b * y = g ∧
      g.natAbs = Int.gcd a b ∧ (0 ≤ a → 0 ≤ b → 0 ≤ g) ∧
      ((b = 0 ∧ x = 1 ∧ y = 0) ∨ (b ≠ 0 ∧ Int.tmod a b = 0 ∧ x = 0 ∧ y = 1) ∨
        (b ≠ 0 ∧ Int.tmod a b ≠ 0 ∧ 2 * x.natAbs ≤ b.natAbs ∧ 2 * y.natAbs ≤ a.natAbs)) := by
  induction fuel with
  | zero => intro a b h; omega
  | succ fuel ih =>
    intro a b hfuel ha hb
    by_cases hb0 : b = 0
    · subst hb0
      refine ⟨a, 1, 0, by simp [egcdFuel], by ring, ?_, fun h _ => h, Or.inl ⟨rfl, rfl, rfl⟩⟩
      simp [Int.gcd]
    · have hrlt := natAbs_tmod_lt a b hb0
      obtain ⟨g, x1, y1, hrec, hbez, hgcd, hsign, hshape⟩ :=
        ih b (Int.tmod a b) (by omega) hb (by omega)
      have hF3 : Int.tmod a b + b * Int.tdiv a b = a := Int.tmod_add_tdiv a b
      have hR : (Int.tmod a b).natAbs = a.natAbs % b.natAbs := natAbs_tmod a b
      have hQ : (Int.tdiv a b).natAbs = a.natAbs / b.natAbs := Int.natAbs_tdiv a b
      have hA : a.natAbs = b.natAbs * (Int.tdiv a b).natAbs + (Int.tmod a b).natAbs := by
        rw [hR, hQ]; exact (Nat.div_add_mod _ _).symm
      have hstep : egcdFuel (fuel + 1) a b =
          some (g, y1, wrapInt (x1 - wrapInt (wrapInt (Int.tdiv a b) * y1))) := by
        simp only [egcdFuel, if_neg hb0, hrec]
      have hgcd' : g.natAbs = Int.gcd a b := by rw [hgcd, gcd_tmod_step]
      have hsign' : 0 ≤ a → 0 ≤ b → 0 ≤ g := fun h1 h2 => hsign h2 (Int.tmod_nonneg b h1)
      rcases hshape with ⟨hr0, hx1, hy1⟩ | ⟨hr0, hbr, hx1, hy1⟩ | ⟨hr0, hbr, hx1, hy1⟩
      · -- the remainder is zero
        subst hx1 hy1
        have hy : wrapInt (1 - wrapInt (wrapInt (Int.tdiv a b) * 0)) = 1 := by
          rw [mul_zero]; decide
        refine ⟨g, 0, 1, by rw [hstep, hy], ?_, hgcd', hsign', Or.inr (Or.inl ⟨hb0, hr0, rfl, rfl⟩)⟩
        rw [hr0] at hbez
        linarith
      · -- the remainder divides `b`
        subst hx1 hy1
        have hRpos : 0 < (Int.tmod a b).natAbs := Int.natAbs_pos.mpr hr0
        have hB2 : 2 ≤ b.natAbs := by omega
        have hQA : 2 * (Int.tdiv a b).natAbs ≤ a.natAbs := by
          have : 2 * (Int.tdiv a b).natAbs ≤ b.natAbs * (Int.tdiv a b).natAbs :=
            Nat.mul_le_mul_right _ hB2
          omega
        have hq : wrapInt (Int.tdiv a b) = Int.tdiv a b := wrapInt_of_natAbs_le _ (by omega)
        have hy : wrapInt (0 - wrapInt (wrapInt (Int.tdiv a b) * 1)) = -Int.tdiv a b := by
          rw [hq, mul_one, hq, zero_sub]
          exact wrapInt_of_natAbs_le _ (by rw [Int.natAbs_neg]; omega)
        refine ⟨g, 1, -Int.tdiv a b, by rw [hstep, hy], ?_, hgcd', hsign',
          Or.inr (Or.inr ⟨hb0, hr0, by simpa using hB2, by rw [Int.natAbs_neg]; exact hQA⟩)⟩
        linear_combination hbez - hF3
      · -- the general step
        have hRpos : 0 < (Int.tmod a b).natAbs := Int.natAbs_pos.mpr hr0
        have hB2 : 2 ≤ b.natAbs := by omega
        have hQA : 2 * (Int.tdiv a b).natAbs ≤ a.natAbs := by
          have : 2 * (Int.tdiv a b).natAbs ≤ b.natAbs * (Int.tdiv a b).natAbs :=
            Nat.mul_le_mul_right _ hB2
          omega
        have hq : wrapInt (Int.tdiv a b) = Int.tdiv a b := wrapInt_of_natAbs_le _ (by omega)
        have hP : 2 * (Int.tdiv a b * y1).natAbs ≤ b.natAbs * (Int.tdiv a b).natAbs := by
          rw [Int.natAbs_mul]
          calc 2 * ((Int.tdiv a b).natAbs * y1.natAbs)
              = (Int.tdiv a b).natAbs * (2 * y1.natAbs) := by ring
            _ ≤ (Int.tdiv a b).natAbs * b.natAbs := Nat.mul_le_mul_left _ hy1
            _ = b.natAbs * (Int.tdiv a b).natAbs := Nat.mul_comm _ _
        have hp : wrapInt (Int.tdiv a b * y1) = Int.tdiv a b * y1 :=
          wrapInt_of_natAbs_le _ (by omega)
        have hY : 2 * (x1 - Int.tdiv a b * y1).natAbs ≤ a.natAbs := by
          have := Int.natAbs_sub_le x1 (Int.tdiv a b * y1)
          omega
        have hy : wrapInt (x1 - wrapInt (wrapInt (Int.tdiv a b) * y1)) =
            x1 - Int.tdiv a b * y1 := by
          rw [hq, hp]
          exact wrapInt_of_natAbs_le _ (by omega)
        refine ⟨g, y1, x1 - Int.tdiv a b * y1, by rw [hstep, hy], ?_, hgcd', hsign',
          Or.inr (Or.inr ⟨hb0, hr0, hy1, hY⟩)⟩
        linear_combination hbez - y1 * hF3

/-- The loop of `gcd` on non-negative arguments returns the greatest common
divisor. -/
theorem gcdLoop_spec (fuel : Nat) : ∀ a b : Int, b.natAbs < fuel → 0 ≤ a → 0 ≤ b →
    gcdLoop fuel a b = some (Int.gcd a b : Int) := by
  induction fuel with
  | zero => intro a b h; omega
  | succ fuel ih =>
    intro a b hfuel ha hb
    by_cases hb0 : b = 0
    · subst hb0
      simp only [gcdLoop, ne_eq, not_true_eq_false, if_false]
      congr 1
      simp [Int.gcd, Int.natAbs_of_nonneg ha]
    · have hrlt := natAbs_tmod_lt a b hb0
      simp only [gcdLoop, ne_eq, hb0, not_false_eq_true, if_true]
      rw [ih b (Int.tmod a b) (by omega) hb (Int.tmod_nonneg b ha), gcd_tmod_step]

/-- C24. For all `int` values `a` and `b`, `egcd(a, b)` returns a triple
`(g, x, y)` with `a*x + b*y = g` over the integers; for `a, b >= 0`, `g` is the
greatest common divisor of `a` and `b`, the value `gcd(a, b)` returns, and `g` is
0 only when `a = b = 0`. -/
theorem egcd_bezout (a b : Int) (ha : -2 ^ 63 ≤ a ∧ a < 2 ^ 63) (hb : -2 ^ 63 ≤ b ∧ b < 2 ^ 63) :
    ∃ g x y, egcd a b = some (g, x, y) ∧ a * x + b * y = g ∧
      (0 ≤ a → 0 ≤ b →
        g = (Int.gcd a b : Int) ∧ gcd a b = some g ∧ (g = 0 → a = 0 ∧ b = 0)) := by
  obtain ⟨g, x, y, hrun, hbez, hgcd, hsign, _⟩ :=
    egcdFuel_spec (b.natAbs + 1) a b (Nat.lt_succ_self _) (by omega) (by omega)
  refine ⟨g, x, y, hrun, hbez, fun h1 h2 => ?_⟩
  have hg : g = (Int.gcd a b : Int) := by
    rw [← hgcd]
    exact (Int.natAbs_of_nonneg (hsign h1 h2)).symm
  refine ⟨hg, ?_, fun h0 => ?_⟩
  · rw [hg]
    exact gcdLoop_spec _ a b (Nat.lt_succ_self _) h1 h2
  · rw [hg] at h0
    exact Int.gcd_eq_zero_iff.mp (by exact_mod_cast h0)

/-- Instance of C24 at `egcd(240, 46)`. -/
theorem egcd_bezout_witness :
    ((-2 ^ 63 : Int) ≤ 240 ∧ (240 : Int) < 2 ^ 63) ∧ ((-2 ^ 63 : Int) ≤ 46 ∧ (46 : Int) < 2 ^ 63) ∧
    ∃ g x y, egcd 240 46 = some (g, x, y) ∧ 240 * x + 46 * y = g ∧
      ((0 : Int) ≤ 240 → (0 : Int) ≤ 46 →
        g = (Int.gcd 240 46 : Int) ∧ gcd 240 46 = some g ∧ (g = 0 → (240 : Int) = 0 ∧ (46 : Int) = 0)) :=
  ⟨by decide, by decide, egcd_bezout 240 46 (by decide) (by decide)⟩

/-! ### Properties of `sieve` -/

/-- A natural number below `2^63` is not changed by the wrap. -/
theorem wrapInt_natCast (n : Nat) (h : n < 2 ^ 63) : wrapInt (n : Int) = (n : Int) := by
  unfold wrapInt
  omega

/-- The inner loop of `sieve` marks exactly the cells `j, j + i, j + 2i, ...` up to
`limit` and leaves the other cells as they were. -/
theorem markMultiples_spec (L i : Nat) (hi : 0 < i) (hL : L + i < 2 ^ 63) :
    ∀ (fuel j : Nat) (marked : List Bool), marked.length = L + 1 → L + 1 - j < fuel →
    ∃ marked1, markMultiples fuel (L : Int) (i : Int) (j : Int) marked = some marked1 ∧
      marked1.length = L + 1 ∧
      ∀ n, n ≤ L → (marked1[n]? = some true ↔
        (marked[n]? = some true ∨ (j ≤ n ∧ i ∣ n - j))) := by
  intro fuel
  induction fuel with
  | zero => intro j marked _ h; omega
  | succ fuel ih =>
    intro j marked hlen hfuel
    by_cases hj : j ≤ L
    · have hjI : (j : Int) ≤ (L : Int) := by exact_mod_cast hj
      have hidx : 0 ≤ (j : Int) ∧ (j : Int).toNat < marked.length := by
        constructor
        · exact Int.natCast_nonneg j
        · rw [Int.toNat_natCast, hlen]; omega
      have hwrap : wrapInt ((j : Int) + (i : Int)) = ((j + i : Nat) : Int) := by
        rw [← Nat.cast_add]
        exact wrapInt_natCast _ (by omega)
      obtain ⟨m1, hrun, hlen1, hspec⟩ :=
        ih (j + i) (marked.set j true) (by rw [List.length_set, hlen]) (by omega)
      refine ⟨m1, ?_, hlen1, ?_⟩
      · rw [markMultiples, if_pos hjI, if_pos hidx, hwrap, Int.toNat_natCast]
        exact hrun
      · intro n hn
        rw [hspec n hn, List.getElem?_set]
        have hjlen : j < marked.length := by omega
        constructor
        · rintro (h | ⟨h1, h2⟩)
          · by_cases hjn : j = n
            · right
              exact ⟨by omega, by rw [hjn, Nat.sub_self]; exact dvd_zero i⟩
            · rw [if_neg hjn] at h
              exact Or.inl h
          · right
            refine ⟨by omega, ?_⟩
            have : n - j = (n - (j + i)) + i := by omega
            rw [this]
            exact Dvd.dvd.add h2 (dvd_refl i)
        · rintro (h | ⟨h1, h2⟩)
          · by_cases hjn : j = n
            · left
              rw [if_pos hjn, if_pos hjlen]
            · left
              rw [if_neg hjn]
              exact h
          · by_cases hjn : j = n
            · left
              rw [if_pos hjn, if_pos hjlen]
            · right
              obtain ⟨k, hk⟩ := h2
              have hk0 : k ≠ 0 := by
                rintro rfl
                omega
              obtain ⟨k1, rfl⟩ := Nat.exists_eq_succ_of_ne_zero hk0
              have hge : i ≤ n - j := by
                rw [hk, Nat.mul_succ]
                exact Nat.le_add_left _ _
              refine ⟨by omega, ⟨k1, ?_⟩⟩
              have : n - (j + i) = n - j - i := by omega
              rw [this, hk, Nat.mul_succ, Nat.add_sub_cancel]
    · have hjI : ¬ (j : Int) ≤ (L : Int) := by
        intro h
        exact hj (by exact_mod_cast h)
      refine ⟨marked, ?_, hlen, ?_⟩
      · rw [markMultiples, if_neg hjI]
      · intro n hn
        constructor
        · exact Or.inl
        · rintro (h | ⟨h1, _⟩)
          · exact h
          · omega

/-- The primes below `i + 1` are the primes below `i`, and `i` when it is
prime. -/
theorem filter_prime_range_succ (i : Nat) :
    (List.range (i + 1)).filter (fun p => decide (Nat.Prime p)) =
      (List.range i).filter (fun p => decide (Nat.Prime p)) ++
        (if Nat.Prime i then [i] else []) := by
  rw [List.range_succ, List.filter_append]
  by_cases h : Nat.Prime i <;> simp [h]

/-- The outer loop of `sieve`, entered at `i` with the cells of `marked` set
exactly at the numbers that have a prime factor `p < i` with `p * p` not above
them, and with `primes` the primes below `i`, returns the primes up to `limit`. -/
theorem sieveLoop_spec (L : Nat) (hL : L ≤ 3037000499) :
    ∀ (fuel i : Nat) (marked : List Bool), 2 ≤ i → i ≤ L + 1 → L + 1 - i < fuel →
    marked.length = L + 1 →
    (∀ n, n ≤ L → (marked[n]? = some true ↔
      ∃ p, Nat.Prime p ∧ p < i ∧ p * p ≤ n ∧ p ∣ n)) →
    sieveLoop fuel (L : Int) (i : Int) marked
        (((List.range i).filter (fun p => decide (Nat.Prime p))).map (fun p : Nat => (p : Int))) =
      some (((List.range (L + 1)).filter (fun p => decide (Nat.Prime p))).map
        (fun p : Nat => (p : Int))) := by
  intro fuel
  induction fuel with
  | zero => intro i marked _ _ h; omega
  | succ fuel ih =>
    intro i marked hi2 hiL hfuel hlen hinv
    by_cases hle : i ≤ L
    · have hleI : (i : Int) ≤ (L : Int) := by exact_mod_cast hle
      have hwrap1 : wrapInt ((i : Int) + 1) = ((i + 1 : Nat) : Int) := by
        rw [show ((i : Int) + 1) = ((i + 1 : Nat) : Int) by push_cast; rfl]
        exact wrapInt_natCast _ (by omega)
      have hsq : i * i ≤ 3037000499 * 3037000499 := Nat.mul_le_mul (by omega) (by omega)
      have hwrapsq : wrapInt ((i : Int) * (i : Int)) = ((i * i : Nat) : Int) := by
        rw [← Nat.cast_mul]
        exact wrapInt_natCast _ (lt_of_le_of_lt hsq (by norm_num))
      have hsome : ∃ b, marked[i]? = some b := by
        have : i < marked.length := by omega
        exact ⟨marked[i], List.getElem?_eq_getElem this⟩
      obtain ⟨b, hb⟩ := hsome
      rw [sieveLoop, if_pos hleI, if_pos (Int.natCast_nonneg i), Int.toNat_natCast, hb]
      cases b with
      | true =>
        obtain ⟨p, hp, hpi, _, hdvd⟩ := (hinv i hle).mp hb
        have hnp : ¬ Nat.Prime i := by
          intro hprime
          rcases (Nat.dvd_prime hprime).mp hdvd with h | h
          · exact hp.one_lt.ne' h
          · omega
        have := ih (i + 1) marked (by omega) (by omega) (by omega) hlen (by
          intro n hn
          rw [hinv n hn]
          constructor
          · rintro ⟨q, hq, hqi, h1, h2⟩
            exact ⟨q, hq, by omega, h1, h2⟩
          · rintro ⟨q, hq, hqi, h1, h2⟩
            have hne : q ≠ i := fun e => hnp (e ▸ hq)
            exact ⟨q, hq, by omega, h1, h2⟩)
        rw [filter_prime_range_succ, if_neg hnp, List.append_nil] at this
        rw [hwrap1]
        exact this
      | false =>
        have hprime : Nat.Prime i := by
          by_contra hnp
          have h1 : i.minFac ^ 2 ≤ i := Nat.minFac_sq_le_self (by omega) hnp
          have hmp : Nat.Prime i.minFac := Nat.minFac_prime (by omega)
          have hlt : i.minFac < i := by
            have h2 := hmp.two_le
            have : i.minFac * 2 ≤ i.minFac ^ 2 := by
              rw [pow_two]; exact Nat.mul_le_mul_left _ h2
            omega
          have : marked[i]? = some true :=
            (hinv i hle).mpr ⟨i.minFac, hmp, hlt, by rw [← pow_two]; exact h1,
              Nat.minFac_dvd i⟩
          rw [hb] at this
          exact absurd this (by decide)
        have hii : 0 < i * i := Nat.mul_pos (by omega) (by omega)
        obtain ⟨m1, hrun, hlen1, hspec⟩ :=
          markMultiples_spec L i (by omega) (by omega) (L + 1) (i * i) marked hlen (by omega)
        rw [hwrapsq, Int.toNat_natCast, hrun, hwrap1]
        have := ih (i + 1) m1 (by omega) (by omega) (by omega) hlen1 (by
          intro n hn
          rw [hspec n hn, hinv n hn]
          constructor
          · rintro (⟨q, hq, hqi, h1, h2⟩ | ⟨h1, h2⟩)
            · exact ⟨q, hq, by omega, h1, h2⟩
            · refine ⟨i, hprime, by omega, h1, ?_⟩
              have : n = (n - i * i) + i * i := by omega
              rw [this]
              exact Dvd.dvd.add h2 (Dvd.intro _ rfl)
          · rintro ⟨q, hq, hqi, h1, h2⟩
            by_cases hqe : q = i
            · subst hqe
              right
              exact ⟨h1, Nat.dvd_sub' h2 (Dvd.intro _ rfl)⟩
            · left
              exact ⟨q, hq, by omega, h1, h2⟩)
        rw [filter_prime_range_succ, if_pos hprime, List.map_append] at this
        exact this
    · have hleI : ¬ (i : Int) ≤ (L : Int) := by
        intro h
        exact hle (by exact_mod_cast h)
      have hiE : i = L + 1 := by omega
      rw [sieveLoop, if_neg hleI, hiE]

/-- Result of `sieve` in closed form: the primes up to `limit`, ascending. -/
theorem sieve_eq (L : Nat) (hL : L ≤ 3037000499) :
    sieve (L : Int) = some (((List.range (L + 1)).filter (fun p => decide (Nat.Prime p))).map
      (fun p : Nat => (p : Int))) := by
  have hwrap : wrapInt ((L : Int) + 1) = ((L + 1 : Nat) : Int) := by
    rw [show ((L : Int) + 1) = ((L + 1 : Nat) : Int) by push_cast; rfl]
    exact wrapInt_natCast _ (by omega)
  have hneg : ¬ wrapInt ((L : Int) + 1) < 0 := by
    rw [hwrap]
    exact not_lt.mpr (Int.natCast_nonneg _)
  rw [sieve, if_neg hneg, hwrap, Int.toNat_natCast, Int.toNat_natCast]
  by_cases h0 : L = 0
  · subst h0
    decide
  · have h := sieveLoop_spec L hL (L + 1) 2 (List.replicate (L + 1) false) le_rfl (by omega)
      (by omega) (List.length_replicate _ _) (by
        intro n hn
        constructor
        · intro h
          rw [List.getElem?_replicate] at h
          split at h <;> simp at h
        · rintro ⟨p, hp, hp2, _⟩
          exact absurd hp.two_le (by omega))
    have hnil : (List.range 2).filter (fun p => decide (Nat.Prime p)) = [] := by decide
    rw [hnil] at h
    exact h

/-- C25. For every `limit >= 0` with `limit * limit` representable as an `int`
(`limit <= 3037000499`), `sieve(limit)` returns a strictly increasing list whose
elements are exactly the primes `p` with `2 <= p <= limit`; the list is empty
for `limit < 2`. -/
theorem sieve_primes (limit : Int) (h0 : 0 ≤ limit) (h1 : limit ≤ 3037000499) :
    ∃ primes, sieve limit = some primes ∧ primes.Pairwise (fun p q => p < q) ∧
      (∀ p : Int, p ∈ primes ↔ 2 ≤ p ∧ p ≤ limit ∧ Nat.Prime p.toNat) ∧
      (limit < 2 → primes = []) := by
  obtain ⟨L, rfl⟩ := Int.eq_ofNat_of_zero_le h0
  have hL : L ≤ 3037000499 := by exact_mod_cast h1
  have hmem : ∀ p : Int,
      p ∈ ((List.range (L + 1)).filter (fun p => decide (Nat.Prime p))).map
        (fun p : Nat => (p : Int)) ↔ 2 ≤ p ∧ p ≤ (L : Int) ∧ Nat.Prime p.toNat := by
    intro p
    simp only [List.mem_map, List.mem_filter, List.mem_range, decide_eq_true_eq]
    constructor
    · rintro ⟨q, ⟨hq, hprime⟩, rfl⟩
      refine ⟨by exact_mod_cast hprime.two_le, by exact_mod_cast Nat.lt_succ_iff.mp hq, ?_⟩
      rw [Int.toNat_natCast]
      exact hprime
    · rintro ⟨h2, hle, hprime⟩
      refine ⟨p.toNat, ⟨?_, hprime⟩, ?_⟩
      · omega
      · omega
  refine ⟨_, sieve_eq L hL, ?_, hmem, ?_⟩
  · apply List.Pairwise.map _ _ (List.Pairwise.filter _ (List.pairwise_lt_range (L + 1)))
    intro a b hab
    exact_mod_cast hab
  · intro hlt
    apply List.eq_nil_iff_forall_not_mem.mpr
    intro p hp
    have := (hmem p).mp hp
    omega

/-- Instance of C25 at `limit = 10`. -/
theorem sieve_primes_witness :
    (0 : Int) ≤ 10 ∧ (10 : Int) ≤ 3037000499 ∧
    ∃ primes, sieve 10 = some primes ∧ primes.Pairwise (fun p q => p < q) ∧
      (∀ p : Int, p ∈ primes ↔ 2 ≤ p ∧ p ≤ 10 ∧ Nat.Prime p.toNat) ∧
      ((10 : Int) < 2 → primes = []) :=
  ⟨by decide, by decide, sieve_primes 10 (by decide) (by decide)⟩

/-! ### Properties of `HasCycle` -/

/-- An entry found by `lookup` is an entry of the list. -/
theorem lookup_some_mem (adj : List (Int × List Int)) (u : Int) (targets : List Int)
    (h : adj.lookup u = some targets) : (u, targets) ∈ adj := by
  induction adj with
  | nil => simp at h
  | cons e es ih =>
    obtain ⟨k, t⟩ := e
    rw [List.lookup_cons] at h
    by_cases hk : u = k
    · subst hk
      simp at h
      subst h
      exact List.mem_cons_self _ _
    · have : (u == k) = false := by simpa using hk
      rw [this] at h
      exact List.mem_cons_of_mem _ (ih h)

/-- In a map, whose keys are distinct, the read of a key finds the slice of its
entry. -/
theorem lookup_of_mem (adj : List (Int × List Int)) (hnd : (adj.map Prod.fst).Nodup)
    (u : Int) (targets : List Int) (h : (u, targets) ∈ adj) : adj.lookup u = some targets := by
  induction adj with
  | nil => cases h
  | cons e es ih =>
    obtain ⟨k, t⟩ := e
    rw [List.map_cons, List.nodup_cons] at hnd
    rw [List.lookup_cons]
    rcases List.mem_cons.mp h with hhead | htail
    · cases hhead
      simp
    · have hk : u ≠ k := by
        intro huk
        rw [huk] at htail
        exact hnd.1 (List.mem_map.mpr ⟨_, htail, rfl⟩)
      have : (u == k) = false := by simpa using hk
      rw [this]
      exact ih hnd.2 htail

/-- A target read from `adj[u]` is the end of an edge from `u`. -/
theorem neighbours_edge (adj : List (Int × List Int)) (u w : Int)
    (h : w ∈ neighbours adj u) : edge adj u w := by
  unfold neighbours at h
  split at h
  · next targets hl => exact ⟨targets, lookup_some_mem adj u targets hl, h⟩
  · simp at h

/-- In a map, whose keys are distinct, the read `adj[u]` lists the end of every
edge from `u`. -/
theorem edge_neighbours (adj : List (Int × List Int)) (hnd : (adj.map Prod.fst).Nodup)
    (u w : Int) (h : edge adj u w) : w ∈ neighbours adj u := by
  obtain ⟨targets, hmem, hw⟩ := h
  unfold neighbours
  rw [lookup_of_mem adj hnd u targets hmem]
  exact hw

/-- An edge starts at a key of the map and ends at a vertex. -/
theorem edge_mem (adj : List (Int × List Int)) (u w : Int) (h : edge adj u w) :
    u ∈ adj.map Prod.fst ∧ w ∈ vertices adj := by
  obtain ⟨targets, hmem, hw⟩ := h
  refine ⟨List.mem_map.mpr ⟨_, hmem, rfl⟩, ?_⟩
  unfold vertices
  refine List.mem_append_right _ (List.mem_flatten.mpr ⟨targets, ?_, hw⟩)
  exact List.mem_map.mpr ⟨_, hmem, rfl⟩

/-- Every vertex reached from a black vertex is black. -/
theorem ColorInv.reach_black {adj : List (Int × List Int)} {color : Int → Int}
    (hinv : ColorInv adj color) {w x : Int} (hw : color w = 2)
    (hreach : Relation.ReflTransGen (edge adj) w x) : color x = 2 := by
  induction hreach with
  | refl => exact hw
  | tail _ hstep ih => exact hinv.closed _ _ ih hstep

/-- No change of colour is a step. -/
theorem ColorStep.refl (color : Int → Int) : ColorStep color color := fun _ => Or.inl rfl

/-- Steps compose. -/
theorem ColorStep.trans {c0 c1 c2 : Int → Int} (h01 : ColorStep c0 c1) (h12 : ColorStep c1 c2) :
    ColorStep c0 c2 := by
  intro u
  rcases h01 u with h | ⟨h, h'⟩ <;> rcases h12 u with k | ⟨k, k'⟩
  · exact Or.inl (k.trans h)
  · exact Or.inr ⟨h ▸ k, k'⟩
  · exact Or.inr ⟨h, k.trans h'⟩
  · exact Or.inr ⟨h, k'⟩

/-- A step keeps the set of gray vertices. -/
theorem ColorStep.gray {c0 c1 : Int → Int} (h : ColorStep c0 c1) {u : Int} :
    c1 u = 1 ↔ c0 u = 1 := by
  rcases h u with k | ⟨k, k'⟩
  · rw [k]
  · rw [k, k']; decide

/-- A step keeps black vertices black. -/
theorem ColorStep.black {c0 c1 : Int → Int} (h : ColorStep c0 c1) {u : Int} (hu : c0 u = 2) :
    c1 u = 2 := by
  rcases h u with k | ⟨k, k'⟩
  · rw [k, hu]
  · exact k'

/-- A step turns no vertex white. -/
theorem ColorStep.white {c0 c1 : Int → Int} (h : ColorStep c0 c1) {u : Int} (hu : c1 u = 0) :
    c0 u = 0 := by
  rcases h u with k | ⟨k, k'⟩
  · rw [← k, hu]
  · exact k

/-- The number of white vertices does not grow when no vertex turns white. -/
theorem whiteVertices_card_le (adj : List (Int × List Int)) (c0 c1 : Int → Int)
    (h : ∀ u, c1 u = 0 → c0 u = 0) :
    (whiteVertices adj c1).card ≤ (whiteVertices adj c0).card := by
  apply Finset.card_le_card
  intro u hu
  simp only [whiteVertices, Finset.mem_filter] at hu ⊢
  exact ⟨hu.1, h u hu.2⟩

/-- Turning a white vertex gray lowers the number of white vertices. -/
theorem whiteVertices_card_lt (adj : List (Int × List Int)) (color : Int → Int) (v : Int)
    (hv : v ∈ vertices adj) (hc : color v = 0) :
    (whiteVertices adj (Function.update color v 1)).card < (whiteVertices adj color).card := by
  apply Finset.card_lt_card
  rw [Finset.ssubset_iff_of_subset]
  · refine ⟨v, ?_, ?_⟩
    · simp only [whiteVertices, Finset.mem_filter, List.mem_toFinset]
      exact ⟨hv, hc⟩
    · simp only [whiteVertices, Finset.mem_filter, List.mem_toFinset, Function.update_same]
      rintro ⟨_, h⟩
      exact absurd h (by decide)
  · intro u hu
    simp only [whiteVertices, Finset.mem_filter, List.mem_toFinset] at hu ⊢
    refine ⟨hu.1, ?_⟩
    by_cases huv : u = v
    · rw [huv]; exact hc
    · rw [Function.update_noteq huv] at hu
      exact hu.2

/-- The loop over the targets of a gray vertex `v`: it returns; if it returns
`true` the graph has a cycle, and if it ends the invariant holds again and all
the targets read are black. -/
theorem visit_spec (adj : List (Int × List Int)) (n : Nat)
    (f : Int → (Int → Int) → Option (Bool × (Int → Int))) (hf : DfsSpec adj n f) (v : Int) :
    ∀ (targets : List Int) (color : Int → Int), (∀ w ∈ targets, edge adj v w) →
    color v = 1 → (whiteVertices adj color).card ≤ n → ColorInv adj color →
    (∀ g, color g = 1 → Relation.ReflTransGen (edge adj) g v) →
    ∃ b color1, visit f targets color = some (b, color1) ∧
      (b = true → ∃ x, Relation.TransGen (edge adj) x x) ∧
      (b = false → ColorInv adj color1 ∧ ColorStep color color1 ∧
        ∀ w ∈ targets, color1 w = 2) := by
  intro targets
  induction targets with
  | nil =>
    intro color _ _ _ hinv _
    exact ⟨false, color, rfl, fun h => (by cases h),
      fun _ => ⟨hinv, ColorStep.refl color, fun w hw => by cases hw⟩⟩
  | cons dst rest ih =>
    intro color hedge hv hcard hinv hgray
    have hvd : edge adj v dst := hedge dst (List.mem_cons_self _ _)
    have hrest : ∀ w ∈ rest, edge adj v w := fun w hw => hedge w (List.mem_cons_of_mem _ hw)
    by_cases h1 : color dst = 1
    · refine ⟨true, color, by rw [visit, if_pos h1], fun _ => ⟨v, ?_⟩, fun h => by cases h⟩
      exact Relation.TransGen.head' hvd (hgray dst h1)
    · by_cases h0 : color dst = 0
      · obtain ⟨b, c1, hrun, htrue, hfalse⟩ := hf dst color (edge_mem adj v dst hvd).2 h0 hcard hinv
          (fun g hg => Relation.ReflTransGen.tail (hgray g hg) hvd)
        cases b with
        | true =>
          refine ⟨true, c1, ?_, fun _ => htrue rfl, fun h => by cases h⟩
          rw [visit, if_neg h1, if_pos h0, hrun]
        | false =>
          obtain ⟨hinv1, hstep1, hblack⟩ := hfalse rfl
          obtain ⟨b2, c2, hrun2, htrue2, hfalse2⟩ := ih c1 hrest (hstep1.gray.mpr hv)
            (le_trans (whiteVertices_card_le adj color c1 (fun u => hstep1.white)) hcard) hinv1
            (fun g hg => hgray g (hstep1.gray.mp hg))
          refine ⟨b2, c2, ?_, htrue2, fun hb => ?_⟩
          · rw [visit, if_neg h1, if_pos h0, hrun]
            exact hrun2
          · obtain ⟨hinv2, hstep2, hall⟩ := hfalse2 hb
            refine ⟨hinv2, hstep1.trans hstep2, fun w hw => ?_⟩
            rcases List.mem_cons.mp hw with rfl | hw
            · exact hstep2.black hblack
            · exact hall w hw
      · have h2 : color dst = 2 := by
          rcases hinv.range dst with h | h | h
          · exact absurd h h0
          · exact absurd h h1
          · exact h
        obtain ⟨b2, c2, hrun2, htrue2, hfalse2⟩ := ih color hrest hv hcard hinv hgray
        refine ⟨b2, c2, ?_, htrue2, fun hb => ?_⟩
        · rw [visit, if_neg h1, if_neg h0]
          exact hrun2
        · obtain ⟨hinv2, hstep2, hall⟩ := hfalse2 hb
          refine ⟨hinv2, hstep2, fun w hw => ?_⟩
          rcases List.mem_cons.mp hw with rfl | hw
          · exact hstep2.black h2
          · exact hall w hw

/-- The closure `dfs` meets its contract when the bound on the depth is at
least the number of white vertices. -/
theorem dfs_spec (adj : List (Int × List Int)) (hnd : (adj.map Prod.fst).Nodup) :
    ∀ n, DfsSpec adj n (dfs adj n) := by
  intro n
  induction n with
  | zero =>
    intro w color hw hc hcard _ _
    have hmem : w ∈ whiteVertices adj color := by
      simp only [whiteVertices, Finset.mem_filter, List.mem_toFinset]
      exact ⟨hw, hc⟩
    have := Finset.card_pos.mpr ⟨w, hmem⟩
    omega
  | succ n ih =>
    intro v color hv hc hcard hinv hgray
    have hne1 : ∀ u, u ≠ v → Function.update color v 1 u = color u :=
      fun u hu => Function.update_noteq hu _ _
    have hinv0 : ColorInv adj (Function.update color v 1) := by
      refine ⟨fun u => ?_, fun u w hu huw => ?_, fun u hu => ?_⟩
      · by_cases huv : u = v
        · rw [huv, Function.update_same]; exact Or.inr (Or.inl rfl)
        · rw [hne1 u huv]; exact hinv.range u
      · have huv : u ≠ v := by
          rintro rfl
          rw [Function.update_same] at hu
          exact absurd hu (by decide)
        rw [hne1 u huv] at hu
        have hw2 := hinv.closed u w hu huw
        have hwv : w ≠ v := by
          rintro rfl
          rw [hc] at hw2
          exact absurd hw2 (by decide)
        rw [hne1 w hwv]
        exact hw2
      · have huv : u ≠ v := by
          rintro rfl
          rw [Function.update_same] at hu
          exact absurd hu (by decide)
        rw [hne1 u huv] at hu
        exact hinv.acyclic u hu
    have hgray0 : ∀ g, Function.update color v 1 g = 1 →
        Relation.ReflTransGen (edge adj) g v := by
      intro g hg
      by_cases hgv : g = v
      · rw [hgv]
      · rw [hne1 g hgv] at hg
        exact hgray g hg
    have hcard0 : (whiteVertices adj (Function.update color v 1)).card ≤ n := by
      have := whiteVertices_card_lt adj color v hv hc
      omega
    obtain ⟨b, c1, hrun, htrue, hfalse⟩ := visit_spec adj n (dfs adj n) ih v (neighbours adj v)
      (Function.update color v 1) (fun w hw => neighbours_edge adj v w hw)
      (Function.update_same _ _ _) hcard0 hinv0
      hgray0
    cases b with
    | true =>
      refine ⟨true, c1, ?_, fun _ => htrue rfl, fun h => by cases h⟩
      rw [dfs, hrun]
    | false =>
      obtain ⟨hinv1, hstep1, hall⟩ := hfalse rfl
      have hv1 : c1 v = 1 := hstep1.gray.mpr (Function.update_same _ _ _)
      have hne2 : ∀ u, u ≠ v → Function.update c1 v 2 u = c1 u :=
        fun u hu => Function.update_noteq hu _ _
      refine ⟨false, Function.update c1 v 2, ?_, fun h => (by cases h), fun _ => ⟨?_, ?_, ?_⟩⟩
      · rw [dfs, hrun]
      · refine ⟨fun u => ?_, fun u w hu huw => ?_, fun u hu => ?_⟩
        · by_cases huv : u = v
          · rw [huv, Function.update_same]; exact Or.inr (Or.inr rfl)
          · rw [hne2 u huv]; exact hinv1.range u
        · have hw1 : c1 w = 2 ∨ w = v := by
            by_cases huv : u = v
            · left
              rw [huv] at huw
              exact hall w (edge_neighbours adj hnd v w huw)
            · left
              rw [hne2 u huv] at hu
              exact hinv1.closed u w hu huw
          by_cases hwv : w = v
          · rw [hwv, Function.update_same]
          · rw [hne2 w hwv]
            rcases hw1 with h | h
            · exact h
            · exact absurd h hwv
        · by_cases huv : u = v
          · rw [huv]
            intro hcyc
            obtain ⟨w, hvw, hwv⟩ := Relation.TransGen.head'_iff.mp hcyc
            have hw2 : c1 w = 2 := hall w (edge_neighbours adj hnd v w hvw)
            have := hinv1.reach_black hw2 hwv
            rw [hv1] at this
            exact absurd this (by decide)
          · rw [hne2 u huv] at hu
            exact hinv1.acyclic u hu
      · intro u
        by_cases huv : u = v
        · rw [huv, Function.update_same]
          exact Or.inr ⟨hc, rfl⟩
        · rw [hne2 u huv]
          have := hstep1 u
          rw [hne1 u huv] at this
          exact this
      · exact Function.update_same _ _ _

/-- The loop over the keys, entered with no gray vertex: it returns; it returns
`true` only if the graph has a cycle, and if it returns `false` the keys
yielded are black in a colouring that satisfies the invariant. -/
theorem HasCycleLoop_spec (adj : List (Int × List Int)) (hnd : (adj.map Prod.fst).Nodup)
    (n : Nat) :
    ∀ (keys : List Int) (color : Int → Int), (∀ v ∈ keys, v ∈ vertices adj) →
    (whiteVertices adj color).card ≤ n → ColorInv adj color → (∀ g, color g ≠ 1) →
    ∃ b, HasCycleLoop adj n keys color = some b ∧
      (b = true → ∃ x, Relation.TransGen (edge adj) x x) ∧
      (b = false → ∃ color1, ColorInv adj color1 ∧ ColorStep color color1 ∧
        ∀ v ∈ keys, color1 v = 2) := by
  intro keys
  induction keys with
  | nil =>
    intro color _ _ hinv _
    exact ⟨false, rfl, fun h => (by cases h),
      fun _ => ⟨color, hinv, ColorStep.refl color, fun v hv => by cases hv⟩⟩
  | cons v rest ih =>
    intro color hkeys hcard hinv hnogray
    have hrest : ∀ w ∈ rest, w ∈ vertices adj := fun w hw => hkeys w (List.mem_cons_of_mem _ hw)
    by_cases h0 : color v = 0
    · obtain ⟨b, c1, hrun, htrue, hfalse⟩ := dfs_spec adj hnd n v color
        (hkeys v (List.mem_cons_self _ _)) h0 hcard hinv (fun g hg => absurd hg (hnogray g))
      cases b with
      | true =>
        refine ⟨true, ?_, fun _ => htrue rfl, fun h => by cases h⟩
        rw [HasCycleLoop, if_pos h0, hrun]
      | false =>
        obtain ⟨hinv1, hstep1, hblack⟩ := hfalse rfl
        obtain ⟨b2, hrun2, htrue2, hfalse2⟩ := ih c1 hrest
          (le_trans (whiteVertices_card_le adj color c1 (fun u => hstep1.white)) hcard) hinv1
          (fun g hg => hnogray g (hstep1.gray.mp hg))
        refine ⟨b2, ?_, htrue2, fun hb => ?_⟩
        · rw [HasCycleLoop, if_pos h0, hrun]
          exact hrun2
        · obtain ⟨c2, hinv2, hstep2, hall⟩ := hfalse2 hb
          refine ⟨c2, hinv2, hstep1.trans hstep2, fun w hw => ?_⟩
          rcases List.mem_cons.mp hw with rfl | hw
          · exact hstep2.black hblack
          · exact hall w hw
    · have h2 : color v = 2 := by
        rcases hinv.range v with h | h | h
        · exact absurd h h0
        · exact absurd h (hnogray v)
        · exact h
      obtain ⟨b2, hrun2, htrue2, hfalse2⟩ := ih color hrest hcard hinv hnogray
      refine ⟨b2, ?_, htrue2, fun hb => ?_⟩
      · rw [HasCycleLoop, if_neg h0]
        exact hrun2
      · obtain ⟨c2, hinv2, hstep2, hall⟩ := hfalse2 hb
        refine ⟨c2, hinv2, hstep2, fun w hw => ?_⟩
        rcases List.mem_cons.mp hw with rfl | hw
        · exact hstep2.black h2
        · exact hall w hw

/-- C27. For every finite directed graph given as an adjacency map (a list of
entries with pairwise distinct keys; a vertex may occur only as a target) and
every order in which the keys of the map are yielded, `HasCycle` returns, and it
returns `true` if and only if the graph has a directed cycle: a vertex from which
a path of one or more edges of the map leads back to it (a self-loop is a
cycle). -/
theorem HasCycle_iff_cycle (adj : List (Int × List Int)) (order : List Int)
    (hnd : (adj.map Prod.fst).Nodup) (horder : order.Perm (adj.map Prod.fst)) :
    ∃ b, HasCycle adj order = some b ∧
      (b = true ↔ ∃ v, Relation.TransGen (edge adj) v v) := by
  have hkeys : ∀ v ∈ order, v ∈ vertices adj := fun v hv =>
    List.mem_append_left _ (horder.mem_iff.mp hv)
  have hinit : ColorInv adj (fun _ => 0) :=
    ⟨fun _ => Or.inl rfl, fun u w hu _ => absurd hu (by decide),
      fun u hu => absurd hu (by decide)⟩
  have hcard : (whiteVertices adj (fun _ => 0)).card ≤ (vertices adj).length + 1 := by
    calc (whiteVertices adj (fun _ => 0)).card ≤ (vertices adj).toFinset.card :=
          Finset.card_filter_le _ _
      _ ≤ (vertices adj).length := List.toFinset_card_le _
      _ ≤ (vertices adj).length + 1 := Nat.le_succ _
  obtain ⟨b, hrun, htrue, hfalse⟩ := HasCycleLoop_spec adj hnd ((vertices adj).length + 1) order
    (fun _ => 0) hkeys hcard hinit (fun g => by show (0 : Int) ≠ 1; decide)
  refine ⟨b, hrun, htrue, ?_⟩
  rintro ⟨x, hx⟩
  cases b with
  | true => rfl
  | false =>
    exfalso
    obtain ⟨c1, hinv1, _, hall⟩ := hfalse rfl
    obtain ⟨w, hxw, _⟩ := Relation.TransGen.head'_iff.mp hx
    have hxkey : x ∈ order := horder.mem_iff.mpr (edge_mem adj x w hxw).1
    exact hinv1.acyclic x (hall x hxkey) hx

/-- Instance of C27 on the graph with the edges 1 -> 2, 2 -> 3 and 3 -> 1, with
the keys yielded in the order 2, 3, 1. -/
theorem HasCycle_iff_cycle_witness :
    (List.map Prod.fst [((1 : Int), [(2 : Int)]), (2, [3]), (3, [1])]).Nodup ∧
    List.Perm [2, 3, 1] (List.map Prod.fst [((1 : Int), [(2 : Int)]), (2, [3]), (3, [1])]) ∧
    ∃ b, HasCycle [(1, [2]), (2, [3]), (3, [1])] [2, 3, 1] = some b ∧
      (b = true ↔ ∃ v, Relation.TransGen (edge [(1, [2]), (2, [3]), (3, [1])]) v v) :=
  ⟨by decide, by decide,
    HasCycle_iff_cycle [(1, [2]), (2, [3]), (3, [1])] [2, 3, 1] (by decide) (by decide)⟩

end Cheatsheets
